import Mathlib

/-!
Verification of the `remote-uci` external engine provider.

This file gives a shallow embedding of the core of the repository:

* the UCI line codec of `remote-uci/src/uci.rs` (tokenizer `read` /
  `read_until`, the input parser `Parser::parse_in`, the output parser
  `Parser::parse_out`, and the `Display` implementations),
* the engine supervisor state machine of `remote-uci/src/engine.rs`
  (`ClientCommand` / `EngineCommand` classification and the counter
  bookkeeping of `Engine::send` / `Engine::recv`),
* the secret comparison and websocket handler gate of
  `remote-uci/src/ws.rs`,
* the memory-derived hash limit of `remote-uci/src/lib.rs`.

Lines of UCI text are modelled as `List Char`.  The separators recognised
by the tokenizer are the ASCII space and tab bytes, which in UTF-8 can
only occur as stand-alone code units, so splitting at separator chars
coincides with the byte-level `memchr2` splitting of the source.

Chess-specific move (`shakmaty::uci::Uci`) and FEN (`shakmaty::fen::Fen`)
parsing is an external library explicitly out of the repository's scope
("Move/FEN parsing beyond opaque token pass-through; the codec preserves
these as strings whose validation may be delegated to an external
library").  It is modelled by an abstract `ExtCodec` whose parse
functions return the canonical (re-displayable) string form of the value;
the round-trip theorem takes the external library's contract as explicit
hypotheses and a concrete instance discharges them in the witness.

Recursion that the source performs by consuming an iterator is embedded
with an explicit fuel parameter (always called with more fuel than the
length of the remaining input, so the out-of-fuel branch is unreachable);
this keeps every definition computable by kernel reduction.
-/

deriving instance DecidableEq for Except

namespace RemoteUci

/-- A line of text, as a list of characters. -/
abbrev Str := List Char

/-- `uci.rs::is_separator`: the token separators (space and tab). -/
def isSep (c : Char) : Bool :=
  c == ' ' || c == '\t'

/-- `str::trim_end_matches(is_separator)`: drop trailing separators. -/
def trimEnd (s : Str) : Str :=
  (s.reverse.dropWhile isSep).reverse

/-- Negation of `isSep`, used for token extraction. -/
def nonSep (c : Char) : Bool :=
  !isSep c

/-- `uci.rs::read`: skip leading separators, then split off the first
token (the run of non-separator chars); returns `(none, [])` when the
rest of the line is blank.  The returned tail starts at the first
separator after the token, exactly as `split_at(memchr2 ..)` does. -/
def read (s : Str) : Option Str × Str :=
  let t := s.dropWhile isSep
  match t with
  | [] => (none, [])
  | _ :: _ => (some (t.takeWhile nonSep), t.dropWhile nonSep)

/-- Walk of `uci.rs::read_until` over the separator positions of the
(start-trimmed) line: at each separator, if the token that follows
satisfies `p`, stop and return the text before the separator (end
trimmed) together with the tail starting at the separator; otherwise keep
walking.  `acc` is the text already walked past. -/
def readUntilGo (p : Str → Bool) (acc : Str) : Str → Str × Str
  | [] => (trimEnd acc, [])
  | c :: rest =>
    if isSep c then
      match (read (c :: rest)).fst with
      | some tk =>
        if p tk then (trimEnd acc, c :: rest)
        else readUntilGo p (acc ++ [c]) rest
      | none => readUntilGo p (acc ++ [c]) rest
    else readUntilGo p (acc ++ [c]) rest

/-- `uci.rs::read_until`: capture text up to (but not including) the
first separator whose following token satisfies `p`; if no separator
matches, capture the whole (trimmed) rest of the line. -/
def readUntil (s : Str) (p : Str → Bool) : Option Str × Str :=
  let t := s.dropWhile isSep
  match t with
  | [] => (none, [])
  | _ :: _ =>
    let r := readUntilGo p [] t
    (some r.fst, r.snd)

/-- No separator inside `s` is followed by a token satisfying `p`:
the intrinsic shape of a capture returned by `readUntil`. -/
def noStopTok (p : Str → Bool) : Str → Bool
  | [] => true
  | c :: rest =>
    (if isSep c then
      match (read (c :: rest)).fst with
      | some tk => !p tk
      | none => true
    else true)
    && noStopTok p rest

/-- Nonempty with non-separator first and last chars: the shape of a
`readUntil` capture. -/
def tokTrimB (s : Str) : Bool :=
  match s, s.getLast? with
  | c :: _, some d => !isSep c && !isSep d
  | _, _ => false

/-- Free of carriage return and line feed (guaranteed by
`Parser::new`). -/
def cleanB (s : Str) : Bool :=
  s.all fun ch => !(ch == '\r') && !(ch == '\n')

/-- A single token: nonempty, no separators, no line breaks. -/
def isTokenB (s : Str) : Bool :=
  !s.isEmpty && s.all fun ch => !isSep ch && !(ch == '\r') && !(ch == '\n')

/-! ### Integer parsing and printing

Rust's `u32`/`u64`/`i64` `FromStr` accept an optional sign (only `+` for
the unsigned types), then one or more ASCII digits, and reject values out
of range.  `Display` prints the plain decimal digits. -/

/-- Value of an ASCII digit. -/
def digitVal (c : Char) : Option Nat :=
  if '0' ≤ c ∧ c ≤ '9' then some (c.toNat - 48) else none

/-- Accumulating decimal evaluation; `none` on any non-digit char. -/
def digitsValGo (acc : Nat) : Str → Option Nat
  | [] => some acc
  | c :: r =>
    match digitVal c with
    | some d => digitsValGo (acc * 10 + d) r
    | none => none

/-- Decimal value of a nonempty, all-digit string. -/
def digitsVal : Str → Option Nat
  | [] => none
  | s => digitsValGo 0 s

/-- The optional leading `+` accepted by Rust's unsigned `FromStr`. -/
def stripPlus : Str → Str
  | '+' :: r => r
  | t => t

/-- Rust `FromStr` for a `bits`-wide unsigned integer: optional `+`,
digits, range check. -/
def parseUNat (bits : Nat) (t : Str) : Option Nat :=
  match digitsVal (stripPlus t) with
  | some v => if v < 2 ^ bits then some v else none
  | none => none

/-- Rust `FromStr` for a `bits`-wide signed integer: optional sign,
digits, two's-complement range check. -/
def parseInt (bits : Nat) (t : Str) : Option Int :=
  match t with
  | '-' :: r =>
    match digitsVal r with
    | some v => if v ≤ 2 ^ (bits - 1) then some (-(v : Int)) else none
    | none => none
  | '+' :: r =>
    match digitsVal r with
    | some v => if v < 2 ^ (bits - 1) then some (v : Int) else none
    | none => none
  | r =>
    match digitsVal r with
    | some v => if v < 2 ^ (bits - 1) then some (v : Int) else none
    | none => none

/-- The ASCII digit char for `r < 10`. -/
def digitChar (r : Nat) : Char :=
  Char.ofNat (r + 48)

/-- Decimal printing, least-significant digit first into `acc`; the fuel
is always at least the number of digits. -/
def natStrF : Nat → Nat → Str → Str
  | 0, _, acc => acc
  | fuel + 1, n, acc => if n = 0 then acc else natStrF fuel (n / 10) (digitChar (n % 10) :: acc)

/-- Rust's decimal `Display` of an unsigned integer. -/
def natStr (n : Nat) : Str :=
  if n = 0 then ['0'] else natStrF (n + 1) n []

/-! ### The input command type (`uci.rs::UciIn`)

Moves and FENs are opaque strings validated by the external library; the
parser stores the canonical string form of the external value, and
`Display` writes it back verbatim. -/

/-- `uci.rs::ProtocolError` (payloads of the carried sub-errors elided). -/
inductive ProtocolError where
  | unexpectedToken
  | unexpectedLineBreak
  | expectedEndOfLine
  | unexpectedEndOfLine
  | invalidFen
  | invalidMove
  | invalidInteger
  | invalidOptionValue
deriving DecidableEq, Repr

/-- The external move/FEN library (`shakmaty`), abstracted: a parse
function returns the canonical string form of the parsed value (the
string its `Display` would print), or `none` on a parse error. -/
structure ExtCodec where
  parseMove : Str → Option Str
  parseFen : Str → Option Str

/-- Fields of `UciIn::Go`; durations are in milliseconds. -/
structure GoParams where
  searchmoves : Option (List Str)
  ponder : Bool
  wtime : Option Nat
  btime : Option Nat
  winc : Option Nat
  binc : Option Nat
  movestogo : Option Nat
  depth : Option Nat
  nodes : Option Nat
  mate : Option Nat
  movetime : Option Nat
  infinite : Bool
deriving DecidableEq, Repr

/-- All-absent `Go` parameters, the initial state of `parse_go`. -/
def goDefault : GoParams :=
  { searchmoves := none, ponder := false, wtime := none, btime := none,
    winc := none, binc := none, movestogo := none, depth := none,
    nodes := none, mate := none, movetime := none, infinite := false }

/-- `uci.rs::UciIn`. -/
inductive UciIn where
  | uci
  | isready
  | setoption (name : Str) (value : Option Str)
  | ucinewgame
  | position (fen : Option Str) (moves : List Str)
  | go (params : GoParams)
  | stop
  | ponderhit
deriving DecidableEq, Repr

/-! ### The input parser (`Parser::parse_in` and helpers) -/

/-- `Parser::end`. -/
def endOfLine (s : Str) : Except ProtocolError Unit :=
  match (read s).fst with
  | some _ => .error .expectedEndOfLine
  | none => .ok ()

/-- Token predicate `|t| t == "value"` of `parse_setoption`. -/
def valuePred (tk : Str) : Bool :=
  tk = "value".data

/-- Token predicate `|t| t == "moves"` of `parse_position`. -/
def movesPred (tk : Str) : Bool :=
  tk = "moves".data

/-- `Parser::parse_setoption`. -/
def parseSetoption (s : Str) : Except ProtocolError UciIn :=
  match read s with
  | (some t, s₁) =>
    if t = "name".data then
      match readUntil s₁ valuePred with
      | (some name, s₂) =>
        match read s₂ with
        | (some t₂, s₃) =>
          -- the source marks any token other than "value" here `unreachable!()`
          if t₂ = "value".data then
            match readUntil s₃ (fun _ => false) with
            | (some v, _) => .ok (.setoption name (some v))
            | (none, _) => .error .unexpectedEndOfLine
          else .error .unexpectedToken
        | (none, _) => .ok (.setoption name none)
      | (none, _) => .error .unexpectedEndOfLine
    else .error .unexpectedToken
  | (none, _) => .error .unexpectedEndOfLine

/-- `Parser::parse_moves` (used after `searchmoves` and in the output
direction): consume tokens while they parse as moves, stop at the first
token that does not. -/
def parseMovesF (c : ExtCodec) : Nat → Str → List Str × Str
  | 0, s => ([], s)
  | fuel + 1, s =>
    match read s with
    | (some t, s') =>
      match c.parseMove t with
      | some m =>
        let r := parseMovesF c fuel s'
        (m :: r.fst, r.snd)
      | none => ([], s)
    | (none, _) => ([], s)

/-- The `moves` tail of `parse_position`: every remaining token must
parse as a move (`collect::<Result<_, _>>`). -/
def parseAllMovesF (c : ExtCodec) : Nat → Str → Option (List Str)
  | 0, _ => none
  | fuel + 1, s =>
    match read s with
    | (none, _) => some []
    | (some t, s') =>
      match c.parseMove t with
      | some m => (parseAllMovesF c fuel s').map (m :: ·)
      | none => none

/-- Second half of `Parser::parse_position`: the optional `moves`
keyword and move list. -/
def parsePositionMoves (c : ExtCodec) (fen : Option Str) (s : Str) :
    Except ProtocolError UciIn :=
  match read s with
  | (some t, s₁) =>
    if t = "moves".data then
      match parseAllMovesF c (s₁.length + 1) s₁ with
      | some ms => .ok (.position fen ms)
      | none => .error .invalidMove
    else .error .unexpectedToken
  | (none, _) => .ok (.position fen [])

/-- `Parser::parse_position`. -/
def parsePosition (c : ExtCodec) (s : Str) : Except ProtocolError UciIn :=
  match read s with
  | (some t, s₁) =>
    if t = "startpos".data then parsePositionMoves c none s₁
    else if t = "fen".data then
      match readUntil s₁ movesPred with
      | (some ftext, s₂) =>
        match c.parseFen ftext with
        | some f => parsePositionMoves c (some f) s₂
        | none => .error .invalidFen
      | (none, _) => .error .unexpectedEndOfLine
    else .error .unexpectedToken
  | (none, _) => .error .unexpectedEndOfLine

/-- The keyword loop of `Parser::parse_go`, in the source's match
order. -/
def parseGoLoopF (c : ExtCodec) : Nat → GoParams → Str → Except ProtocolError GoParams
  | 0, _, _ => .error .unexpectedEndOfLine
  | fuel + 1, st, s =>
    match read s with
    | (none, _) => .ok st
    | (some t, s₁) =>
      if t = "ponder".data then parseGoLoopF c fuel { st with ponder := true } s₁
      else if t = "infinite".data then parseGoLoopF c fuel { st with infinite := true } s₁
      else if t = "movestogo".data then
        match read s₁ with
        | (some u, s₂) =>
          match parseUNat 32 u with
          | some n => parseGoLoopF c fuel { st with movestogo := some n } s₂
          | none => .error .invalidInteger
        | (none, _) => .error .unexpectedEndOfLine
      else if t = "depth".data then
        match read s₁ with
        | (some u, s₂) =>
          match parseUNat 32 u with
          | some n => parseGoLoopF c fuel { st with depth := some n } s₂
          | none => .error .invalidInteger
        | (none, _) => .error .unexpectedEndOfLine
      else if t = "nodes".data then
        match read s₁ with
        | (some u, s₂) =>
          match parseUNat 64 u with
          | some n => parseGoLoopF c fuel { st with nodes := some n } s₂
          | none => .error .invalidInteger
        | (none, _) => .error .unexpectedEndOfLine
      else if t = "mate".data then
        match read s₁ with
        | (some u, s₂) =>
          match parseUNat 32 u with
          | some n => parseGoLoopF c fuel { st with mate := some n } s₂
          | none => .error .invalidInteger
        | (none, _) => .error .unexpectedEndOfLine
      else if t = "movetime".data then
        match read s₁ with
        | (some u, s₂) =>
          match parseUNat 64 u with
          | some n => parseGoLoopF c fuel { st with movetime := some n } s₂
          | none => .error .invalidInteger
        | (none, _) => .error .unexpectedEndOfLine
      else if t = "wtime".data then
        match read s₁ with
        | (some u, s₂) =>
          match parseUNat 64 u with
          | some n => parseGoLoopF c fuel { st with wtime := some n } s₂
          | none => .error .invalidInteger
        | (none, _) => .error .unexpectedEndOfLine
      else if t = "btime".data then
        match read s₁ with
        | (some u, s₂) =>
          match parseUNat 64 u with
          | some n => parseGoLoopF c fuel { st with btime := some n } s₂
          | none => .error .invalidInteger
        | (none, _) => .error .unexpectedEndOfLine
      else if t = "winc".data then
        match read s₁ with
        | (some u, s₂) =>
          match parseUNat 64 u with
          | some n => parseGoLoopF c fuel { st with winc := some n } s₂
          | none => .error .invalidInteger
        | (none, _) => .error .unexpectedEndOfLine
      else if t = "binc".data then
        match read s₁ with
        | (some u, s₂) =>
          match parseUNat 64 u with
          | some n => parseGoLoopF c fuel { st with binc := some n } s₂
          | none => .error .invalidInteger
        | (none, _) => .error .unexpectedEndOfLine
      else if t = "searchmoves".data then
        let r := parseMovesF c (s₁.length + 1) s₁
        parseGoLoopF c fuel { st with searchmoves := some r.fst } r.snd
      else .error .unexpectedToken

/-- `Parser::parse_in`. -/
def parseIn (c : ExtCodec) (s : Str) : Except ProtocolError (Option UciIn) :=
  match read s with
  | (none, _) => .ok none
  | (some t, s₁) =>
    if t = "uci".data then (endOfLine s₁).map fun _ => some .uci
    else if t = "isready".data then (endOfLine s₁).map fun _ => some .isready
    else if t = "ucinewgame".data then (endOfLine s₁).map fun _ => some .ucinewgame
    else if t = "stop".data then (endOfLine s₁).map fun _ => some .stop
    else if t = "ponderhit".data then (endOfLine s₁).map fun _ => some .ponderhit
    else if t = "setoption".data then (parseSetoption s₁).map some
    else if t = "position".data then (parsePosition c s₁).map some
    else if t = "go".data then
      (parseGoLoopF c (s₁.length + 1) goDefault s₁).map fun g => some (.go g)
    else .error .unexpectedToken

/-- `UciIn::from_line`, including the `Parser::new` line-break check. -/
def fromLine (c : ExtCodec) (s : Str) : Except ProtocolError (Option UciIn) :=
  if s.any (fun ch => ch == '\r' || ch == '\n') then .error .unexpectedLineBreak
  else parseIn c s

/-! ### `Display for UciIn` -/

/-- A list of tokens, each preceded by one space. -/
def spaced (ts : List Str) : Str :=
  (ts.map (fun t => ' ' :: t)).flatten

/-- One optional numeric `Go` field, keyword (with surrounding spaces)
included. -/
def optNum (kw : Str) : Option Nat → Str
  | some n => kw ++ natStr n
  | none => []

/-- `Display` of the `Go` fields, in the source's output order. -/
def displayGo (g : GoParams) : Str :=
  "go".data
  ++ (match g.searchmoves with
      | some ms => " searchmoves".data ++ spaced ms
      | none => [])
  ++ (if g.ponder then " ponder".data else [])
  ++ optNum " wtime ".data g.wtime
  ++ optNum " btime ".data g.btime
  ++ optNum " winc ".data g.winc
  ++ optNum " binc ".data g.binc
  ++ optNum " movestogo ".data g.movestogo
  ++ optNum " depth ".data g.depth
  ++ optNum " nodes ".data g.nodes
  ++ optNum " mate ".data g.mate
  ++ optNum " movetime ".data g.movetime
  ++ (if g.infinite then " infinite".data else [])

/-- `impl fmt::Display for UciIn`. -/
def displayIn : UciIn → Str
  | .uci => "uci".data
  | .isready => "isready".data
  | .setoption name val =>
    "setoption name ".data ++ name
    ++ (match val with
        | some v => " value ".data ++ v
        | none => [])
  | .ucinewgame => "ucinewgame".data
  | .position fen moves =>
    (match fen with
     | some f => "position fen ".data ++ f
     | none => "position startpos".data)
    ++ (if moves.isEmpty then [] else " moves".data ++ spaced moves)
  | .go g => displayGo g
  | .stop => "stop".data
  | .ponderhit => "ponderhit".data

/-! ### Option schemas (`uci.rs::UciOption`, `UciOptionValue`) -/

/-- `uci.rs::UciOption` (the schema an engine declares for an option). -/
inductive UciOption where
  | check (default : Bool)
  | spin (default min max : Int)
  | combo (default : Str) (var : List Str)
  | button
  | string (default : Str)
deriving DecidableEq, Repr

/-- `uci.rs::UciOptionValue`. -/
inductive UciOptionValue where
  | check (b : Bool)
  | spin (v : Int)
  | combo (v : Str)
  | button
  | string (v : Str)
deriving DecidableEq, Repr

/-- `UciOption::validate`. -/
def UciOption.validate : UciOption → Option Str → Except ProtocolError UciOptionValue
  | .check _, value =>
    match value with
    | some v =>
      if v = "true".data then .ok (.check true)
      else if v = "false".data then .ok (.check false)
      else .error .invalidOptionValue
    | none => .error .invalidOptionValue
  | .spin _ lo hi, value =>
    match value with
    | some v =>
      match parseInt 64 v with
      | some n =>
        if n < lo ∨ hi < n then .error .invalidOptionValue else .ok (.spin n)
      | none => .error .invalidInteger
    | none => .error .invalidOptionValue
  | .combo _ var, value =>
    match value with
    | some v => if var.contains v then .ok (.combo v) else .error .invalidOptionValue
    | none => .error .invalidOptionValue
  | .button, value =>
    match value with
    | some _ => .error .invalidOptionValue
    | none => .ok .button
  | .string _, value =>
    match value with
    | some v => .ok (.string v)
    | none => .error .invalidOptionValue

/-- `UciOption::max`. -/
def UciOption.max : UciOption → Option Int
  | .spin _ _ hi => some hi
  | _ => none

/-- `UciOption::var`. -/
def UciOption.var : UciOption → Option (List Str)
  | .combo _ var => some var
  | _ => none

/-- Rust `Ord::clamp` on `i64` (callers guarantee `lo ≤ hi`). -/
def clampI (v lo hi : Int) : Int :=
  if v < lo then lo else if hi < v then hi else v

/-- `UciOption::limit_max`: clamp a `Spin`'s `max` to `limit` (itself
clamped into `[min, max]`), then re-clamp the default; other schema
kinds are untouched. -/
def UciOption.limit_max : UciOption → Int → UciOption
  | .spin d lo hi, limit =>
    let hi' := clampI limit lo hi
    .spin (clampI d lo hi') lo hi'
  | o, _ => o

/-! ### The output command type and parser (`uci.rs::UciOut`) -/

/-- `uci.rs::Eval`. -/
inductive Eval where
  | cp (v : Int)
  | mate (v : Int)
deriving DecidableEq, Repr

/-- `uci.rs::Score`. -/
structure Score where
  eval : Eval
  lowerbound : Bool
  upperbound : Bool
deriving DecidableEq, Repr

/-- The fields of `UciOut::Info`.  The source stores `refutation` and
`currline` in `HashMap`s; they are modelled as association lists with
the `HashMap::insert` replace-or-append update. -/
structure InfoParams where
  multipv : Option Nat
  depth : Option Nat
  seldepth : Option Nat
  time : Option Nat
  nodes : Option Nat
  score : Option Score
  currmove : Option Str
  currmovenumber : Option Nat
  hashfull : Option Nat
  nps : Option Nat
  tbhits : Option Nat
  sbhits : Option Nat
  cpuload : Option Nat
  refutation : List (Str × List Str)
  currline : List (Nat × List Str)
  pv : Option (List Str)
  string : Option Str
deriving DecidableEq, Repr

/-- All-absent `Info` fields, the initial state of `parse_info`. -/
def infoDefault : InfoParams :=
  { multipv := none, depth := none, seldepth := none, time := none,
    nodes := none, score := none, currmove := none, currmovenumber := none,
    hashfull := none, nps := none, tbhits := none, sbhits := none,
    cpuload := none, refutation := [], currline := [], pv := none,
    string := none }

/-- `HashMap::insert`: replace the value at an existing key, else add
the entry. -/
def insertAssoc {κ ν : Type} [DecidableEq κ] (k : κ) (v : ν) :
    List (κ × ν) → List (κ × ν)
  | [] => [(k, v)]
  | (k', v') :: r => if k' = k then (k, v) :: r else (k', v') :: insertAssoc k v r

/-- `uci.rs::UciOut`. -/
inductive UciOut where
  | idName (s : Str)
  | idAuthor (s : Str)
  | uciok
  | readyok
  | bestmove (m : Option Str) (ponder : Option Str)
  | info (i : InfoParams)
  | option (name : Str) (opt : UciOption)
deriving DecidableEq, Repr

/-- `Parser::parse_id`. -/
def parseId (s : Str) : Except ProtocolError UciOut :=
  match read s with
  | (some t, s₁) =>
    if t = "name".data then
      match readUntil s₁ (fun _ => false) with
      | (some v, _) => .ok (.idName v)
      | (none, _) => .error .unexpectedEndOfLine
    else if t = "author".data then
      match readUntil s₁ (fun _ => false) with
      | (some v, _) => .ok (.idAuthor v)
      | (none, _) => .error .unexpectedEndOfLine
    else .error .unexpectedToken
  | (none, _) => .error .unexpectedEndOfLine

/-- The ponder half of `Parser::parse_bestmove`. -/
def parsePonderPart (c : ExtCodec) (s : Str) : Except ProtocolError (Option Str) :=
  match read s with
  | (some t, s₁) =>
    if t = "ponder".data then
      match read s₁ with
      | (some u, _) =>
        if u = "(none)".data then .ok none
        else
          match c.parseMove u with
          | some m => .ok (some m)
          | none => .error .invalidMove
      | (none, _) => .ok none
    else .error .unexpectedToken
  | (none, _) => .ok none

/-- `Parser::parse_bestmove`: a missing move token (or the literal
`(none)`) yields `m = none`; likewise for the ponder move. -/
def parseBestmove (c : ExtCodec) (s : Str) : Except ProtocolError UciOut :=
  match read s with
  | (none, _) => (parsePonderPart c []).map (.bestmove none ·)
  | (some t, s₁) =>
    if t = "(none)".data then (parsePonderPart c s₁).map (.bestmove none ·)
    else
      match c.parseMove t with
      | some m => (parsePonderPart c s₁).map (.bestmove (some m) ·)
      | none => .error .invalidMove

/-- The `lowerbound`/`upperbound` peek loop of `Parser::parse_score`. -/
def parseScoreBounds : Nat → Bool → Bool → Str → Bool × Bool × Str
  | 0, lb, ub, s => (lb, ub, s)
  | fuel + 1, lb, ub, s =>
    match read s with
    | (some tk, s₁) =>
      if tk = "lowerbound".data then parseScoreBounds fuel true ub s₁
      else if tk = "upperbound".data then parseScoreBounds fuel lb true s₁
      else (lb, ub, s)
    | (none, _) => (lb, ub, s)

/-- `Parser::parse_score`. -/
def parseScore (s : Str) : Except ProtocolError (Score × Str) :=
  match read s with
  | (some t, s₁) =>
    if t = "cp".data then
      match read s₁ with
      | (some u, s₂) =>
        match parseInt 64 u with
        | some v =>
          let r := parseScoreBounds (s₂.length + 1) false false s₂
          .ok (⟨.cp v, r.fst, r.snd.fst⟩, r.snd.snd)
        | none => .error .invalidInteger
      | (none, _) => .error .unexpectedEndOfLine
    else if t = "mate".data then
      match read s₁ with
      | (some u, s₂) =>
        match parseInt 32 u with
        | some v =>
          let r := parseScoreBounds (s₂.length + 1) false false s₂
          .ok (⟨.mate v, r.fst, r.snd.fst⟩, r.snd.snd)
        | none => .error .invalidInteger
      | (none, _) => .error .unexpectedEndOfLine
    else .error .unexpectedToken
  | (none, _) => .error .unexpectedEndOfLine

/-- The keyword loop of `Parser::parse_info`, in the source's match
order. -/
def parseInfoF (c : ExtCodec) : Nat → InfoParams → Str → Except ProtocolError InfoParams
  | 0, _, _ => .error .unexpectedEndOfLine
  | fuel + 1, st, s =>
    match read s with
    | (none, _) => .ok st
    | (some t, s₁) =>
      if t = "multipv".data then
        match read s₁ with
        | (some u, s₂) =>
          match parseUNat 32 u with
          | some n =>
            if n = 0 then .error .invalidInteger
            else parseInfoF c fuel { st with multipv := some n } s₂
          | none => .error .invalidInteger
        | (none, _) => .error .unexpectedEndOfLine
      else if t = "depth".data then
        match read s₁ with
        | (some u, s₂) =>
          match parseUNat 32 u with
          | some n => parseInfoF c fuel { st with depth := some n } s₂
          | none => .error .invalidInteger
        | (none, _) => .error .unexpectedEndOfLine
      else if t = "seldepth".data then
        match read s₁ with
        | (some u, s₂) =>
          match parseUNat 32 u with
          | some n => parseInfoF c fuel { st with seldepth := some n } s₂
          | none => .error .invalidInteger
        | (none, _) => .error .unexpectedEndOfLine
      else if t = "time".data then
        match read s₁ with
        | (some u, s₂) =>
          match parseUNat 64 u with
          | some n => parseInfoF c fuel { st with time := some n } s₂
          | none => .error .invalidInteger
        | (none, _) => .error .unexpectedEndOfLine
      else if t = "nodes".data then
        match read s₁ with
        | (some u, s₂) =>
          match parseUNat 64 u with
          | some n => parseInfoF c fuel { st with nodes := some n } s₂
          | none => .error .invalidInteger
        | (none, _) => .error .unexpectedEndOfLine
      else if t = "score".data then
        match parseScore s₁ with
        | .ok (sc, s₂) => parseInfoF c fuel { st with score := some sc } s₂
        | .error e => .error e
      else if t = "currmove".data then
        match read s₁ with
        | (some u, s₂) =>
          match c.parseMove u with
          | some m => parseInfoF c fuel { st with currmove := some m } s₂
          | none => .error .invalidMove
        | (none, _) => .error .unexpectedEndOfLine
      else if t = "currmovenumber".data then
        match read s₁ with
        | (some u, s₂) =>
          match parseUNat 32 u with
          | some n => parseInfoF c fuel { st with currmovenumber := some n } s₂
          | none => .error .invalidInteger
        | (none, _) => .error .unexpectedEndOfLine
      else if t = "hashfull".data then
        match read s₁ with
        | (some u, s₂) =>
          match parseUNat 32 u with
          | some n => parseInfoF c fuel { st with hashfull := some n } s₂
          | none => .error .invalidInteger
        | (none, _) => .error .unexpectedEndOfLine
      else if t = "nps".data then
        match read s₁ with
        | (some u, s₂) =>
          match parseUNat 64 u with
          | some n => parseInfoF c fuel { st with nps := some n } s₂
          | none => .error .invalidInteger
        | (none, _) => .error .unexpectedEndOfLine
      else if t = "tbhits".data then
        match read s₁ with
        | (some u, s₂) =>
          match parseUNat 64 u with
          | some n => parseInfoF c fuel { st with tbhits := some n } s₂
          | none => .error .invalidInteger
        | (none, _) => .error .unexpectedEndOfLine
      else if t = "sbhits".data then
        match read s₁ with
        | (some u, s₂) =>
          match parseUNat 64 u with
          | some n => parseInfoF c fuel { st with sbhits := some n } s₂
          | none => .error .invalidInteger
        | (none, _) => .error .unexpectedEndOfLine
      else if t = "cpuload".data then
        match read s₁ with
        | (some u, s₂) =>
          match parseUNat 32 u with
          | some n => parseInfoF c fuel { st with cpuload := some n } s₂
          | none => .error .invalidInteger
        | (none, _) => .error .unexpectedEndOfLine
      else if t = "refutation".data then
        match read s₁ with
        | (some u, s₂) =>
          match c.parseMove u with
          | some m =>
            let r := parseMovesF c (s₂.length + 1) s₂
            parseInfoF c fuel { st with refutation := insertAssoc m r.fst st.refutation } r.snd
          | none => .error .invalidMove
        | (none, _) => .error .unexpectedEndOfLine
      else if t = "currline".data then
        match read s₁ with
        | (some u, s₂) =>
          match parseUNat 32 u with
          | some n =>
            let r := parseMovesF c (s₂.length + 1) s₂
            parseInfoF c fuel { st with currline := insertAssoc n r.fst st.currline } r.snd
          | none => .error .invalidInteger
        | (none, _) => .error .unexpectedEndOfLine
      else if t = "pv".data then
        let r := parseMovesF c (s₁.length + 1) s₁
        parseInfoF c fuel { st with pv := some r.fst } r.snd
      else if t = "string".data then
        match readUntil s₁ (fun _ => false) with
        | (some v, s₂) => parseInfoF c fuel { st with string := some v } s₂
        | (none, s₂) => parseInfoF c fuel { st with string := some [] } s₂
      else .error .unexpectedToken

/-- The `spin` field loop of `Parser::parse_option`. -/
def parseSpinF : Nat → Option Int → Option Int → Option Int → Str →
    Except ProtocolError (Option Int × Option Int × Option Int)
  | 0, _, _, _, _ => .error .unexpectedEndOfLine
  | fuel + 1, d, lo, hi, s =>
    match read s with
    | (none, _) => .ok (d, lo, hi)
    | (some t, s₁) =>
      if t = "default".data then
        match read s₁ with
        | (some u, s₂) =>
          match parseInt 64 u with
          | some n => parseSpinF fuel (some n) lo hi s₂
          | none => .error .invalidInteger
        | (none, _) => .error .unexpectedEndOfLine
      else if t = "min".data then
        match read s₁ with
        | (some u, s₂) =>
          match parseInt 64 u with
          | some n => parseSpinF fuel d (some n) hi s₂
          | none => .error .invalidInteger
        | (none, _) => .error .unexpectedEndOfLine
      else if t = "max".data then
        match read s₁ with
        | (some u, s₂) =>
          match parseInt 64 u with
          | some n => parseSpinF fuel d lo (some n) s₂
          | none => .error .invalidInteger
        | (none, _) => .error .unexpectedEndOfLine
      else .error .unexpectedToken

/-- Token predicate `|t| t == "default" || t == "var"` of the combo
loop. -/
def comboPred (tk : Str) : Bool :=
  tk = "default".data || tk = "var".data

/-- The `combo` field loop of `Parser::parse_option`. -/
def parseComboF : Nat → Option Str → List Str → Str →
    Except ProtocolError (Option Str × List Str)
  | 0, _, _, _ => .error .unexpectedEndOfLine
  | fuel + 1, d, var, s =>
    match read s with
    | (none, _) => .ok (d, var)
    | (some t, s₁) =>
      if t = "default".data then
        match readUntil s₁ comboPred with
        | (some v, s₂) => parseComboF fuel (some v) var s₂
        | (none, _) => .error .unexpectedEndOfLine
      else if t = "var".data then
        match readUntil s₁ comboPred with
        | (some v, s₂) => parseComboF fuel d (var ++ [v]) s₂
        | (none, _) => .error .unexpectedEndOfLine
      else .error .unexpectedToken

/-- Token predicate `|t| t == "type"` of `parse_option`. -/
def typePred (tk : Str) : Bool :=
  tk = "type".data

/-- `Parser::parse_option`. -/
def parseOptionLine (s : Str) : Except ProtocolError UciOut :=
  match read s with
  | (some t, s₁) =>
    if t = "name".data then
      match readUntil s₁ typePred with
      | (some name, s₂) =>
        -- `self.next(); // type`: the "type" token is read and discarded
        match read s₂ with
        | (_, s₃) =>
          match read s₃ with
          | (some k, s₄) =>
            if k = "check".data then
              match read s₄ with
              | (some d, s₅) =>
                if d = "default".data then
                  match read s₅ with
                  | (some b, _) =>
                    if b = "true".data then .ok (.option name (.check true))
                    else if b = "false".data then .ok (.option name (.check false))
                    else .error .unexpectedToken
                  | (none, _) => .error .unexpectedEndOfLine
                else .error .unexpectedToken
              | (none, _) => .error .unexpectedEndOfLine
            else if k = "spin".data then
              match parseSpinF (s₄.length + 1) none none none s₄ with
              | .ok (some d, some lo, some hi) => .ok (.option name (.spin d lo hi))
              | .ok _ => .error .unexpectedEndOfLine
              | .error e => .error e
            else if k = "combo".data then
              match parseComboF (s₄.length + 1) none [] s₄ with
              | .ok (some d, var) => .ok (.option name (.combo d var))
              | .ok (none, _) => .error .unexpectedEndOfLine
              | .error e => .error e
            else if k = "button".data then
              (endOfLine s₄).map fun _ => .option name .button
            else if k = "string".data then
              match read s₄ with
              | (some d, s₅) =>
                if d = "default".data then
                  match readUntil s₅ (fun _ => false) with
                  | (some v, _) => .ok (.option name (.string v))
                  | (none, _) => .ok (.option name (.string []))
                else .error .unexpectedToken
              | (none, _) => .error .unexpectedEndOfLine
            else .error .unexpectedToken
          | (none, _) => .error .unexpectedEndOfLine
      | (none, _) => .error .unexpectedEndOfLine
    else .error .unexpectedToken
  | (none, _) => .error .unexpectedEndOfLine

/-- `Parser::parse_out`: unknown first tokens (and blank lines) are
`Ok(None)`. -/
def parseOut (c : ExtCodec) (s : Str) : Except ProtocolError (Option UciOut) :=
  match read s with
  | (none, _) => .ok none
  | (some t, s₁) =>
    if t = "id".data then (parseId s₁).map some
    else if t = "uciok".data then .ok (some .uciok)
    else if t = "readyok".data then .ok (some .readyok)
    else if t = "bestmove".data then (parseBestmove c s₁).map some
    else if t = "info".data then
      (parseInfoF c (s₁.length + 1) infoDefault s₁).map fun i => some (.info i)
    else if t = "option".data then (parseOptionLine s₁).map some
    else .ok none

/-- `UciOut::from_line`, including the `Parser::new` line-break check. -/
def fromLineOut (c : ExtCodec) (s : Str) : Except ProtocolError (Option UciOut) :=
  if s.any (fun ch => ch == '\r' || ch == '\n') then .error .unexpectedLineBreak
  else parseOut c s

/-! ### Option names (`uci.rs::UciOptionName`)

`UciOptionName` wraps a `String`; equality and hashing are byte-level and
ASCII-case-insensitive.  Equality with literals is modelled at char
level (exact for the all-ASCII allowlist), the `Hash` impl at byte
level, exactly as `hasher.write_u8` sees it. -/

/-- `u8::to_ascii_lowercase` on a char (ASCII letters only). -/
def lowerChar (c : Char) : Char :=
  if 'A' ≤ c ∧ c ≤ 'Z' then Char.ofNat (c.toNat + 32) else c

/-- `str::eq_ignore_ascii_case`. -/
def eqIgnoreAsciiCase (a b : Str) : Bool :=
  a.length == b.length && (a.zip b).all fun p => lowerChar p.fst == lowerChar p.snd

/-- `UciOptionName::is_safe`: the fixed allowlist, compared
case-insensitively. -/
def isSafeName (n : Str) : Bool :=
  eqIgnoreAsciiCase n "Hash".data
  || eqIgnoreAsciiCase n "Threads".data
  || eqIgnoreAsciiCase n "Ponder".data
  || eqIgnoreAsciiCase n "MultiPV".data
  || eqIgnoreAsciiCase n "UCI_ShowCurrLine".data
  || eqIgnoreAsciiCase n "UCI_ShowRefutations".data
  || eqIgnoreAsciiCase n "UCI_LimitStrength".data
  || eqIgnoreAsciiCase n "UCI_Elo".data
  || eqIgnoreAsciiCase n "UCI_AnalyseMode".data
  || eqIgnoreAsciiCase n "UCI_Opponent".data
  || eqIgnoreAsciiCase n "UCI_Chess960".data
  || eqIgnoreAsciiCase n "Analysis Contempt".data

/-- `u8::to_ascii_lowercase` on a byte. -/
def lowerByte (b : Nat) : Nat :=
  if 65 ≤ b ∧ b ≤ 90 then b + 32 else b

/-- `impl PartialEq for UciOptionName` at byte level
(`eq_ignore_ascii_case` over the UTF-8 bytes). -/
def nameEqBytes (a b : List Nat) : Bool :=
  a.length == b.length && (a.zip b).all fun p => lowerByte p.fst == lowerByte p.snd

/-- `impl Hash for UciOptionName`: the exact byte sequence fed to the
hasher — each byte lowercased, then the sentinel byte `0xff`. -/
def nameHashInput (a : List Nat) : List Nat :=
  a.map lowerByte ++ [255]

/-! ### The engine supervisor (`engine.rs`)

The `Engine` struct's stdio pipes are replaced by the explicit result of
each operation: `send` returns the bytes written to the engine's stdin
(empty when nothing is written), `recvAccount` is the state update
`recv` performs for a received line. -/

/-- `u8::is_ascii_whitespace` (space, tab, newline, form feed, carriage
return). -/
def isAsciiWs (c : Char) : Bool :=
  c == ' ' || c == '\t' || c == '\n' || c == Char.ofNat 12 || c == '\r'

/-- `engine.rs::ClientCommand`. -/
inductive ClientCommand where
  | uci
  | isready
  | go
  | stop
  | setoption
deriving DecidableEq, Repr

/-- `ClientCommand::classify`: trim ASCII whitespace at the start, split
at spaces, look at the first chunk. -/
def ClientCommand.classify (line : Str) : Option ClientCommand :=
  let tok := (line.dropWhile isAsciiWs).takeWhile fun ch => !(ch == ' ')
  if tok = "uci".data then some .uci
  else if tok = "isready".data then some .isready
  else if tok = "go".data then some .go
  else if tok = "stop".data then some .stop
  else if tok = "setoption".data then some .setoption
  else none

/-- `engine.rs::EngineCommand`. -/
inductive EngineCommand where
  | uciok
  | readyok
  | bestmove
  | info
deriving DecidableEq, Repr

/-- `EngineCommand::classify`. -/
def EngineCommand.classify (line : Str) : Option EngineCommand :=
  let tok := (line.dropWhile isAsciiWs).takeWhile fun ch => !(ch == ' ')
  if tok = "uciok".data then some .uciok
  else if tok = "readyok".data then some .readyok
  else if tok = "bestmove".data then some .bestmove
  else if tok = "info".data then some .info
  else none

/-- The counter state of `engine.rs::Engine` (`u64` counters and the
`searching` flag). -/
structure Engine where
  pending_uciok : Nat
  pending_readyok : Nat
  searching : Bool
deriving DecidableEq, Repr

/-- `Engine::is_searching`. -/
def Engine.is_searching (e : Engine) : Bool :=
  e.searching

/-- `Engine::is_idle`. -/
def Engine.is_idle (e : Engine) : Bool :=
  e.pending_uciok == 0 && e.pending_readyok == 0 && !e.searching

/-- The errors `Engine::send` produces (`io::ErrorKind::InvalidData`
with the given message). -/
inductive SendError where
  | disallowedLineFeed
  | alreadySearching
deriving DecidableEq, Repr

/-- `Engine::send`: reject embedded line feeds, account for the command
class (a `Go` while searching is `already searching` and writes
nothing), then write `line ++ "\r\n"` to the engine stdin.  The result is
`(outcome, post-state, bytes written)`; the error paths `return Err`
before any mutation or write, so they carry `e` unchanged and no
bytes. -/
def Engine.send (e : Engine) (line : Str) : Except SendError Unit × Engine × Str :=
  if line.contains '\n' then (.error .disallowedLineFeed, e, [])
  else
    match ClientCommand.classify line with
    | some .uci =>
      (.ok (), { e with pending_uciok := (e.pending_uciok + 1) % 2 ^ 64 }, line ++ ['\r', '\n'])
    | some .isready =>
      (.ok (), { e with pending_readyok := (e.pending_readyok + 1) % 2 ^ 64 }, line ++ ['\r', '\n'])
    | some .go =>
      if e.searching then (.error .alreadySearching, e, [])
      else (.ok (), { e with searching := true }, line ++ ['\r', '\n'])
    | _ => (.ok (), e, line ++ ['\r', '\n'])

/-- Drop a final `'\n'`, then a final `'\r'` (the line-ending strip of
`Engine::recv`). -/
def stripEol (l : Str) : Str :=
  let l₁ := match l.getLast? with
    | some d => if d == '\n' then l.dropLast else l
    | none => l
  match l₁.getLast? with
  | some d => if d == '\r' then l₁.dropLast else l₁
  | none => l₁

/-- The state update of `Engine::recv` for a raw line read from the
engine stdout (saturating decrements; `bestmove` clears `searching`). -/
def Engine.recvAccount (e : Engine) (raw : Str) : Engine :=
  let line := stripEol raw
  match EngineCommand.classify line with
  | some .uciok => { e with pending_uciok := e.pending_uciok - 1 }
  | some .readyok => { e with pending_readyok := e.pending_readyok - 1 }
  | some .bestmove => { e with searching := false }
  | _ => e

/-- Case-insensitive lookup in the options table (the source's
`HashMap<UciOptionName, UciOption>` keyed by the case-folding
equality). -/
def lookupOption (table : List (Str × UciOption)) (name : Str) : Option UciOption :=
  (table.find? fun p => eqIgnoreAsciiCase p.fst name).map Prod.snd

/-- Errors of the checked send path. -/
inductive SendCheckedError where
  | invalidData
  | alreadySearching
deriving DecidableEq, Repr

/-- Modelled from the spec: the typed `Engine::send` with `Setoption`
validation is not among the provided sources — the `engine.rs` under
`src/` is an older byte-level revision whose `send` takes raw bytes and
never filters, while `ws.rs` and `lib.rs` call the newer typed API
(`send(session, UciIn)`), whose file is missing.  Spec §4.2 "Send
validation (safe mode)": on `Setoption`, if the name is not in the safe
allowlist, log and drop the command (do not forward); otherwise if the
name is not in the current options table, log and drop; otherwise
validate the value against the schema — forward on success, fail with
`InvalidData` on failure.  Counter and `searching` bookkeeping and the
`\r\n` suffix follow the byte-level `send` that is in `src/`.  The result
is `(outcome, post-state, bytes written to the engine stdin)`; dropped
commands and errors write nothing and leave the state unchanged. -/
def Engine.sendChecked (e : Engine) (table : List (Str × UciOption)) (cmd : UciIn) :
    Except SendCheckedError Unit × Engine × Str :=
  match cmd with
  | .setoption name val =>
    if isSafeName name then
      match lookupOption table name with
      | some schema =>
        match schema.validate val with
        | .ok _ => (.ok (), e, displayIn cmd ++ ['\r', '\n'])
        | .error _ => (.error .invalidData, e, [])
      | none => (.ok (), e, [])
    else (.ok (), e, [])
  | .uci =>
    (.ok (), { e with pending_uciok := (e.pending_uciok + 1) % 2 ^ 64 },
      displayIn cmd ++ ['\r', '\n'])
  | .isready =>
    (.ok (), { e with pending_readyok := (e.pending_readyok + 1) % 2 ^ 64 },
      displayIn cmd ++ ['\r', '\n'])
  | .go _ =>
    if e.searching then (.error .alreadySearching, e, [])
    else (.ok (), { e with searching := true }, displayIn cmd ++ ['\r', '\n'])
  | _ => (.ok (), e, displayIn cmd ++ ['\r', '\n'])

/-! ### The websocket gate (`ws.rs`) -/

/-- `impl PartialEq for Secret`: equal lengths, then an XOR-accumulate
over the zipped bytes. -/
def secretEq (a b : List Nat) : Bool :=
  a.length == b.length
  && ((a.zip b).foldl (fun acc p => acc ||| (p.fst ^^^ p.snd)) 0 == 0)

/-- Outcome of `ws.rs::handler` for an authenticated upgrade request. -/
inductive HandlerResult where
  | upgrade
  | forbidden
deriving DecidableEq, Repr

/-- `ws.rs::handler`: upgrade when the client secret equals the server
secret, HTTP 403 otherwise. -/
def handler (serverSecret clientSecret : List Nat) : HandlerResult :=
  if secretEq serverSecret clientSecret then .upgrade else .forbidden

/-! ### The memory-derived hash limit (`lib.rs`) -/

/-- Number of binary digits of `n` (`0` for `n = 0`); fuel-driven, the
fuel is always at least `n`. -/
def bitLenF : Nat → Nat → Nat
  | 0, _ => 0
  | fuel + 1, n => if n = 0 then 0 else bitLenF fuel (n / 2) + 1

/-- Number of binary digits of `n`. -/
def bitLen (n : Nat) : Nat :=
  bitLenF n n

/-- `u64::next_power_of_two`: the smallest power of two `≥ n` (and `1`
for `n ≤ 1`). -/
def nextPow2 (n : Nat) : Nat :=
  if n ≤ 1 then 1 else 2 ^ bitLen (n - 1)

/-- The largest power of two `≤ n` (`0` for `n = 0`): the "previous
power of two" of the specification text. -/
def prevPow2 (n : Nat) : Nat :=
  if n = 0 then 0 else 2 ^ (bitLen n - 1)

/-- `lib.rs::available_memory`, as a function of the reported available
memory in KiB: `(availKiB / 1024).next_power_of_two() / 2`. -/
def available_memory (availKiB : Nat) : Nat :=
  nextPow2 (availKiB / 1024) / 2

/-- The claimed formula of the specification: the free MiB rounded down
to the previous power of two, divided by 2. -/
def specMemLimit (availKiB : Nat) : Nat :=
  prevPow2 (availKiB / 1024) / 2

/-- The `max_hash` computation of `lib.rs::make_server`:
`min(user_cap, u32::try_from(available_memory()).unwrap_or(u32::MAX))`. -/
def makeServerMaxHash (userCap availKiB : Nat) : Nat :=
  Nat.min userCap (Nat.min (available_memory availKiB) (2 ^ 32 - 1))

/-! ### Round-trip support definitions -/

/-- Last char (if any) is not a separator. -/
def endsNonSepB (s : Str) : Bool :=
  match s.getLast? with
  | some d => !isSep d
  | none => true

/-- Empty, or starting with a separator: the shape of the tail `read`
leaves behind. -/
def headSepNilB (s : Str) : Bool :=
  match s with
  | [] => true
  | c :: _ => isSep c

/-- `b` is the part of `acc` after some separator. -/
def sepSuffix (acc b : Str) : Prop :=
  ∃ a c, acc = a ++ c :: b ∧ isSep c = true

/-- The first token of `x` (if any) does not satisfy `p`. -/
def noPTok (p : Str → Bool) (x : Str) : Prop :=
  ∀ tk, (read x).fst = some tk → p tk = false

/-- Walk invariant of `read_until`: at every separator already walked
past, the token that follows (in the remaining text `s`) fails `p`. -/
def sepsOk (p : Str → Bool) (acc s : Str) : Prop :=
  ∀ b, sepSuffix acc b → noPTok p (b ++ s)

/-- A canonical move string of the external codec: re-parsing it yields
itself, and it is a single clean token. -/
def moveCanon (c : ExtCodec) (m : Str) : Prop :=
  c.parseMove m = some m ∧ isTokenB m = true

/-- All `Go` keywords that may follow a `searchmoves` list in a
displayed command. -/
def goKeywords : List Str :=
  ["ponder".data, "infinite".data, "movestogo".data, "depth".data,
   "nodes".data, "mate".data, "movetime".data, "wtime".data,
   "btime".data, "winc".data, "binc".data, "searchmoves".data]

/-- The contract of the external move/FEN library assumed by the
round-trip law: parsed values re-display to strings that parse back to
the same value, displayed moves are single clean tokens, no `Go` keyword
parses as a move, and displayed FENs are clean, trimmed, and contain no
inner `moves` token. -/
def CodecOk (c : ExtCodec) : Prop :=
  (∀ t m, c.parseMove t = some m → c.parseMove m = some m)
  ∧ (∀ t m, c.parseMove t = some m → isTokenB m = true)
  ∧ (∀ k, k ∈ goKeywords → c.parseMove k = none)
  ∧ (∀ t f, c.parseFen t = some f → c.parseFen f = some f)
  ∧ (∀ t f, c.parseFen t = some f →
      tokTrimB f = true ∧ noStopTok movesPred f = true ∧ cleanB f = true)

/-- A `bits`-wide bound on an optional number. -/
def boundOpt (bits : Nat) (o : Option Nat) : Prop :=
  ∀ n, o = some n → n < 2 ^ bits

/-- Invariants of `Go` parameters produced by the parser. -/
def WFgo (c : ExtCodec) (g : GoParams) : Prop :=
  (∀ ms, g.searchmoves = some ms → ∀ m ∈ ms, moveCanon c m)
  ∧ boundOpt 64 g.wtime ∧ boundOpt 64 g.btime
  ∧ boundOpt 64 g.winc ∧ boundOpt 64 g.binc
  ∧ boundOpt 32 g.movestogo ∧ boundOpt 32 g.depth
  ∧ boundOpt 64 g.nodes ∧ boundOpt 32 g.mate ∧ boundOpt 64 g.movetime

/-- Invariants of every value the input parser can produce: the shapes
`Display` relies on to round-trip. -/
def WFIn (c : ExtCodec) : UciIn → Prop
  | .setoption name val =>
    (tokTrimB name = true ∧ noStopTok valuePred name = true ∧ cleanB name = true)
    ∧ ∀ v, val = some v → tokTrimB v = true ∧ cleanB v = true
  | .position fen moves =>
    (∀ f, fen = some f →
      c.parseFen f = some f ∧ tokTrimB f = true
      ∧ noStopTok movesPred f = true ∧ cleanB f = true)
    ∧ ∀ m ∈ moves, moveCanon c m
  | .go g => WFgo c g
  | _ => True

/-- One present `Go` field, for reasoning about the displayed tail as a
list of segments. -/
inductive GoField where
  | searchmoves (ms : List Str)
  | ponder
  | wtime (n : Nat)
  | btime (n : Nat)
  | winc (n : Nat)
  | binc (n : Nat)
  | movestogo (n : Nat)
  | depth (n : Nat)
  | nodes (n : Nat)
  | mate (n : Nat)
  | movetime (n : Nat)
  | infinite
deriving DecidableEq, Repr

/-- The text a present field contributes to the displayed command. -/
def goFieldText : GoField → Str
  | .searchmoves ms => " searchmoves".data ++ spaced ms
  | .ponder => " ponder".data
  | .wtime n => " wtime ".data ++ natStr n
  | .btime n => " btime ".data ++ natStr n
  | .winc n => " winc ".data ++ natStr n
  | .binc n => " binc ".data ++ natStr n
  | .movestogo n => " movestogo ".data ++ natStr n
  | .depth n => " depth ".data ++ natStr n
  | .nodes n => " nodes ".data ++ natStr n
  | .mate n => " mate ".data ++ natStr n
  | .movetime n => " movetime ".data ++ natStr n
  | .infinite => " infinite".data

/-- The state update the `parse_go` loop performs for one field. -/
def goFieldApply (f : GoField) (st : GoParams) : GoParams :=
  match f with
  | .searchmoves ms => { st with searchmoves := some ms }
  | .ponder => { st with ponder := true }
  | .wtime n => { st with wtime := some n }
  | .btime n => { st with btime := some n }
  | .winc n => { st with winc := some n }
  | .binc n => { st with binc := some n }
  | .movestogo n => { st with movestogo := some n }
  | .depth n => { st with depth := some n }
  | .nodes n => { st with nodes := some n }
  | .mate n => { st with mate := some n }
  | .movetime n => { st with movetime := some n }
  | .infinite => { st with infinite := true }

/-- The list of present fields of a `Go` command, in display order. -/
def goFields (g : GoParams) : List GoField :=
  (match g.searchmoves with
   | some ms => [GoField.searchmoves ms]
   | none => [])
  ++ (if g.ponder then [GoField.ponder] else [])
  ++ (match g.wtime with
      | some n => [GoField.wtime n]
      | none => [])
  ++ (match g.btime with
      | some n => [GoField.btime n]
      | none => [])
  ++ (match g.winc with
      | some n => [GoField.winc n]
      | none => [])
  ++ (match g.binc with
      | some n => [GoField.binc n]
      | none => [])
  ++ (match g.movestogo with
      | some n => [GoField.movestogo n]
      | none => [])
  ++ (match g.depth with
      | some n => [GoField.depth n]
      | none => [])
  ++ (match g.nodes with
      | some n => [GoField.nodes n]
      | none => [])
  ++ (match g.mate with
      | some n => [GoField.mate n]
      | none => [])
  ++ (match g.movetime with
      | some n => [GoField.movetime n]
      | none => [])
  ++ (if g.infinite then [GoField.infinite] else [])

/-- The concatenated text of a list of field segments. -/
def goTailText (fs : List GoField) : Str :=
  match fs with
  | [] => []
  | f :: fs => goFieldText f ++ goTailText fs

/-- The well-formedness of one present field's payload. -/
def goodGoField (c : ExtCodec) : GoField → Prop
  | .searchmoves ms => ∀ m ∈ ms, moveCanon c m
  | .ponder => True
  | .wtime n => n < 2 ^ 64
  | .btime n => n < 2 ^ 64
  | .winc n => n < 2 ^ 64
  | .binc n => n < 2 ^ 64
  | .movestogo n => n < 2 ^ 32
  | .depth n => n < 2 ^ 32
  | .nodes n => n < 2 ^ 64
  | .mate n => n < 2 ^ 32
  | .movetime n => n < 2 ^ 64
  | .infinite => True

/-- A small concrete external codec used by closed evaluations: it
accepts a fixed set of move tokens and one FEN text, verbatim. -/
def demoCodec : ExtCodec :=
  { parseMove := fun t =>
      if t = "e2e4".data ∨ t = "e7e5".data ∨ t = "e7e8q".data ∨ t = "0000".data
      then some t else none,
    parseFen := fun t => if t = "xx yy 0 1".data then some t else none }

/-! ## Theorems -/

/-- `a ||| b = 0` exactly when both are `0`. -/
theorem lor_eq_zero (a b : Nat) : a ||| b = 0 ↔ a = 0 ∧ b = 0 := by
  constructor
  · intro h
    constructor
    · apply Nat.zero_of_testBit_eq_false
      intro i
      have h2 := congrArg (fun x => Nat.testBit x i) h
      simp only [Nat.testBit_lor, Nat.zero_testBit, Bool.or_eq_false_iff] at h2
      exact h2.1
    · apply Nat.zero_of_testBit_eq_false
      intro i
      have h2 := congrArg (fun x => Nat.testBit x i) h
      simp only [Nat.testBit_lor, Nat.zero_testBit, Bool.or_eq_false_iff] at h2
      exact h2.2
  · rintro ⟨rfl, rfl⟩
    simp

/-- The XOR-accumulate fold is zero exactly when the seed is zero and
every zipped pair is equal. -/
theorem foldl_lor_xor_eq_zero (l : List (Nat × Nat)) (a : Nat) :
    l.foldl (fun acc p => acc ||| (p.fst ^^^ p.snd)) a = 0 ↔
      a = 0 ∧ ∀ p ∈ l, p.fst = p.snd := by
  induction l generalizing a with
  | nil => simp
  | cons p l ih =>
    simp only [List.foldl_cons, ih, lor_eq_zero, Nat.xor_eq_zero, List.mem_cons]
    constructor
    · rintro ⟨⟨ha, hp⟩, hl⟩
      exact ⟨ha, fun q hq => hq.elim (fun h => h ▸ hp) (hl q)⟩
    · rintro ⟨ha, h⟩
      exact ⟨⟨ha, h p (Or.inl rfl)⟩, fun q hq => h q (Or.inr hq)⟩

/-- Lists of equal length whose zipped pairs all agree are equal. -/
theorem eq_of_zip_eq (a b : List Nat) (hl : a.length = b.length)
    (h : ∀ p ∈ a.zip b, p.fst = p.snd) : a = b := by
  induction a generalizing b with
  | nil => cases b <;> simp_all
  | cons x a ih =>
    cases b with
    | nil => simp at hl
    | cons y b =>
      simp only [List.zip_cons_cons, List.mem_cons] at h
      have hx : x = y := h (x, y) (Or.inl rfl)
      simp only [List.length_cons, Nat.succ.injEq] at hl
      have hab : a = b := ih b hl fun p hp => h p (Or.inr hp)
      rw [hx, hab]

/-- Every pair of the zip of a list with itself agrees. -/
theorem zip_self_eq (a : List Nat) : ∀ p ∈ a.zip a, p.fst = p.snd := by
  induction a with
  | nil => simp
  | cons x a ih =>
    simp only [List.zip_cons_cons, List.mem_cons]
    rintro p (rfl | hp)
    · rfl
    · exact ih p hp

/-- **C5.** The `Secret` equality test succeeds exactly on byte-for-byte
identical strings, and the websocket handler answers HTTP 403 exactly
when the client secret is not equal to the server secret under that
test. -/
theorem c5_secret_eq_and_handler (a b : List Nat) :
    (secretEq a b = true ↔ a = b) ∧ (handler a b = .forbidden ↔ a ≠ b) := by
  have hiff : secretEq a b = true ↔ a = b := by
    unfold secretEq
    simp only [Bool.and_eq_true, beq_iff_eq, foldl_lor_xor_eq_zero]
    constructor
    · rintro ⟨hl, -, hp⟩
      exact eq_of_zip_eq a b hl hp
    · rintro rfl
      exact ⟨rfl, trivial, zip_self_eq a⟩
  refine ⟨hiff, ?_⟩
  unfold handler
  constructor
  · intro h heq
    rw [hiff.mpr heq] at h
    simp at h
  · intro hne
    have : secretEq a b ≠ true := fun h => hne (hiff.mp h)
    simp [this]

/-- **C4.** With `searching` set, sending a `Go`-classified line fails
with `AlreadySearching`, writes nothing, and leaves the whole supervisor
state unchanged; with `searching` clear it succeeds, writes the line,
and sets `searching`; a received `Bestmove`-classified line clears
`searching`. -/
theorem c4_go_gating (e : Engine) (line : Str)
    (hgo : ClientCommand.classify line = some .go)
    (hnl : line.contains '\n' = false) :
    (e.searching = true → e.send line = (.error .alreadySearching, e, []))
    ∧ (e.searching = false →
        e.send line = (.ok (), { e with searching := true }, line ++ ['\r', '\n']))
    ∧ (∀ (e₂ : Engine) (bline : Str),
        EngineCommand.classify (stripEol bline) = some .bestmove →
        (e₂.recvAccount bline).searching = false) := by
  have hnl' : '\n' ∉ line := by simpa using hnl
  refine ⟨?_, ?_, ?_⟩
  · intro hs
    simp [Engine.send, hnl, hnl', hgo, hs]
  · intro hs
    simp [Engine.send, hnl, hnl', hgo, hs]
  · intro e₂ bline hbm
    simp [Engine.recvAccount, hbm]

/-- Witness for C4 at a concrete state and lines. -/
theorem c4_go_gating_witness :
    (Engine.mk 0 0 true).send "go infinite".data
      = (.error .alreadySearching, Engine.mk 0 0 true, [])
    ∧ ((Engine.mk 5 0 true).recvAccount "bestmove e2e4".data).searching = false := by
  have h := c4_go_gating (Engine.mk 0 0 true) "go infinite".data (by decide) (by decide)
  exact ⟨h.1 rfl, h.2.2 (Engine.mk 5 0 true) "bestmove e2e4".data (by decide)⟩

/-- **C2.** (spec-modelled `Engine::sendChecked`.)  A `Setoption` whose
name is outside the safe allowlist is dropped: nothing is written to the
engine stdin and the supervisor state is unchanged. -/
theorem c2_unsafe_setoption_dropped (e : Engine) (table : List (Str × UciOption))
    (name : Str) (val : Option Str) (h : isSafeName name = false) :
    e.sendChecked table (.setoption name val) = (.ok (), e, []) := by
  simp [Engine.sendChecked, h]

/-- Witness for C2: `EvalFile` is not on the allowlist and is dropped. -/
theorem c2_unsafe_setoption_dropped_witness :
    isSafeName "EvalFile".data = false
    ∧ (Engine.mk 0 0 false).sendChecked [] (.setoption "EvalFile".data (some "x".data))
        = (.ok (), Engine.mk 0 0 false, []) :=
  ⟨by decide,
   c2_unsafe_setoption_dropped (Engine.mk 0 0 false) [] "EvalFile".data
     (some "x".data) (by decide)⟩

/-- **C6 counterexample.** `limit_max 0` on `Spin {default 1, min 1,
max 10}` produces max `1`, which is not `≤ 0`: the claimed "new max is
at most `k`" fails for `k` below `min`. -/
theorem c6_counterexample :
    ((UciOption.spin 1 1 10).limit_max 0).max = some 1 ∧ ¬((1 : Int) ≤ 0) := by
  constructor
  · rfl
  · decide

/-- **C6 (amended).** For a `Spin` with `min ≤ default ≤ max`,
`limit_max k` preserves the invariant, never raises `max`, and clamps it
down to `k` whenever `min ≤ k` (for `k < min` the new max is `min`);
`Check`, `Combo`, `Button` and `String` schemas are unchanged. -/
theorem c6_limit_max (d lo hi k : Int) (h1 : lo ≤ d) (h2 : d ≤ hi) :
    (∃ d' hi', (UciOption.spin d lo hi).limit_max k = .spin d' lo hi'
      ∧ lo ≤ d' ∧ d' ≤ hi' ∧ hi' ≤ hi ∧ (lo ≤ k → hi' ≤ k))
    ∧ (∀ b, (UciOption.check b).limit_max k = .check b)
    ∧ (∀ dc var, (UciOption.combo dc var).limit_max k = .combo dc var)
    ∧ (UciOption.button.limit_max k = .button)
    ∧ (∀ ds, (UciOption.string ds).limit_max k = .string ds) := by
  refine ⟨⟨clampI d lo (clampI k lo hi), clampI k lo hi, rfl, ?_, ?_, ?_, ?_⟩,
    fun b => rfl, fun dc var => rfl, rfl, fun ds => rfl⟩
  all_goals unfold clampI
  all_goals split_ifs <;> omega

/-- Witness for C6 at a concrete schema and limit. -/
theorem c6_limit_max_witness :
    (∃ d' hi', (UciOption.spin 5 1 10).limit_max 3 = .spin d' 1 hi'
      ∧ 1 ≤ d' ∧ d' ≤ hi' ∧ hi' ≤ 10 ∧ ((1 : Int) ≤ 3 → hi' ≤ 3))
    ∧ (UciOption.button.limit_max 3 = .button) :=
  ⟨(c6_limit_max 5 1 10 3 (by decide) (by decide)).1,
   (c6_limit_max 5 1 10 3 (by decide) (by decide)).2.2.2.1⟩

/-- Zipped-pairs equality of lowered bytes is equality of the lowered
lists. -/
theorem map_lower_eq_of_zip (a b : List Nat) (hl : a.length = b.length)
    (h : ∀ p ∈ a.zip b, lowerByte p.fst = lowerByte p.snd) :
    a.map lowerByte = b.map lowerByte := by
  induction a generalizing b with
  | nil => cases b <;> simp_all
  | cons x a ih =>
    cases b with
    | nil => simp at hl
    | cons y b =>
      simp only [List.zip_cons_cons, List.mem_cons] at h
      simp only [List.length_cons, Nat.succ.injEq] at hl
      simp only [List.map_cons, List.cons.injEq]
      exact ⟨h (x, y) (Or.inl rfl), ih b hl fun p hp => h p (Or.inr hp)⟩

/-- Converse: equal lowered lists make every zipped pair agree after
lowering. -/
theorem zip_lower_of_map_eq (a b : List Nat)
    (hmap : a.map lowerByte = b.map lowerByte) :
    ∀ p ∈ a.zip b, lowerByte p.fst = lowerByte p.snd := by
  induction a generalizing b with
  | nil => simp
  | cons x a ih =>
    cases b with
    | nil => simp
    | cons y b =>
      simp only [List.map_cons, List.cons.injEq] at hmap
      simp only [List.zip_cons_cons, List.mem_cons]
      rintro p (rfl | hp)
      · exact hmap.1
      · exact ih b hmap.2 p hp

/-- **C9.** Option-name equality is exactly equality of the
ASCII-lowercased byte strings, and the sentinel-terminated hash input
sequences of two names coincide exactly when the names are equal under
that folding. -/
theorem c9_name_eq_hash (a b : List Nat) :
    (nameEqBytes a b = true ↔ a.map lowerByte = b.map lowerByte)
    ∧ (nameHashInput a = nameHashInput b ↔ nameEqBytes a b = true) := by
  have hiff : nameEqBytes a b = true ↔ a.map lowerByte = b.map lowerByte := by
    unfold nameEqBytes
    simp only [Bool.and_eq_true, beq_iff_eq, List.all_eq_true]
    constructor
    · rintro ⟨hl, hp⟩
      exact map_lower_eq_of_zip a b hl fun p hp' => by simpa using hp p hp'
    · intro hmap
      have hl : a.length = b.length := by
        have := congrArg List.length hmap
        simpa using this
      refine ⟨hl, fun p hp => ?_⟩
      simpa using zip_lower_of_map_eq a b hmap p hp
  refine ⟨hiff, ?_⟩
  unfold nameHashInput
  rw [hiff]
  constructor
  · intro h
    exact (List.append_inj' h rfl).1
  · intro h
    rw [h]

/-- **C7 counterexample.** `setoption name X value` (the `value` keyword
present with nothing after it) does not decode to
`Setoption{name="X", value=Some("")}`. -/
theorem c7_counterexample :
    fromLine demoCodec "setoption name X value".data
      ≠ .ok (some (.setoption "X".data (some []))) := by
  decide

/-- **C7 (amended).** `setoption name X value` with no value text (or
only whitespace) after the `value` keyword fails with
`UnexpectedEndOfLine`; the parser requires a nonempty value after
`value`. -/
theorem c7_empty_value_is_error :
    fromLine demoCodec "setoption name X value".data = .error .unexpectedEndOfLine
    ∧ fromLine demoCodec "setoption name X value \t ".data = .error .unexpectedEndOfLine := by
  decide

/-! ### Tokenizer lemmas -/

/-- `takeWhile` over an append stops at a failing head of the second
part. -/
theorem takeWhile_append_cons_neg (q : Char → Bool) (a : Str) (c : Char) (r : Str)
    (hc : q c = false) : (a ++ c :: r).takeWhile q = a.takeWhile q := by
  induction a with
  | nil => simp [List.takeWhile_cons, hc]
  | cons d a ih => simp [List.takeWhile_cons, ih]

/-- `dropWhile` over an append never crosses a failing head of the
second part. -/
theorem dropWhile_append_cons_neg (q : Char → Bool) (a : Str) (c : Char) (r : Str)
    (hc : q c = false) : (a ++ c :: r).dropWhile q = a.dropWhile q ++ c :: r := by
  induction a with
  | nil => simp [List.dropWhile_cons, hc]
  | cons d a ih =>
    by_cases hd : q d
    · simpa [List.dropWhile_cons, hd] using ih
    · simp [List.dropWhile_cons, hd]

/-- `takeWhile` passes over an all-satisfying first part. -/
theorem takeWhile_append_all (q : Char → Bool) (a b : Str)
    (h : ∀ x ∈ a, q x = true) : (a ++ b).takeWhile q = a ++ b.takeWhile q := by
  induction a with
  | nil => simp
  | cons d a ih =>
    have hd : q d = true := h d (List.mem_cons_self d a)
    simp only [List.cons_append, List.takeWhile_cons_of_pos hd, List.cons.injEq, true_and]
    exact ih fun x hx => h x (List.mem_cons_of_mem d hx)

/-- `dropWhile` consumes an all-satisfying first part. -/
theorem dropWhile_append_all (q : Char → Bool) (a b : Str)
    (h : ∀ x ∈ a, q x = true) : (a ++ b).dropWhile q = b.dropWhile q := by
  induction a with
  | nil => simp
  | cons d a ih =>
    have hd : q d = true := h d (List.mem_cons_self d a)
    simp only [List.cons_append, List.dropWhile_cons_of_pos hd]
    exact ih fun x hx => h x (List.mem_cons_of_mem d hx)

/-- `dropWhile` over an append stays in a first part it does not fully
consume. -/
theorem dropWhile_append_ne_nil (q : Char → Bool) (a b : Str)
    (h : a.dropWhile q ≠ []) : (a ++ b).dropWhile q = a.dropWhile q ++ b := by
  induction a with
  | nil => simp at h
  | cons d a ih =>
    by_cases hd : q d
    · simp only [List.dropWhile_cons_of_pos hd] at h
      simpa [List.dropWhile_cons, hd] using ih h
    · simp [List.dropWhile_cons, hd]

/-- `read` of the empty line. -/
theorem read_nil : read [] = (none, []) := rfl

/-- `read` skips a leading separator. -/
theorem read_sep_cons (c : Char) (s : Str) (hc : isSep c = true) :
    read (c :: s) = read s := by
  simp [read, List.dropWhile_cons, hc]

/-- `read` of a token followed by a separator-or-nothing tail extracts
exactly the token. -/
theorem read_token (t r : Str) (ht : t ≠ []) (hall : ∀ x ∈ t, isSep x = false)
    (hr : headSepNilB r = true) : read (t ++ r) = (some t, r) := by
  cases t with
  | nil => exact absurd rfl ht
  | cons d t' =>
    have hd : isSep d = false := hall d (List.mem_cons_self d t')
    have hnall : ∀ x ∈ d :: t', nonSep x = true := by
      intro x hx
      simp [nonSep, hall x hx]
    have hdrop : ((d :: t') ++ r).dropWhile isSep = (d :: t') ++ r := by
      simp [List.dropWhile_cons, hd]
    have htake : ((d :: t') ++ r).takeWhile nonSep = d :: t' := by
      rw [takeWhile_append_all nonSep _ _ hnall]
      cases r with
      | nil => simp
      | cons c r' =>
        have hc : isSep c = true := hr
        have : nonSep c = false := by simp [nonSep, hc]
        simp [List.takeWhile_cons, this]
    have hdrop2 : ((d :: t') ++ r).dropWhile nonSep = r := by
      rw [dropWhile_append_all nonSep _ _ hnall]
      cases r with
      | nil => simp
      | cons c r' =>
        have hc : isSep c = true := hr
        have : nonSep c = false := by simp [nonSep, hc]
        simp [List.dropWhile_cons, this]
    rw [read, hdrop]
    simp only [htake, hdrop2]
    rfl

/-- Inversion of a successful `read`: the token is a nonempty run of
non-separators taken from `s`, and the tail starts at a separator (or is
empty), is shorter than `s`, and consists of chars of `s`. -/
theorem read_some (s tok tx : Str) (h : read s = (some tok, tx)) :
    tok ≠ [] ∧ (∀ x ∈ tok, isSep x = false) ∧ headSepNilB tx = true
    ∧ (∀ ch ∈ tok, ch ∈ s) ∧ (∀ ch ∈ tx, ch ∈ s) ∧ tx.length < s.length := by
  rw [read] at h
  rcases hdrop : s.dropWhile isSep with _ | ⟨d, t'⟩
  · rw [hdrop] at h
    simp at h
  · rw [hdrop] at h
    simp only [Prod.mk.injEq, Option.some.injEq] at h
    obtain ⟨htok, htx⟩ := h
    have hd : isSep d = false := by
      have h2 := List.head?_dropWhile_not isSep s
      rw [hdrop] at h2
      simpa using h2
    have hsub : ∀ ch ∈ d :: t', ch ∈ s :=
      fun ch hch => (List.dropWhile_sublist isSep).subset (hdrop ▸ hch)
    refine ⟨?_, ?_, ?_, ?_, ?_, ?_⟩
    · rw [← htok]
      simp [List.takeWhile_cons, nonSep, hd]
    · intro x hx
      rw [← htok] at hx
      have := List.mem_takeWhile_imp hx
      simpa [nonSep] using this
    · rw [← htx]
      rcases h3 : (d :: t').dropWhile nonSep with _ | ⟨c, r'⟩
      · rfl
      · have h2 := List.head?_dropWhile_not nonSep (d :: t')
        rw [h3] at h2
        simp only [List.head?_cons] at h2
        simp only [headSepNilB]
        simpa [nonSep] using h2
    · intro ch hch
      rw [← htok] at hch
      exact hsub ch ((List.takeWhile_sublist nonSep).subset hch)
    · intro ch hch
      rw [← htx] at hch
      exact hsub ch ((List.dropWhile_sublist nonSep).subset hch)
    · rw [← htx]
      have h1 : ((d :: t').dropWhile nonSep).length ≤ t'.length := by
        have hnd : nonSep d = true := by simp [nonSep, hd]
        simp only [List.dropWhile_cons_of_pos hnd]
        exact (List.dropWhile_sublist nonSep).length_le
      have h2 : (d :: t').length ≤ s.length := by
        rw [← hdrop]
        exact (List.dropWhile_sublist isSep).length_le
      simp only [List.length_cons] at h2
      omega

/-! ### `trimEnd` lemmas -/

/-- Unchanged when the last char (if any) is not a separator. -/
theorem trimEnd_eq_self (s : Str) (h : endsNonSepB s = true) : trimEnd s = s := by
  unfold trimEnd
  cases hrev : s.reverse with
  | nil =>
    have : s = [] := by simpa using congrArg List.reverse hrev
    simp [this]
  | cons d r =>
    have hd : isSep d = false := by
      unfold endsNonSepB at h
      rw [← List.head?_reverse, hrev] at h
      simpa using h
    rw [List.dropWhile_cons_of_neg (by simp [hd]), ← hrev, List.reverse_reverse]

/-- Commutes with a non-separator head. -/
theorem trimEnd_cons_nonsep (c : Char) (z : Str) (hc : isSep c = false) :
    trimEnd (c :: z) = c :: trimEnd z := by
  unfold trimEnd
  rw [List.reverse_cons]
  by_cases h : z.reverse.dropWhile isSep = []
  · have hall : ∀ x ∈ z.reverse, isSep x = true := by
      intro x hx
      exact List.dropWhile_eq_nil_iff.mp h x hx
    rw [dropWhile_append_all isSep _ _ hall, h]
    simp [List.dropWhile_cons, hc]
  · rw [dropWhile_append_ne_nil isSep _ _ h]
    simp

/-- Trailing separators are dropped. -/
theorem trimEnd_append_seps (s ts : Str) (h : ∀ x ∈ ts, isSep x = true) :
    trimEnd (s ++ ts) = trimEnd s := by
  unfold trimEnd
  rw [List.reverse_append, dropWhile_append_all isSep _ _ (by
    intro x hx
    exact h x (List.mem_reverse.mp hx))]

/-- Chars of the trimmed string come from the original. -/
theorem mem_trimEnd (s : Str) (ch : Char) (h : ch ∈ trimEnd s) : ch ∈ s := by
  unfold trimEnd at h
  have h1 := List.mem_reverse.mp h
  have h2 := (List.dropWhile_sublist isSep).subset h1
  exact List.mem_reverse.mp h2

/-- The trimmed string never ends in a separator. -/
theorem trimEnd_ends (s : Str) : endsNonSepB (trimEnd s) = true := by
  unfold trimEnd endsNonSepB
  cases h : s.reverse.dropWhile isSep with
  | nil => simp
  | cons d r =>
    have hd : isSep d = false := by
      have h2 := List.head?_dropWhile_not isSep s.reverse
      rw [h] at h2
      simpa using h2
    rw [List.getLast?_reverse]
    simpa using hd

/-- Every string splits as its trimmed part plus trailing separators. -/
theorem trimEnd_decomp (s : Str) :
    ∃ ts, s = trimEnd s ++ ts ∧ ∀ x ∈ ts, isSep x = true := by
  refine ⟨(s.reverse.takeWhile isSep).reverse, ?_, ?_⟩
  · unfold trimEnd
    rw [← List.reverse_append, List.takeWhile_append_dropWhile, List.reverse_reverse]
  · intro x hx
    exact List.mem_takeWhile_imp (List.mem_reverse.mp hx)

/-- `tokTrimB` gives a non-separator last char. -/
theorem tokTrimB_ends (s : Str) (h : tokTrimB s = true) : endsNonSepB s = true := by
  unfold tokTrimB at h
  unfold endsNonSepB
  cases s with
  | nil => rfl
  | cons d z =>
    cases hl : (d :: z).getLast? with
    | none => simp at hl
    | some e =>
      rw [hl] at h
      simp only [Bool.and_eq_true] at h
      exact h.2

/-- `tokTrimB` gives a nonempty string with non-separator head. -/
theorem tokTrimB_head (s : Str) (h : tokTrimB s = true) :
    ∃ d z, s = d :: z ∧ isSep d = false := by
  unfold tokTrimB at h
  cases s with
  | nil => simp at h
  | cons d z =>
    cases hl : (d :: z).getLast? with
    | none => simp at hl
    | some e =>
      rw [hl] at h
      simp only [Bool.and_eq_true, Bool.not_eq_true'] at h
      exact ⟨d, z, rfl, h.1⟩

/-- Builds `tokTrimB` from a head and the ends condition. -/
theorem tokTrimB_intro (d : Char) (z : Str) (hd : isSep d = false)
    (he : endsNonSepB (d :: z) = true) : tokTrimB (d :: z) = true := by
  unfold tokTrimB
  unfold endsNonSepB at he
  cases hl : (d :: z).getLast? with
  | none => simp at hl
  | some e =>
    rw [hl] at he
    simp only [Option.some.injEq] at he
    simp [hd, he]

/-- A nonempty string ending in a non-separator is not all
separators. -/
theorem ends_dropWhile_ne_nil (b : Str) (hb : b ≠ []) (he : endsNonSepB b = true) :
    b.dropWhile isSep ≠ [] := by
  intro hnil
  have hall := List.dropWhile_eq_nil_iff.mp hnil
  unfold endsNonSepB at he
  cases hl : b.getLast? with
  | none => exact hb (List.getLast?_eq_none_iff.mp hl)
  | some e =>
    rw [hl] at he
    obtain ⟨ys, rfl⟩ := List.getLast?_eq_some_iff.mp hl
    have : isSep e = true := hall e (by simp)
    simp [this] at he

/-! ### `readUntil` lemmas -/

/-- First tokens ignore what follows a separator. -/
theorem read_fst_append_sep (x : Str) (c : Char) (r : Str) (hc : isSep c = true)
    (hx : x.dropWhile isSep ≠ []) : (read (x ++ c :: r)).fst = (read x).fst := by
  rw [read, read, dropWhile_append_ne_nil isSep x _ hx]
  cases h : x.dropWhile isSep with
  | nil => exact absurd h hx
  | cons e y =>
    simp only [List.cons_append]
    rw [← List.cons_append]
    rw [takeWhile_append_cons_neg nonSep (e :: y) c r (by simp [nonSep, hc])]

/-- First tokens ignore trailing separators. -/
theorem read_fst_append_all_sep (b ts : Str) (h : ∀ x ∈ ts, isSep x = true) :
    (read (b ++ ts)).fst = (read b).fst := by
  cases ts with
  | nil => simp
  | cons c ts' =>
    by_cases hb : b.dropWhile isSep = []
    · rw [read, read, dropWhile_append_all isSep b _ (List.dropWhile_eq_nil_iff.mp hb), hb]
      have : (c :: ts').dropWhile isSep = [] :=
        List.dropWhile_eq_nil_iff.mpr fun x hx => h x hx
      rw [this]
    · exact read_fst_append_sep b c ts' (h c (List.mem_cons_self c ts')) hb

/-- `noStopTok` from the decomposition form. -/
theorem noStopTok_of_forall (p : Str → Bool) (x : Str)
    (h : ∀ b, sepSuffix x b → noPTok p b) : noStopTok p x = true := by
  induction x with
  | nil => rfl
  | cons d x' ih =>
    rw [noStopTok, Bool.and_eq_true]
    refine ⟨?_, ih fun b hb => ?_⟩
    · by_cases hd : isSep d
      · simp only [hd, if_true]
        split
        · next tk hr =>
          have hn : noPTok p x' := h x' ⟨[], d, rfl, hd⟩
          have hrx : (read x').fst = some tk := by
            rw [← read_sep_cons d x' hd]
            exact hr
          simp [hn tk hrx]
        · rfl
      · simp [hd]
    · obtain ⟨a, c, hx, hcs⟩ := hb
      refine h b ⟨d :: a, c, ?_, hcs⟩
      rw [hx]
      simp

/-- Decomposition form from `noStopTok`. -/
theorem forall_of_noStopTok (p : Str → Bool) (x : Str) (h : noStopTok p x = true) :
    ∀ b, sepSuffix x b → noPTok p b := by
  induction x with
  | nil =>
    rintro b ⟨a, c, hx, -⟩
    exact absurd hx.symm (by simp)
  | cons d x' ih =>
    rw [noStopTok, Bool.and_eq_true] at h
    rintro b ⟨a, c, hx, hcs⟩
    cases a with
    | nil =>
      simp only [List.nil_append, List.cons.injEq] at hx
      intro tk hrd
      have h1 := h.1
      have hds : isSep d = true := by
        rw [hx.1]
        exact hcs
      rw [if_pos hds] at h1
      have hrd2 : (read (d :: x')).fst = some tk := by
        rw [read_sep_cons d x' hds, hx.2]
        exact hrd
      rw [hrd2] at h1
      simpa using h1
    | cons e a' =>
      simp only [List.cons_append, List.cons.injEq] at hx
      obtain ⟨rfl, hx'⟩ := hx
      exact ih h.2 b ⟨a', c, hx', hcs⟩

/-- Snoc injectivity. -/
theorem snoc_inj (xs ys : Str) (x y : Char) (h : xs ++ [x] = ys ++ [y]) :
    xs = ys ∧ x = y := by
  have := List.append_inj' h rfl
  simpa using this

/-- The separator-suffixes of `acc ++ [c]`. -/
theorem sepSuffix_snoc (acc : Str) (c : Char) (b : Str)
    (h : sepSuffix (acc ++ [c]) b) :
    (b = [] ∧ isSep c = true) ∨ ∃ b', b = b' ++ [c] ∧ sepSuffix acc b' := by
  obtain ⟨a, c', hx, hcs⟩ := h
  rcases List.eq_nil_or_concat b with rfl | ⟨b', z, hb⟩
  · obtain ⟨ha, hc⟩ := snoc_inj acc a c c' (by simpa using hx)
    exact Or.inl ⟨rfl, hc ▸ hcs⟩
  · rw [List.concat_eq_append] at hb
    subst hb
    have hx' : acc ++ [c] = (a ++ c' :: b') ++ [z] := by
      simpa using hx
    obtain ⟨ha, hz⟩ := snoc_inj acc (a ++ c' :: b') c z hx'
    exact Or.inr ⟨b', by rw [hz], ⟨a, c', ha, hcs⟩⟩

/-- Stepping the walk invariant. -/
theorem sepsOk_snoc (p : Str → Bool) (acc : Str) (c : Char) (rest : Str)
    (hall : sepsOk p acc (c :: rest))
    (hc : isSep c = true → noPTok p (c :: rest)) : sepsOk p (acc ++ [c]) rest := by
  intro b hb
  rcases sepSuffix_snoc acc c b hb with ⟨rfl, hcs⟩ | ⟨b', rfl, hb'⟩
  · intro tk hrd
    refine hc hcs tk ?_
    rw [read_sep_cons c rest hcs]
    simpa using hrd
  · intro tk hrd
    refine hall b' hb' tk ?_
    rw [List.append_assoc] at hrd
    simpa using hrd

/-- At a fallback return, the invariant yields `noStopTok` of the
trimmed accumulator. -/
theorem noStop_of_sepsOk_nil (p : Str → Bool) (acc : Str)
    (h : sepsOk p acc []) : noStopTok p (trimEnd acc) = true := by
  apply noStopTok_of_forall
  intro b hb
  obtain ⟨ts, hdec, hts⟩ := trimEnd_decomp acc
  obtain ⟨a, c, hx, hcs⟩ := hb
  have hsuf : sepSuffix acc (b ++ ts) := by
    refine ⟨a, c, ?_, hcs⟩
    rw [hdec, hx]
    simp
  have h1 : noPTok p (b ++ ts ++ []) := h (b ++ ts) hsuf
  intro tk hrd
  refine h1 tk ?_
  rw [List.append_nil, read_fst_append_all_sep b ts hts]
  exact hrd

/-- At a stop return, the invariant yields `noStopTok` of the
accumulator, which is already trimmed. -/
theorem noStop_of_sepsOk_stop (p : Str → Bool) (acc : Str) (c : Char) (rest : Str)
    (tk : Str) (h : sepsOk p acc (c :: rest)) (hc : isSep c = true)
    (hrd : (read (c :: rest)).fst = some tk) (hp : p tk = true) :
    noStopTok p (trimEnd acc) = true ∧ trimEnd acc = acc := by
  have hends : endsNonSepB acc = true := by
    by_contra hne
    rcases List.eq_nil_or_concat acc with rfl | ⟨a, z, ha⟩
    · exact hne rfl
    · rw [List.concat_eq_append] at ha
      subst ha
      have hz : isSep z = true := by
        unfold endsNonSepB at hne
        rw [List.getLast?_concat] at hne
        simpa using hne
      have := h [] ⟨a, z, by simp, hz⟩ tk (by simpa using hrd)
      rw [this] at hp
      exact Bool.false_ne_true hp
  refine ⟨?_, trimEnd_eq_self acc hends⟩
  rw [trimEnd_eq_self acc hends]
  apply noStopTok_of_forall
  intro b hb
  have hbn : b ≠ [] := by
    rintro rfl
    obtain ⟨a, c', hx, hcs⟩ := hb
    rw [hx] at hends
    unfold endsNonSepB at hends
    rw [List.getLast?_concat] at hends
    simp [hcs] at hends
  have hbe : endsNonSepB b = true := by
    obtain ⟨a, c', hx, -⟩ := hb
    unfold endsNonSepB at hends ⊢
    rw [hx] at hends
    rwa [show a ++ c' :: b = (a ++ [c']) ++ b by simp, List.getLast?_append,
      (by
        cases hgl : b.getLast? with
        | none => exact absurd (List.getLast?_eq_none_iff.mp hgl) hbn
        | some e => rfl : b.getLast?.or (a ++ [c']).getLast? = b.getLast?)] at hends
  intro tk' hrd'
  refine h b hb tk' ?_
  rw [read_fst_append_sep b c rest hc (ends_dropWhile_ne_nil b hbn hbe)]
  exact hrd'

/-- One walk step: stop at a separator whose token satisfies `p`. -/
theorem readUntilGo_step_stop (p : Str → Bool) (acc : Str) (c : Char) (rest tk : Str)
    (hc : isSep c = true) (hrd : (read (c :: rest)).fst = some tk) (hp : p tk = true) :
    readUntilGo p acc (c :: rest) = (trimEnd acc, c :: rest) := by
  rw [readUntilGo]
  simp only [hc, if_true, hrd, hp]

/-- One walk step: pass a separator whose token fails `p`. -/
theorem readUntilGo_step_cont (p : Str → Bool) (acc : Str) (c : Char) (rest tk : Str)
    (hc : isSep c = true) (hrd : (read (c :: rest)).fst = some tk) (hp : p tk = false) :
    readUntilGo p acc (c :: rest) = readUntilGo p (acc ++ [c]) rest := by
  rw [readUntilGo]
  simp only [hc, if_true, hrd, hp]
  simp

/-- One walk step: pass a separator with no following token. -/
theorem readUntilGo_step_none (p : Str → Bool) (acc : Str) (c : Char) (rest : Str)
    (hc : isSep c = true) (hrd : (read (c :: rest)).fst = none) :
    readUntilGo p acc (c :: rest) = readUntilGo p (acc ++ [c]) rest := by
  rw [readUntilGo]
  simp only [hc, if_true, hrd]

/-- One walk step: pass a non-separator char. -/
theorem readUntilGo_step_nonsep (p : Str → Bool) (acc : Str) (c : Char) (rest : Str)
    (hc : isSep c = false) : readUntilGo p acc (c :: rest) = readUntilGo p (acc ++ [c]) rest := by
  rw [readUntilGo]
  simp [hc]

/-- **Replay to the end**: the walk over a capture with no stopping
separator returns it whole. -/
theorem readUntilGo_noStop (p : Str → Bool) :
    ∀ (h acc : Str), noStopTok p h = true →
      readUntilGo p acc h = (trimEnd (acc ++ h), []) := by
  intro h
  induction h with
  | nil =>
    intro acc _
    simp [readUntilGo]
  | cons c rest ih =>
    intro acc hns
    rw [noStopTok, Bool.and_eq_true] at hns
    have step : readUntilGo p acc (c :: rest) = readUntilGo p (acc ++ [c]) rest := by
      by_cases hc : isSep c
      · have h1 := hns.1
        rw [if_pos hc] at h1
        cases hrd : (read (c :: rest)).fst with
        | none => exact readUntilGo_step_none p acc c rest hc hrd
        | some tk =>
          have h2 : (!p tk) = true := by
            rw [hrd] at h1
            exact h1
          exact readUntilGo_step_cont p acc c rest tk hc hrd (by simpa using h2)
      · exact readUntilGo_step_nonsep p acc c rest (by simpa using hc)
    rw [step, ih (acc ++ [c]) hns.2]
    simp

/-- **Replay to a stop**: the walk over a capture followed by a
separator whose token satisfies `p` stops exactly there. -/
theorem readUntilGo_stop (p : Str → Bool) :
    ∀ (h acc : Str), noStopTok p h = true → endsNonSepB h = true →
      ∀ (c : Char) (rest tk : Str), isSep c = true →
        (read (c :: rest)).fst = some tk → p tk = true →
        readUntilGo p acc (h ++ c :: rest) = (trimEnd (acc ++ h), c :: rest) := by
  intro h
  induction h with
  | nil =>
    intro acc _ _ c rest tk hc hrd hp
    rw [List.nil_append, readUntilGo_step_stop p acc c rest tk hc hrd hp]
    simp
  | cons d h' ih =>
    intro acc hns hend c rest tk hc hrd hp
    rw [noStopTok, Bool.and_eq_true] at hns
    have hdh : (d :: h') ++ c :: rest = d :: (h' ++ c :: rest) := by simp
    have hend' : endsNonSepB h' = true := by
      cases h' with
      | nil => rfl
      | cons e z =>
        unfold endsNonSepB at hend ⊢
        rwa [List.getLast?_cons_cons] at hend
    have step : readUntilGo p acc (d :: (h' ++ c :: rest))
        = readUntilGo p (acc ++ [d]) (h' ++ c :: rest) := by
      by_cases hd : isSep d
      · -- an inner separator of the capture: the extended token equals
        -- the token within the capture, which `noStopTok` says fails `p`
        have hne : h' ≠ [] := by
          rintro rfl
          unfold endsNonSepB at hend
          simp only [List.getLast?_singleton] at hend
          rw [hd] at hend
          simp at hend
        have hdrop : h'.dropWhile isSep ≠ [] := ends_dropWhile_ne_nil h' hne hend'
        have hfst : (read (d :: (h' ++ c :: rest))).fst = (read (d :: h')).fst := by
          rw [read_sep_cons d _ hd, read_sep_cons d h' hd]
          exact read_fst_append_sep h' c rest hc hdrop
        have h1 := hns.1
        rw [if_pos hd] at h1
        cases hrd' : (read (d :: (h' ++ c :: rest))).fst with
        | none => exact readUntilGo_step_none p acc d _ hd hrd'
        | some tk' =>
          have htk : (read (d :: h')).fst = some tk' := by
            rw [← hfst]
            exact hrd'
          have h2 : (!p tk') = true := by
            rw [htk] at h1
            exact h1
          exact readUntilGo_step_cont p acc d _ tk' hd hrd' (by simpa using h2)
      · exact readUntilGo_step_nonsep p acc d _ (by simpa using hd)
    rw [hdh, step, ih (acc ++ [d]) hns.2 hend' c rest tk hc hrd hp]
    simp

/-- **Source inversion** of the walk: the result splits the input, the
capture is the trimmed accumulated prefix, and no inner separator of the
capture is followed by a token satisfying `p`. -/
theorem readUntilGo_inv (p : Str → Bool) :
    ∀ (s acc : Str), sepsOk p acc s →
      ∃ pre, s = pre ++ (readUntilGo p acc s).snd
        ∧ (readUntilGo p acc s).fst = trimEnd (acc ++ pre)
        ∧ noStopTok p (readUntilGo p acc s).fst = true := by
  intro s
  induction s with
  | nil =>
    intro acc hall
    refine ⟨[], by simp [readUntilGo], ?_, ?_⟩
    · simp [readUntilGo]
    · simpa [readUntilGo] using noStop_of_sepsOk_nil p acc hall
  | cons c rest ih =>
    intro acc hall
    by_cases hc : isSep c
    · cases hrd : (read (c :: rest)).fst with
      | none =>
        have step := readUntilGo_step_none p acc c rest hc hrd
        have hall' : sepsOk p (acc ++ [c]) rest :=
          sepsOk_snoc p acc c rest hall fun _ tk h => by
            rw [h] at hrd
            cases hrd
        obtain ⟨pre, h1, h2, h3⟩ := ih (acc ++ [c]) hall'
        rw [step]
        exact ⟨c :: pre, by simpa using h1, by simpa using h2, h3⟩
      | some tk =>
        by_cases hp : p tk
        · have step := readUntilGo_step_stop p acc c rest tk hc hrd hp
          obtain ⟨hns, htr⟩ := noStop_of_sepsOk_stop p acc c rest tk hall hc hrd hp
          rw [step]
          exact ⟨[], by simp, by simp, hns⟩
        · have step := readUntilGo_step_cont p acc c rest tk hc hrd (by simpa using hp)
          have hall' : sepsOk p (acc ++ [c]) rest :=
            sepsOk_snoc p acc c rest hall fun _ tk' h => by
              rw [hrd] at h
              injection h with h4
              subst h4
              simpa using hp
          obtain ⟨pre, h1, h2, h3⟩ := ih (acc ++ [c]) hall'
          rw [step]
          exact ⟨c :: pre, by simpa using h1, by simpa using h2, h3⟩
    · have step := readUntilGo_step_nonsep p acc c rest (by simpa using hc)
      have hall' : sepsOk p (acc ++ [c]) rest :=
        sepsOk_snoc p acc c rest hall fun hcs => absurd hcs (by simp [hc])
      obtain ⟨pre, h1, h2, h3⟩ := ih (acc ++ [c]) hall'
      rw [step]
      exact ⟨c :: pre, by simpa using h1, by simpa using h2, h3⟩

/-- `readUntil` skips a leading separator. -/
theorem readUntil_sep_cons (c : Char) (s : Str) (p : Str → Bool)
    (hc : isSep c = true) : readUntil (c :: s) p = readUntil s p := by
  simp [readUntil, List.dropWhile_cons, hc]

/-- **Replay, fallback form**: a capture alone is re-captured whole. -/
theorem readUntil_self (p : Str → Bool) (h : Str) (ht : tokTrimB h = true)
    (hns : noStopTok p h = true) : readUntil h p = (some h, []) := by
  obtain ⟨d, z, rfl, hd⟩ := tokTrimB_head h ht
  rw [readUntil]
  have hdrop : (d :: z).dropWhile isSep = d :: z := by
    simp [List.dropWhile_cons, hd]
  rw [hdrop]
  simp only []
  rw [readUntilGo_noStop p (d :: z) [] hns]
  rw [List.nil_append, trimEnd_eq_self _ (tokTrimB_ends _ ht)]

/-- **Replay, stop form**: a capture followed by a separator and a
`p`-token is re-captured exactly. -/
theorem readUntil_stop (p : Str → Bool) (h : Str) (c : Char) (rest tk : Str)
    (ht : tokTrimB h = true) (hns : noStopTok p h = true) (hc : isSep c = true)
    (hrd : (read (c :: rest)).fst = some tk) (hp : p tk = true) :
    readUntil (h ++ c :: rest) p = (some h, c :: rest) := by
  obtain ⟨d, z, hdz, hd⟩ := tokTrimB_head h ht
  rw [readUntil]
  have hdrop : (h ++ c :: rest).dropWhile isSep = h ++ c :: rest := by
    rw [hdz]
    simp [List.dropWhile_cons, hd]
  rw [hdrop]
  have hcons : h ++ c :: rest = d :: (z ++ c :: rest) := by rw [hdz]; simp
  rw [hcons]
  simp only []
  rw [← hcons]
  rw [readUntilGo_stop p h [] hns (tokTrimB_ends _ ht) c rest tk hc hrd hp]
  rw [List.nil_append, trimEnd_eq_self _ (tokTrimB_ends _ ht)]

/-- **Source inversion** of `readUntil`: a successful capture is a
trimmed, clean-from-source token run with no inner stopping
separator. -/
theorem readUntil_inv (p : Str → Bool) (s h t : Str)
    (hru : readUntil s p = (some h, t)) :
    tokTrimB h = true ∧ noStopTok p h = true
    ∧ (∀ ch ∈ h, ch ∈ s) ∧ (∀ ch ∈ t, ch ∈ s) := by
  rw [readUntil] at hru
  cases hdrop : s.dropWhile isSep with
  | nil =>
    rw [hdrop] at hru
    simp at hru
  | cons d s' =>
    rw [hdrop] at hru
    simp only [Prod.mk.injEq, Option.some.injEq] at hru
    have hd : isSep d = false := by
      have h2 := List.head?_dropWhile_not isSep s
      rw [hdrop] at h2
      simpa using h2
    have hmem : ∀ ch ∈ d :: s', ch ∈ s :=
      fun ch hch => (List.dropWhile_sublist isSep).subset (hdrop ▸ hch)
    have hgo : readUntilGo p [] (d :: s') = readUntilGo p [d] s' := by
      rw [readUntilGo]
      simp [hd]
    have hok : sepsOk p [d] s' := by
      rintro b ⟨a, c, hx, hcs⟩
      cases a with
      | nil =>
        simp only [List.nil_append, List.cons.injEq] at hx
        rw [hx.1] at hd
        rw [hcs] at hd
        cases hd
      | cons e a' =>
        simp only [List.cons_append, List.cons.injEq] at hx
        exact absurd hx.2.symm (by simp)
    obtain ⟨pre, h1, h2, h3⟩ := readUntilGo_inv p s' [d] hok
    rw [hgo] at hru
    obtain ⟨hh, ht⟩ := hru
    have hpre : h = trimEnd (d :: pre) := by
      rw [← hh, h2]
      simp
    have hhead : h = d :: trimEnd pre := by
      rw [hpre, trimEnd_cons_nonsep d pre hd]
    refine ⟨?_, ?_, ?_, ?_⟩
    · rw [hhead]
      apply tokTrimB_intro d (trimEnd pre) hd
      rw [← hhead, hpre]
      exact trimEnd_ends (d :: pre)
    · rw [← hh]
      exact h3
    · intro ch hch
      rw [hpre] at hch
      have := mem_trimEnd _ ch hch
      rcases List.mem_cons.mp this with hch2 | hch'
      · rw [hch2]
        exact hmem d (List.mem_cons_self d s')
      · refine hmem ch (List.mem_cons_of_mem d ?_)
        rw [h1]
        exact List.mem_append_left _ hch'
    · intro ch hch
      rw [← ht] at hch
      refine hmem ch (List.mem_cons_of_mem d ?_)
      rw [h1]
      exact List.mem_append_right _ hch

/-! ### Decimal printing round-trips through decimal parsing -/

/-- `natStrF` of zero returns the accumulator. -/
theorem natStrF_zero (fuel : Nat) (acc : Str) : natStrF fuel 0 acc = acc := by
  cases fuel
  · rfl
  · rfl

/-- The accumulator is a suffix. -/
theorem natStrF_append : ∀ (fuel n : Nat) (acc : Str),
    natStrF fuel n acc = natStrF fuel n [] ++ acc := by
  intro fuel
  induction fuel with
  | zero => intro n acc; rfl
  | succ fuel ih =>
    intro n acc
    by_cases hn : n = 0
    · subst hn
      simp [natStrF]
    · rw [natStrF, if_neg hn, natStrF, if_neg hn, ih (n / 10) (digitChar (n % 10) :: acc),
        ih (n / 10) [digitChar (n % 10)]]
      simp

/-- The digit char of `r < 10` has decimal value `r`. -/
theorem digitVal_digitChar (r : Nat) (h : r < 10) :
    digitVal (digitChar r) = some r := by
  interval_cases r
  all_goals decide

/-- Digit chars are within `'0'..'9'`. -/
theorem digitChar_range (r : Nat) (h : r < 10) :
    '0' ≤ digitChar r ∧ digitChar r ≤ '9' := by
  interval_cases r
  all_goals decide

/-- A char in `'0'..'9'` is a clean non-separator distinct from `'+'`. -/
theorem digit_char_shape (c : Char) (h1 : '0' ≤ c) (h2 : c ≤ '9') :
    isSep c = false ∧ (c == '\r') = false ∧ (c == '\n') = false ∧ c ≠ '+' := by
  refine ⟨?_, ?_, ?_, ?_⟩
  · by_cases hs : c = ' '
    · subst hs
      exact absurd h1 (by decide)
    · by_cases ht : c = '\t'
      · subst ht
        exact absurd h1 (by decide)
      · simp [isSep, hs, ht]
  · by_cases hr : c = '\r'
    · subst hr
      exact absurd h1 (by decide)
    · simp [hr]
  · by_cases hn : c = '\n'
    · subst hn
      exact absurd h1 (by decide)
    · simp [hn]
  · intro hp
    subst hp
    exact absurd h1 (by decide)

/-- Every char of a printed number is a digit char. -/
theorem natStrF_chars : ∀ (fuel n : Nat) (acc : Str) (ch : Char),
    ch ∈ natStrF fuel n acc → ch ∈ acc ∨ ∃ r, r < 10 ∧ ch = digitChar r := by
  intro fuel
  induction fuel with
  | zero => intro n acc ch h; exact Or.inl h
  | succ fuel ih =>
    intro n acc ch h
    by_cases hn : n = 0
    · subst hn
      rw [natStrF_zero] at h
      exact Or.inl h
    · rw [natStrF, if_neg hn] at h
      rcases ih (n / 10) (digitChar (n % 10) :: acc) ch h with hacc | hr
      · rcases List.mem_cons.mp hacc with hd | htl
        · exact Or.inr ⟨n % 10, Nat.mod_lt n (by norm_num), hd⟩
        · exact Or.inl htl
      · exact Or.inr hr

/-- Printing then evaluating, with an accumulator: the core identity. -/
theorem digitsValGo_natStrF : ∀ (fuel n : Nat) (acc : Str) (a : Nat), n ≤ fuel →
    digitsValGo a (natStrF fuel n acc)
      = digitsValGo (a * 10 ^ (natStrF fuel n []).length + n) acc := by
  intro fuel
  induction fuel with
  | zero =>
    intro n acc a h
    have : n = 0 := by omega
    subst this
    simp [natStrF]
  | succ fuel ih =>
    intro n acc a h
    by_cases hn : n = 0
    · subst hn
      rw [natStrF_zero, natStrF_zero]
      simp
    · rw [natStrF, if_neg hn]
      rw [ih (n / 10) (digitChar (n % 10) :: acc) a (by omega)]
      rw [digitsValGo]
      simp only [digitVal_digitChar (n % 10) (Nat.mod_lt n (by norm_num))]
      have hlen : (natStrF (fuel + 1) n []).length
          = (natStrF fuel (n / 10) []).length + 1 := by
        rw [natStrF, if_neg hn, natStrF_append fuel (n / 10) [digitChar (n % 10)]]
        simp
      rw [hlen]
      congr 1
      have h2 : n / 10 * 10 + n % 10 = n := by omega
      calc (a * 10 ^ (natStrF fuel (n / 10) []).length + n / 10) * 10 + n % 10
          = a * (10 ^ (natStrF fuel (n / 10) []).length * 10)
            + (n / 10 * 10 + n % 10) := by ring
        _ = a * 10 ^ ((natStrF fuel (n / 10) []).length + 1) + n := by
            rw [h2, pow_succ]

/-- A printed positive number is nonempty. -/
theorem natStrF_ne_nil (fuel n : Nat) (h1 : 1 ≤ n) (h2 : n ≤ fuel) :
    natStrF fuel n [] ≠ [] := by
  cases fuel with
  | zero => omega
  | succ fuel =>
    rw [natStrF, if_neg (by omega), natStrF_append]
    simp

/-- `natStr` produces a single clean token of digits. -/
theorem natStr_shape (n : Nat) :
    isTokenB (natStr n) = true ∧ ∀ ch ∈ natStr n, '0' ≤ ch ∧ ch ≤ '9' := by
  have hchars : ∀ ch ∈ natStr n, '0' ≤ ch ∧ ch ≤ '9' := by
    intro ch hch
    unfold natStr at hch
    by_cases hn : n = 0
    · rw [if_pos hn] at hch
      simp only [List.mem_singleton] at hch
      subst hch
      exact ⟨by decide, by decide⟩
    · rw [if_neg hn] at hch
      rcases natStrF_chars (n + 1) n [] ch hch with habs | ⟨r, hr, rfl⟩
      · simp at habs
      · exact digitChar_range r hr
  refine ⟨?_, hchars⟩
  unfold isTokenB
  rw [Bool.and_eq_true]
  refine ⟨?_, ?_⟩
  · unfold natStr
    by_cases hn : n = 0
    · rw [if_pos hn]
      decide
    · rw [if_neg hn]
      have := natStrF_ne_nil (n + 1) n (by omega) (by omega)
      simpa using this
  · rw [List.all_eq_true]
    intro ch hch
    obtain ⟨h1, h2, h3, -⟩ := digit_char_shape ch (hchars ch hch).1 (hchars ch hch).2
    simp [h1, h2, h3]

/-- Decimal parsing inverts decimal printing (within the width). -/
theorem parseUNat_natStr (bits n : Nat) (h : n < 2 ^ bits) :
    parseUNat bits (natStr n) = some n := by
  have hds : digitsVal (natStr n) = some n := by
    unfold natStr
    by_cases hn : n = 0
    · rw [if_pos hn, hn]
      decide
    · rw [if_neg hn]
      rcases hs : natStrF (n + 1) n [] with _ | ⟨d, rest⟩
      · exact absurd hs (natStrF_ne_nil (n + 1) n (by omega) (by omega))
      · rw [← hs]
        have : digitsVal (natStrF (n + 1) n []) = digitsValGo 0 (natStrF (n + 1) n []) := by
          rw [hs]
          rfl
        rw [this, digitsValGo_natStrF (n + 1) n [] 0 (by omega)]
        simp [digitsValGo]
  have hstrip : stripPlus (natStr n) = natStr n := by
    rcases hs : natStr n with _ | ⟨d, rest⟩
    · rfl
    · have hd : '0' ≤ d ∧ d ≤ '9' := by
        refine (natStr_shape n).2 d ?_
        rw [hs]
        exact List.mem_cons_self d rest
      have hne : d ≠ '+' := (digit_char_shape d hd.1 hd.2).2.2.2
      unfold stripPlus
      split
      · next heq =>
        rw [List.cons.injEq] at heq
        exact absurd heq.1 hne
      · rfl
  unfold parseUNat
  rw [hstrip, hds]
  simp [h]

/-- `bitLenF` of zero is zero for any fuel. -/
theorem bitLenF_zero (fuel : Nat) : bitLenF fuel 0 = 0 := by
  cases fuel
  · rfl
  · rfl

/-- With adequate fuel, `bitLenF` brackets its argument between
consecutive powers of two. -/
theorem bitLenF_bounds : ∀ fuel n, 1 ≤ n → n ≤ fuel →
    2 ^ (bitLenF fuel n - 1) ≤ n ∧ n < 2 ^ bitLenF fuel n := by
  intro fuel
  induction fuel with
  | zero => intro n h1 h2; omega
  | succ fuel ih =>
    intro n h1 h2
    have hn0 : ¬n = 0 := by omega
    rw [bitLenF, if_neg hn0]
    by_cases hn1 : n = 1
    · subst hn1
      norm_num [bitLenF_zero]
    · have hh1 : 1 ≤ n / 2 := by omega
      have hh2 : n / 2 ≤ fuel := by omega
      obtain ⟨ha, hb⟩ := ih (n / 2) hh1 hh2
      have hL : 1 ≤ bitLenF fuel (n / 2) := by
        rcases Nat.eq_zero_or_pos (bitLenF fuel (n / 2)) with h0 | h0
        · rw [h0] at hb
          norm_num at hb
          omega
        · exact h0
      have hp1 : 2 ^ bitLenF fuel (n / 2) = 2 * 2 ^ (bitLenF fuel (n / 2) - 1) := by
        conv_lhs => rw [← Nat.sub_add_cancel hL]
        rw [Nat.pow_succ]
        ring
      have hp2 : 2 ^ (bitLenF fuel (n / 2) + 1) = 2 * 2 ^ bitLenF fuel (n / 2) := by
        rw [Nat.pow_succ]
        ring
      constructor
      · simp only [Nat.add_sub_cancel]
        omega
      · omega

/-- `bitLen` brackets its argument between consecutive powers of two. -/
theorem bitLen_bounds (n : Nat) (h : 1 ≤ n) :
    2 ^ (bitLen n - 1) ≤ n ∧ n < 2 ^ bitLen n :=
  bitLenF_bounds n n h le_rfl

/-- `bitLen` is determined by the power-of-two bracket. -/
theorem bitLen_eq (n k : Nat) (h1 : 1 ≤ n) (hk : 1 ≤ k)
    (ha : 2 ^ (k - 1) ≤ n) (hb : n < 2 ^ k) : bitLen n = k := by
  obtain ⟨ha', hb'⟩ := bitLen_bounds n h1
  have hL : 1 ≤ bitLen n := by
    rcases Nat.eq_zero_or_pos (bitLen n) with h0 | h0
    · rw [h0] at hb'
      norm_num at hb'
      omega
    · exact h0
  have h₁ : bitLen n - 1 < k :=
    (Nat.pow_lt_pow_iff_right (by norm_num)).mp (lt_of_le_of_lt ha' hb)
  have h₂ : k - 1 < bitLen n :=
    (Nat.pow_lt_pow_iff_right (by norm_num)).mp (lt_of_le_of_lt ha hb')
  omega

/-- `nextPow2 x / 2` relates to the previous power of two: for
non-powers of two it *is* the previous power of two; for powers of two
it is half of `x`. -/
theorem nextPow2_halved (x : Nat) (h1 : 1 ≤ x) :
    prevPow2 x ≤ x ∧ x ≤ nextPow2 x ∧ nextPow2 x ≤ 2 * prevPow2 x
    ∧ (x ≠ prevPow2 x → nextPow2 x / 2 = prevPow2 x)
    ∧ (x = prevPow2 x → nextPow2 x / 2 = x / 2) := by
  by_cases hx1 : x = 1
  · subst hx1
    exact ⟨by decide, by decide, by decide, by decide, by decide⟩
  · have h2 : 2 ≤ x := by omega
    have hx0 : ¬x = 0 := by omega
    obtain ⟨ha, hb⟩ := bitLen_bounds x h1
    have hL : 1 ≤ bitLen x := by
      rcases Nat.eq_zero_or_pos (bitLen x) with h0 | h0
      · rw [h0] at hb
        norm_num at hb
        omega
      · exact h0
    have hprev : prevPow2 x = 2 ^ (bitLen x - 1) := by
      rw [prevPow2, if_neg hx0]
    have hnext : nextPow2 x = 2 ^ bitLen (x - 1) := by
      rw [nextPow2, if_neg (by omega)]
    have hpow : 2 ^ bitLen x = 2 * 2 ^ (bitLen x - 1) := by
      conv_lhs => rw [← Nat.sub_add_cancel hL]
      rw [Nat.pow_succ]
      ring
    by_cases hp : x = 2 ^ (bitLen x - 1)
    · -- x is itself a power of two
      have hL2 : 2 ≤ bitLen x := by
        rcases Nat.lt_or_ge (bitLen x) 2 with h0 | h0
        · exfalso
          have hb1 : bitLen x = 1 := by omega
          rw [hb1] at hp
          norm_num at hp
          omega
        · exact h0
      have hpow2 : 2 ^ (bitLen x - 1) = 2 * 2 ^ (bitLen x - 2) := by
        conv_lhs => rw [show bitLen x - 1 = (bitLen x - 2) + 1 by omega]
        rw [Nat.pow_succ]
        ring
      have hbl : bitLen (x - 1) = bitLen x - 1 := by
        apply bitLen_eq (x - 1) (bitLen x - 1) (by omega) (by omega)
        · have hpos : 1 ≤ 2 ^ (bitLen x - 2) := Nat.one_le_two_pow
          rw [show bitLen x - 1 - 1 = bitLen x - 2 by omega]
          omega
        · omega
      have hnx : nextPow2 x = x := by
        rw [hnext, hbl, ← hp]
      refine ⟨by omega, by omega, by omega, ?_, ?_⟩
      · intro hne
        exact absurd (hprev ▸ hp) hne
      · intro _
        rw [hnx]
    · -- x is strictly between consecutive powers of two
      have hlt : 2 ^ (bitLen x - 1) < x := lt_of_le_of_ne ha fun h => hp h.symm
      have hbl : bitLen (x - 1) = bitLen x := by
        apply bitLen_eq (x - 1) (bitLen x) (by omega) hL
        · omega
        · omega
      have hnx : nextPow2 x = 2 ^ bitLen x := by rw [hnext, hbl]
      have hhalf : 2 ^ bitLen x / 2 = 2 ^ (bitLen x - 1) := by
        rw [hpow, Nat.mul_div_cancel_left _ (by norm_num)]
      refine ⟨by omega, by omega, by omega, ?_, ?_⟩
      · intro _
        rw [hnx, hhalf, hprev]
      · intro heq
        exact absurd (hprev ▸ heq) hp

/-- **C8 counterexample.** At 3072 KiB available (3 MiB), the code's
limit is `next_power_of_two(3)/2 = 2`, while the claimed formula
("previous power of two, divided by 2") gives `2/2 = 1`. -/
theorem c8_counterexample :
    available_memory 3072 = 2 ∧ specMemLimit 3072 = 1
    ∧ available_memory 3072 ≠ specMemLimit 3072 := by
  decide

/-- **C8 (amended).** The memory-derived limit is half of the free MiB
rounded *up* to the next power of two — equivalently, for a non-power of
two it equals the previous power of two itself (not half of it), and for
a power of two it equals half of it; the advertised `max_hash` is the
minimum of the user cap and this value (saturated to `u32`). -/
theorem c8_memory_limit (availKiB userCap x : Nat) (hx : x = availKiB / 1024) :
    available_memory availKiB = nextPow2 x / 2
    ∧ (1 ≤ x → prevPow2 x ≤ x ∧ x ≤ nextPow2 x ∧ nextPow2 x ≤ 2 * prevPow2 x)
    ∧ (1 ≤ x → x ≠ prevPow2 x → nextPow2 x / 2 = prevPow2 x)
    ∧ (1 ≤ x → x = prevPow2 x → nextPow2 x / 2 = x / 2)
    ∧ makeServerMaxHash userCap availKiB
        = Nat.min userCap (Nat.min (nextPow2 x / 2) (2 ^ 32 - 1)) := by
  subst hx
  refine ⟨rfl, ?_, ?_, ?_, rfl⟩
  · intro h1
    obtain ⟨a, b, c, -, -⟩ := nextPow2_halved _ h1
    exact ⟨a, b, c⟩
  · intro h1 hne
    exact (nextPow2_halved _ h1).2.2.2.1 hne
  · intro h1 heq
    exact (nextPow2_halved _ h1).2.2.2.2 heq

/-- Witness for C8 at 3072 KiB and a user cap of 4096 MiB. -/
theorem c8_memory_limit_witness :
    available_memory 3072 = nextPow2 3 / 2
    ∧ nextPow2 3 / 2 = prevPow2 3
    ∧ makeServerMaxHash 4096 3072
        = Nat.min 4096 (Nat.min (nextPow2 3 / 2) (2 ^ 32 - 1)) := by
  have h := c8_memory_limit 3072 4096 3 (by decide)
  exact ⟨h.1, h.2.2.1 (by decide) (by decide), h.2.2.2.2⟩

/-! ### Replaying displayed commands through the parser -/

/-- The never-stopping predicate never stops. -/
theorem noStopTok_false : ∀ s : Str, noStopTok (fun _ => false) s = true := by
  intro s
  induction s with
  | nil => rfl
  | cons c rest ih =>
    rw [noStopTok, Bool.and_eq_true]
    refine ⟨?_, ih⟩
    by_cases hc : isSep c
    · simp only [hc, if_true]
      cases hrd : (read (c :: rest)).fst with
      | none => simp [hrd]
      | some tk => simp [hrd]
    · simp [hc]

/-- Components of `isTokenB`. -/
theorem isTokenB_parts (t : Str) (h : isTokenB t = true) :
    t ≠ [] ∧ (∀ x ∈ t, isSep x = false) ∧ cleanB t = true := by
  unfold isTokenB at h
  rw [Bool.and_eq_true] at h
  obtain ⟨h1, h2⟩ := h
  rw [List.all_eq_true] at h2
  refine ⟨by simpa using h1, ?_, ?_⟩
  · intro x hx
    have h3 := h2 x hx
    simp only [Bool.and_eq_true] at h3
    simpa using h3.1.1
  · unfold cleanB
    rw [List.all_eq_true]
    intro x hx
    have h3 := h2 x hx
    simp only [Bool.and_eq_true] at h3
    simp only [Bool.and_eq_true]
    exact ⟨h3.1.2, h3.2⟩

/-- A token is also `tokTrimB`. -/
theorem isTokenB_tokTrim (t : Str) (h : isTokenB t = true) : tokTrimB t = true := by
  obtain ⟨h1, h2, -⟩ := isTokenB_parts t h
  cases t with
  | nil => exact absurd rfl h1
  | cons d z =>
    apply tokTrimB_intro d z (h2 d (List.mem_cons_self d z))
    unfold endsNonSepB
    cases hl : (d :: z).getLast? with
    | none => simp at hl
    | some e =>
      have : e ∈ d :: z := by
        obtain ⟨ys, hy⟩ := List.getLast?_eq_some_iff.mp hl
        rw [hy]
        simp
      simp [h2 e this]

/-- `cleanB` distributes over append. -/
theorem cleanB_append (a b : Str) :
    cleanB (a ++ b) = (cleanB a && cleanB b) := by
  unfold cleanB
  exact List.all_append

/-- `cleanB` from a superset. -/
theorem cleanB_of_subset (a b : Str) (hsub : ∀ ch ∈ a, ch ∈ b)
    (hb : cleanB b = true) : cleanB a = true := by
  unfold cleanB at *
  rw [List.all_eq_true] at *
  exact fun ch hch => hb ch (hsub ch hch)

/-- A clean line passes the `from_line` line-break check. -/
theorem fromLine_of_clean (c : ExtCodec) (s : Str) (h : cleanB s = true) :
    fromLine c s = parseIn c s := by
  unfold fromLine
  rw [if_neg]
  unfold cleanB at h
  rw [List.all_eq_true] at h
  intro hany
  rw [List.any_eq_true] at hany
  obtain ⟨ch, hch, hcr⟩ := hany
  have h4 := h ch hch
  rw [Bool.and_eq_true] at h4
  rcases Bool.or_eq_true_iff.mp hcr with h1 | h1
  · rw [h1] at h4
    simpa using h4.1
  · rw [h1] at h4
    simpa using h4.2

/-- A failed line-break check inverts to cleanliness. -/
theorem cleanB_of_not_any (s : Str)
    (h : (s.any fun ch => ch == '\r' || ch == '\n') = false) : cleanB s = true := by
  unfold cleanB
  rw [List.all_eq_true]
  rw [List.any_eq_false] at h
  intro ch hch
  have h4 := h ch hch
  simp only [Bool.or_eq_true, beq_iff_eq, not_or] at h4
  simp [h4.1, h4.2]

/-- Replay of `parse_setoption` with no value. -/
theorem parseSetoption_replay_none (name : Str) (hname : tokTrimB name = true)
    (hns : noStopTok valuePred name = true) :
    parseSetoption (' ' :: ("name".data ++ ' ' :: name)) = .ok (.setoption name none) := by
  have hread : read (' ' :: ("name".data ++ ' ' :: name)) = (some "name".data, ' ' :: name) := by
    rw [read_sep_cons _ _ (by decide)]
    exact read_token "name".data (' ' :: name) (by decide) (by decide) rfl
  have hru : readUntil (' ' :: name) valuePred = (some name, []) := by
    rw [readUntil_sep_cons _ _ _ (by decide)]
    exact readUntil_self valuePred name hname hns
  unfold parseSetoption
  simp only [hread, hru, read_nil]
  simp

/-- Replay of `parse_setoption` with a value. -/
theorem parseSetoption_replay_some (name v : Str) (hname : tokTrimB name = true)
    (hns : noStopTok valuePred name = true) (hv : tokTrimB v = true) :
    parseSetoption (' ' :: ("name".data ++ ' ' :: (name ++ ' ' :: ("value".data ++ ' ' :: v))))
      = .ok (.setoption name (some v)) := by
  have hread : read (' ' :: ("name".data ++ ' ' :: (name ++ ' ' :: ("value".data ++ ' ' :: v))))
      = (some "name".data, ' ' :: (name ++ ' ' :: ("value".data ++ ' ' :: v))) := by
    rw [read_sep_cons _ _ (by decide)]
    exact read_token "name".data _ (by decide) (by decide) rfl
  have hvalue : (read (' ' :: ("value".data ++ ' ' :: v))).fst = some "value".data := by
    rw [read_sep_cons _ _ (by decide)]
    rw [read_token "value".data (' ' :: v) (by decide) (by decide) rfl]
  have hru : readUntil (' ' :: (name ++ ' ' :: ("value".data ++ ' ' :: v))) valuePred
      = (some name, ' ' :: ("value".data ++ ' ' :: v)) := by
    rw [readUntil_sep_cons _ _ _ (by decide)]
    exact readUntil_stop valuePred name ' ' ("value".data ++ ' ' :: v) "value".data
      hname hns (by decide) hvalue (by decide)
  have hread2 : read (' ' :: ("value".data ++ ' ' :: v)) = (some "value".data, ' ' :: v) := by
    rw [read_sep_cons _ _ (by decide)]
    exact read_token "value".data (' ' :: v) (by decide) (by decide) rfl
  have hru2 : readUntil (' ' :: v) (fun _ => false) = (some v, []) := by
    rw [readUntil_sep_cons _ _ _ (by decide)]
    exact readUntil_self _ v hv (noStopTok_false v)
  unfold parseSetoption
  simp only [hread, hru, hread2, hru2]
  simp

/-- Replay of a displayed move list through `parse_moves`' token-by-token
collection with mandatory parses (`parse_position`'s `moves` tail). -/
theorem parseAllMovesF_spaced (c : ExtCodec) :
    ∀ (ms : List Str) (fuel : Nat), (∀ m ∈ ms, moveCanon c m) →
      (spaced ms).length < fuel → parseAllMovesF c fuel (spaced ms) = some ms := by
  intro ms
  induction ms with
  | nil =>
    intro fuel _ hf
    cases fuel with
    | zero => omega
    | succ fuel => rfl
  | cons m ms' ih =>
    intro fuel hcan hf
    have hm := hcan m (List.mem_cons_self m ms')
    obtain ⟨hne, hsep, -⟩ := isTokenB_parts m hm.2
    have hsp : spaced (m :: ms') = ' ' :: (m ++ spaced ms') := by
      unfold spaced
      simp
    have hnext : headSepNilB (spaced ms') = true := by
      cases ms' with
      | nil => rfl
      | cons m2 ms2 =>
        unfold spaced
        simp only [List.map_cons, List.flatten_cons]
        rfl
    have hread : read (spaced (m :: ms')) = (some m, spaced ms') := by
      rw [hsp, read_sep_cons _ _ (by decide)]
      exact read_token m (spaced ms') hne hsep hnext
    cases fuel with
    | zero => exact absurd hf (Nat.not_lt_zero _)
    | succ fuel =>
      rw [parseAllMovesF]
      rw [hread]
      simp only [hm.1]
      rw [ih fuel (fun x hx => hcan x (List.mem_cons_of_mem m hx)) ?_]
      · rfl
      · rw [hsp] at hf
        have hlen : 1 ≤ m.length := by
          cases m with
          | nil => exact absurd rfl hne
          | cons _ _ => simp
        simp only [List.length_cons, List.length_append] at hf
        omega

/-- Replay of `parse_position`'s optional `moves` tail. -/
theorem parsePositionMoves_replay (c : ExtCodec) (fen : Option Str) (ms : List Str)
    (hcan : ∀ m ∈ ms, moveCanon c m) :
    parsePositionMoves c fen
        (if ms.isEmpty then [] else " moves".data ++ spaced ms)
      = .ok (.position fen ms) := by
  cases ms with
  | nil => rfl
  | cons m ms' =>
    simp only [List.isEmpty_cons, Bool.false_eq_true, if_false]
    have hread : read (" moves".data ++ spaced (m :: ms'))
        = (some "moves".data, spaced (m :: ms')) := by
      have hd : " moves".data ++ spaced (m :: ms')
          = ' ' :: ("moves".data ++ spaced (m :: ms')) := rfl
      rw [hd, read_sep_cons _ _ (by decide)]
      refine read_token "moves".data _ (by decide) (by decide) ?_
      unfold spaced
      simp only [List.map_cons, List.flatten_cons]
      rfl
    unfold parsePositionMoves
    simp only [hread]
    rw [parseAllMovesF_spaced c (m :: ms') ((spaced (m :: ms')).length + 1) hcan (by omega)]
    simp

/-- Replay of `parse_position`, `startpos` form. -/
theorem parsePosition_replay_startpos (c : ExtCodec) (ms : List Str)
    (hcan : ∀ m ∈ ms, moveCanon c m) :
    parsePosition c (' ' :: ("startpos".data
        ++ (if ms.isEmpty then [] else " moves".data ++ spaced ms)))
      = .ok (.position none ms) := by
  have hread : read (' ' :: ("startpos".data
      ++ (if ms.isEmpty then [] else " moves".data ++ spaced ms)))
      = (some "startpos".data, if ms.isEmpty then [] else " moves".data ++ spaced ms) := by
    rw [read_sep_cons _ _ (by decide)]
    refine read_token "startpos".data _ (by decide) (by decide) ?_
    cases ms with
    | nil => rfl
    | cons m ms' => rfl
  unfold parsePosition
  simp only [hread]
  rw [if_pos trivial]
  exact parsePositionMoves_replay c none ms hcan

/-- Replay of `parse_position`, `fen` form. -/
theorem parsePosition_replay_fen (c : ExtCodec) (f : Str) (ms : List Str)
    (hf : c.parseFen f = some f) (hft : tokTrimB f = true)
    (hfns : noStopTok movesPred f = true) (hcan : ∀ m ∈ ms, moveCanon c m) :
    parsePosition c (' ' :: ("fen".data ++ ' ' ::
        (f ++ (if ms.isEmpty then [] else " moves".data ++ spaced ms))))
      = .ok (.position (some f) ms) := by
  have hread : read (' ' :: ("fen".data ++ ' ' ::
      (f ++ (if ms.isEmpty then [] else " moves".data ++ spaced ms))))
      = (some "fen".data,
         ' ' :: (f ++ (if ms.isEmpty then [] else " moves".data ++ spaced ms))) := by
    rw [read_sep_cons _ _ (by decide)]
    exact read_token "fen".data _ (by decide) (by decide) rfl
  have hru : readUntil (' ' :: (f ++ (if ms.isEmpty then []
      else " moves".data ++ spaced ms))) movesPred
      = (some f, if ms.isEmpty then [] else " moves".data ++ spaced ms) := by
    rw [readUntil_sep_cons _ _ _ (by decide)]
    cases ms with
    | nil =>
      simp only [List.isEmpty_nil, if_true, List.append_nil]
      exact readUntil_self movesPred f hft hfns
    | cons m ms' =>
      simp only [List.isEmpty_cons, if_false]
      have hmoves : " moves".data ++ spaced (m :: ms')
          = ' ' :: ("moves".data ++ spaced (m :: ms')) := rfl
      rw [hmoves]
      refine readUntil_stop movesPred f ' ' ("moves".data ++ spaced (m :: ms'))
        "moves".data hft hfns (by decide) ?_ (by decide)
      rw [read_sep_cons _ _ (by decide)]
      rw [read_token "moves".data _ (by decide) (by decide) ?_]
      unfold spaced
      simp only [List.map_cons, List.flatten_cons]
      rfl
  unfold parsePosition
  simp only [hread]
  rw [if_pos trivial]
  simp only [hru, hf]
  exact parsePositionMoves_replay c (some f) ms hcan

/-- The displayed `Go` tail is empty or starts with a separator. -/
theorem goTailText_headSep (fs : List GoField) : headSepNilB (goTailText fs) = true := by
  cases fs with
  | nil => rfl
  | cons f fs' =>
    cases f
    all_goals rfl

/-- A displayed move list glued onto a well-shaped tail is well
shaped. -/
theorem spaced_append_headSep (ms : List Str) (tail : Str)
    (h : headSepNilB tail = true) : headSepNilB (spaced ms ++ tail) = true := by
  cases ms with
  | nil => simpa [spaced] using h
  | cons m ms' => rfl

/-- `parse_moves` stops immediately at a non-move token (or the end). -/
theorem parseMovesF_stop (c : ExtCodec) (s : Str) (fuel : Nat)
    (h : ∀ tk, (read s).fst = some tk → c.parseMove tk = none) :
    parseMovesF c fuel s = ([], s) := by
  cases fuel with
  | zero => rfl
  | succ fuel =>
    rw [parseMovesF]
    rcases hr : read s with ⟨fst, s'⟩
    cases fst with
    | none => simp [hr]
    | some t =>
      have ht : (read s).fst = some t := by
        rw [hr]
      simp only [hr, h t ht]

/-- Replay of a displayed move list in peek mode: collects exactly the
moves, stopping at the tail. -/
theorem parseMovesF_spaced (c : ExtCodec) :
    ∀ (ms : List Str) (tail : Str) (fuel : Nat), (∀ m ∈ ms, moveCanon c m) →
      (∀ tk, (read tail).fst = some tk → c.parseMove tk = none) →
      headSepNilB tail = true →
      (spaced ms ++ tail).length < fuel →
      parseMovesF c fuel (spaced ms ++ tail) = (ms, tail) := by
  intro ms
  induction ms with
  | nil =>
    intro tail fuel _ hstop _ _
    simpa [spaced] using parseMovesF_stop c tail fuel hstop
  | cons m ms' ih =>
    intro tail fuel hcan hstop htail hf
    have hm := hcan m (List.mem_cons_self m ms')
    obtain ⟨hne, hsepm, -⟩ := isTokenB_parts m hm.2
    have hsp : spaced (m :: ms') ++ tail = ' ' :: (m ++ (spaced ms' ++ tail)) := by
      unfold spaced
      simp
    have hread : read (spaced (m :: ms') ++ tail) = (some m, spaced ms' ++ tail) := by
      rw [hsp, read_sep_cons _ _ (by decide)]
      exact read_token m _ hne hsepm (spaced_append_headSep ms' tail htail)
    cases fuel with
    | zero => exact absurd hf (Nat.not_lt_zero _)
    | succ fuel =>
      rw [parseMovesF, hread]
      simp only [hm.1]
      rw [ih tail fuel (fun x hx => hcan x (List.mem_cons_of_mem m hx)) hstop htail ?_]
      · rw [hsp] at hf
        have hlen : 1 ≤ m.length := by
          cases m with
          | nil => exact absurd rfl hne
          | cons _ _ => simp
        simp only [List.length_cons, List.length_append] at hf ⊢
        omega

/-- The first token of a displayed `Go` tail, if any, is a `Go`
keyword. -/
theorem goTailText_first (fs : List GoField) :
    (read (goTailText fs)).fst = none
    ∨ ∃ kw, kw ∈ goKeywords ∧ (read (goTailText fs)).fst = some kw := by
  cases fs with
  | nil => exact Or.inl rfl
  | cons f fs' =>
    right
    have hshape : headSepNilB (goTailText fs') = true := goTailText_headSep fs'
    cases f with
    | searchmoves ms =>
      refine ⟨"searchmoves".data, by decide, ?_⟩
      have hr : goTailText (GoField.searchmoves ms :: fs')
          = ' ' :: ("searchmoves".data ++ (spaced ms ++ goTailText fs')) := rfl
      rw [hr, read_sep_cons _ _ (by decide),
        read_token "searchmoves".data _ (by decide) (by decide)
          (spaced_append_headSep ms _ hshape)]
    | ponder =>
      refine ⟨"ponder".data, by decide, ?_⟩
      have hr : goTailText (GoField.ponder :: fs')
          = ' ' :: ("ponder".data ++ goTailText fs') := rfl
      rw [hr, read_sep_cons _ _ (by decide),
        read_token "ponder".data _ (by decide) (by decide) hshape]
    | wtime n =>
      refine ⟨"wtime".data, by decide, ?_⟩
      have hr : goTailText (GoField.wtime n :: fs')
          = ' ' :: ("wtime".data ++ ' ' :: (natStr n ++ goTailText fs')) := rfl
      rw [hr, read_sep_cons _ _ (by decide),
        read_token "wtime".data (' ' :: (natStr n ++ goTailText fs')) (by decide) (by decide) rfl]
    | btime n =>
      refine ⟨"btime".data, by decide, ?_⟩
      have hr : goTailText (GoField.btime n :: fs')
          = ' ' :: ("btime".data ++ ' ' :: (natStr n ++ goTailText fs')) := rfl
      rw [hr, read_sep_cons _ _ (by decide),
        read_token "btime".data (' ' :: (natStr n ++ goTailText fs')) (by decide) (by decide) rfl]
    | winc n =>
      refine ⟨"winc".data, by decide, ?_⟩
      have hr : goTailText (GoField.winc n :: fs')
          = ' ' :: ("winc".data ++ ' ' :: (natStr n ++ goTailText fs')) := rfl
      rw [hr, read_sep_cons _ _ (by decide),
        read_token "winc".data (' ' :: (natStr n ++ goTailText fs')) (by decide) (by decide) rfl]
    | binc n =>
      refine ⟨"binc".data, by decide, ?_⟩
      have hr : goTailText (GoField.binc n :: fs')
          = ' ' :: ("binc".data ++ ' ' :: (natStr n ++ goTailText fs')) := rfl
      rw [hr, read_sep_cons _ _ (by decide),
        read_token "binc".data (' ' :: (natStr n ++ goTailText fs')) (by decide) (by decide) rfl]
    | movestogo n =>
      refine ⟨"movestogo".data, by decide, ?_⟩
      have hr : goTailText (GoField.movestogo n :: fs')
          = ' ' :: ("movestogo".data ++ ' ' :: (natStr n ++ goTailText fs')) := rfl
      rw [hr, read_sep_cons _ _ (by decide),
        read_token "movestogo".data (' ' :: (natStr n ++ goTailText fs')) (by decide) (by decide) rfl]
    | depth n =>
      refine ⟨"depth".data, by decide, ?_⟩
      have hr : goTailText (GoField.depth n :: fs')
          = ' ' :: ("depth".data ++ ' ' :: (natStr n ++ goTailText fs')) := rfl
      rw [hr, read_sep_cons _ _ (by decide),
        read_token "depth".data (' ' :: (natStr n ++ goTailText fs')) (by decide) (by decide) rfl]
    | nodes n =>
      refine ⟨"nodes".data, by decide, ?_⟩
      have hr : goTailText (GoField.nodes n :: fs')
          = ' ' :: ("nodes".data ++ ' ' :: (natStr n ++ goTailText fs')) := rfl
      rw [hr, read_sep_cons _ _ (by decide),
        read_token "nodes".data (' ' :: (natStr n ++ goTailText fs')) (by decide) (by decide) rfl]
    | mate n =>
      refine ⟨"mate".data, by decide, ?_⟩
      have hr : goTailText (GoField.mate n :: fs')
          = ' ' :: ("mate".data ++ ' ' :: (natStr n ++ goTailText fs')) := rfl
      rw [hr, read_sep_cons _ _ (by decide),
        read_token "mate".data (' ' :: (natStr n ++ goTailText fs')) (by decide) (by decide) rfl]
    | movetime n =>
      refine ⟨"movetime".data, by decide, ?_⟩
      have hr : goTailText (GoField.movetime n :: fs')
          = ' ' :: ("movetime".data ++ ' ' :: (natStr n ++ goTailText fs')) := rfl
      rw [hr, read_sep_cons _ _ (by decide),
        read_token "movetime".data (' ' :: (natStr n ++ goTailText fs')) (by decide) (by decide) rfl]
    | infinite =>
      refine ⟨"infinite".data, by decide, ?_⟩
      have hr : goTailText (GoField.infinite :: fs')
          = ' ' :: ("infinite".data ++ goTailText fs') := rfl
      rw [hr, read_sep_cons _ _ (by decide),
        read_token "infinite".data _ (by decide) (by decide) hshape]

/-- No first token of a displayed `Go` tail parses as a move. -/
theorem goTailText_nextNotMove (c : ExtCodec)
    (hkw : ∀ k ∈ goKeywords, c.parseMove k = none) (fs : List GoField) :
    ∀ tk, (read (goTailText fs)).fst = some tk → c.parseMove tk = none := by
  intro tk h
  rcases goTailText_first fs with h0 | ⟨kw, hkwm, hsome⟩
  · rw [h0] at h
    cases h
  · rw [hsome] at h
    injection h with h2
    rw [← h2]
    exact hkw kw hkwm

/-- Replay of a well-formed displayed field list through the `parse_go`
keyword loop: the loop folds the field updates over the running state. -/
theorem parseGoLoopF_replay (c : ExtCodec)
    (hkw : ∀ k ∈ goKeywords, c.parseMove k = none) :
    ∀ (fs : List GoField) (st : GoParams) (fuel : Nat),
      (∀ f ∈ fs, goodGoField c f) →
      (goTailText fs).length < fuel →
      parseGoLoopF c fuel st (goTailText fs)
        = .ok (fs.foldl (fun s f => goFieldApply f s) st) := by
  intro fs
  induction fs with
  | nil =>
    intro st fuel _ hlen
    cases fuel with
    | zero => exact absurd hlen (Nat.not_lt_zero _)
    | succ fuel =>
      rw [parseGoLoopF]
      simp only [goTailText, read_nil]
      rfl
  | cons f fs' ih =>
    intro st fuel hgood hlen
    have hshape : headSepNilB (goTailText fs') = true := goTailText_headSep fs'
    have hgood' : ∀ x ∈ fs', goodGoField c x :=
      fun x hx => hgood x (List.mem_cons_of_mem f hx)
    cases fuel with
    | zero => exact absurd hlen (Nat.not_lt_zero _)
    | succ fuel =>
      cases f with
      | ponder =>
        have hr : goTailText (GoField.ponder :: fs')
            = ' ' :: ("ponder".data ++ goTailText fs') := rfl
        have hread : read (goTailText (GoField.ponder :: fs'))
            = (some "ponder".data, goTailText fs') := by
          rw [hr, read_sep_cons _ _ (by decide)]
          exact read_token "ponder".data _ (by decide) (by decide) hshape
        have hlen' : (goTailText fs').length < fuel := by
          rw [hr] at hlen
          simp only [List.length_cons, List.length_append] at hlen
          omega
        rw [parseGoLoopF]
        simp only [hread]
        try rw [if_pos trivial]
        rw [ih { st with ponder := true } fuel hgood' hlen']
        rfl
      | infinite =>
        have hr : goTailText (GoField.infinite :: fs')
            = ' ' :: ("infinite".data ++ goTailText fs') := rfl
        have hread : read (goTailText (GoField.infinite :: fs'))
            = (some "infinite".data, goTailText fs') := by
          rw [hr, read_sep_cons _ _ (by decide)]
          exact read_token "infinite".data _ (by decide) (by decide) hshape
        have hlen' : (goTailText fs').length < fuel := by
          rw [hr] at hlen
          simp only [List.length_cons, List.length_append] at hlen
          omega
        rw [parseGoLoopF]
        simp only [hread]
        repeat rw [if_neg (by decide)]
        try rw [if_pos trivial]
        rw [ih { st with infinite := true } fuel hgood' hlen']
        rfl
      | movestogo n =>
        have hb : n < 2 ^ 32 := hgood _ (List.mem_cons_self _ _)
        have hr : goTailText (GoField.movestogo n :: fs')
            = ' ' :: ("movestogo".data ++ ' ' :: (natStr n ++ goTailText fs')) := rfl
        obtain ⟨hne, hsep, -⟩ := isTokenB_parts _ (natStr_shape n).1
        have hread : read (goTailText (GoField.movestogo n :: fs'))
            = (some "movestogo".data, ' ' :: (natStr n ++ goTailText fs')) := by
          rw [hr, read_sep_cons _ _ (by decide)]
          exact read_token "movestogo".data (' ' :: (natStr n ++ goTailText fs'))
            (by decide) (by decide) rfl
        have hread2 : read (' ' :: (natStr n ++ goTailText fs'))
            = (some (natStr n), goTailText fs') := by
          rw [read_sep_cons _ _ (by decide)]
          exact read_token (natStr n) _ hne hsep hshape
        have hlen' : (goTailText fs').length < fuel := by
          rw [hr] at hlen
          simp only [List.length_cons, List.length_append] at hlen
          omega
        rw [parseGoLoopF]
        simp only [hread]
        repeat rw [if_neg (by decide)]
        try rw [if_pos trivial]
        simp only [hread2, parseUNat_natStr 32 n hb]
        rw [ih { st with movestogo := some n } fuel hgood' hlen']
        rfl
      | depth n =>
        have hb : n < 2 ^ 32 := hgood _ (List.mem_cons_self _ _)
        have hr : goTailText (GoField.depth n :: fs')
            = ' ' :: ("depth".data ++ ' ' :: (natStr n ++ goTailText fs')) := rfl
        obtain ⟨hne, hsep, -⟩ := isTokenB_parts _ (natStr_shape n).1
        have hread : read (goTailText (GoField.depth n :: fs'))
            = (some "depth".data, ' ' :: (natStr n ++ goTailText fs')) := by
          rw [hr, read_sep_cons _ _ (by decide)]
          exact read_token "depth".data (' ' :: (natStr n ++ goTailText fs'))
            (by decide) (by decide) rfl
        have hread2 : read (' ' :: (natStr n ++ goTailText fs'))
            = (some (natStr n), goTailText fs') := by
          rw [read_sep_cons _ _ (by decide)]
          exact read_token (natStr n) _ hne hsep hshape
        have hlen' : (goTailText fs').length < fuel := by
          rw [hr] at hlen
          simp only [List.length_cons, List.length_append] at hlen
          omega
        rw [parseGoLoopF]
        simp only [hread]
        repeat rw [if_neg (by decide)]
        try rw [if_pos trivial]
        simp only [hread2, parseUNat_natStr 32 n hb]
        rw [ih { st with depth := some n } fuel hgood' hlen']
        rfl
      | nodes n =>
        have hb : n < 2 ^ 64 := hgood _ (List.mem_cons_self _ _)
        have hr : goTailText (GoField.nodes n :: fs')
            = ' ' :: ("nodes".data ++ ' ' :: (natStr n ++ goTailText fs')) := rfl
        obtain ⟨hne, hsep, -⟩ := isTokenB_parts _ (natStr_shape n).1
        have hread : read (goTailText (GoField.nodes n :: fs'))
            = (some "nodes".data, ' ' :: (natStr n ++ goTailText fs')) := by
          rw [hr, read_sep_cons _ _ (by decide)]
          exact read_token "nodes".data (' ' :: (natStr n ++ goTailText fs'))
            (by decide) (by decide) rfl
        have hread2 : read (' ' :: (natStr n ++ goTailText fs'))
            = (some (natStr n), goTailText fs') := by
          rw [read_sep_cons _ _ (by decide)]
          exact read_token (natStr n) _ hne hsep hshape
        have hlen' : (goTailText fs').length < fuel := by
          rw [hr] at hlen
          simp only [List.length_cons, List.length_append] at hlen
          omega
        rw [parseGoLoopF]
        simp only [hread]
        repeat rw [if_neg (by decide)]
        try rw [if_pos trivial]
        simp only [hread2, parseUNat_natStr 64 n hb]
        rw [ih { st with nodes := some n } fuel hgood' hlen']
        rfl
      | mate n =>
        have hb : n < 2 ^ 32 := hgood _ (List.mem_cons_self _ _)
        have hr : goTailText (GoField.mate n :: fs')
            = ' ' :: ("mate".data ++ ' ' :: (natStr n ++ goTailText fs')) := rfl
        obtain ⟨hne, hsep, -⟩ := isTokenB_parts _ (natStr_shape n).1
        have hread : read (goTailText (GoField.mate n :: fs'))
            = (some "mate".data, ' ' :: (natStr n ++ goTailText fs')) := by
          rw [hr, read_sep_cons _ _ (by decide)]
          exact read_token "mate".data (' ' :: (natStr n ++ goTailText fs'))
            (by decide) (by decide) rfl
        have hread2 : read (' ' :: (natStr n ++ goTailText fs'))
            = (some (natStr n), goTailText fs') := by
          rw [read_sep_cons _ _ (by decide)]
          exact read_token (natStr n) _ hne hsep hshape
        have hlen' : (goTailText fs').length < fuel := by
          rw [hr] at hlen
          simp only [List.length_cons, List.length_append] at hlen
          omega
        rw [parseGoLoopF]
        simp only [hread]
        repeat rw [if_neg (by decide)]
        try rw [if_pos trivial]
        simp only [hread2, parseUNat_natStr 32 n hb]
        rw [ih { st with mate := some n } fuel hgood' hlen']
        rfl
      | movetime n =>
        have hb : n < 2 ^ 64 := hgood _ (List.mem_cons_self _ _)
        have hr : goTailText (GoField.movetime n :: fs')
            = ' ' :: ("movetime".data ++ ' ' :: (natStr n ++ goTailText fs')) := rfl
        obtain ⟨hne, hsep, -⟩ := isTokenB_parts _ (natStr_shape n).1
        have hread : read (goTailText (GoField.movetime n :: fs'))
            = (some "movetime".data, ' ' :: (natStr n ++ goTailText fs')) := by
          rw [hr, read_sep_cons _ _ (by decide)]
          exact read_token "movetime".data (' ' :: (natStr n ++ goTailText fs'))
            (by decide) (by decide) rfl
        have hread2 : read (' ' :: (natStr n ++ goTailText fs'))
            = (some (natStr n), goTailText fs') := by
          rw [read_sep_cons _ _ (by decide)]
          exact read_token (natStr n) _ hne hsep hshape
        have hlen' : (goTailText fs').length < fuel := by
          rw [hr] at hlen
          simp only [List.length_cons, List.length_append] at hlen
          omega
        rw [parseGoLoopF]
        simp only [hread]
        repeat rw [if_neg (by decide)]
        try rw [if_pos trivial]
        simp only [hread2, parseUNat_natStr 64 n hb]
        rw [ih { st with movetime := some n } fuel hgood' hlen']
        rfl
      | wtime n =>
        have hb : n < 2 ^ 64 := hgood _ (List.mem_cons_self _ _)
        have hr : goTailText (GoField.wtime n :: fs')
            = ' ' :: ("wtime".data ++ ' ' :: (natStr n ++ goTailText fs')) := rfl
        obtain ⟨hne, hsep, -⟩ := isTokenB_parts _ (natStr_shape n).1
        have hread : read (goTailText (GoField.wtime n :: fs'))
            = (some "wtime".data, ' ' :: (natStr n ++ goTailText fs')) := by
          rw [hr, read_sep_cons _ _ (by decide)]
          exact read_token "wtime".data (' ' :: (natStr n ++ goTailText fs'))
            (by decide) (by decide) rfl
        have hread2 : read (' ' :: (natStr n ++ goTailText fs'))
            = (some (natStr n), goTailText fs') := by
          rw [read_sep_cons _ _ (by decide)]
          exact read_token (natStr n) _ hne hsep hshape
        have hlen' : (goTailText fs').length < fuel := by
          rw [hr] at hlen
          simp only [List.length_cons, List.length_append] at hlen
          omega
        rw [parseGoLoopF]
        simp only [hread]
        repeat rw [if_neg (by decide)]
        try rw [if_pos trivial]
        simp only [hread2, parseUNat_natStr 64 n hb]
        rw [ih { st with wtime := some n } fuel hgood' hlen']
        rfl
      | btime n =>
        have hb : n < 2 ^ 64 := hgood _ (List.mem_cons_self _ _)
        have hr : goTailText (GoField.btime n :: fs')
            = ' ' :: ("btime".data ++ ' ' :: (natStr n ++ goTailText fs')) := rfl
        obtain ⟨hne, hsep, -⟩ := isTokenB_parts _ (natStr_shape n).1
        have hread : read (goTailText (GoField.btime n :: fs'))
            = (some "btime".data, ' ' :: (natStr n ++ goTailText fs')) := by
          rw [hr, read_sep_cons _ _ (by decide)]
          exact read_token "btime".data (' ' :: (natStr n ++ goTailText fs'))
            (by decide) (by decide) rfl
        have hread2 : read (' ' :: (natStr n ++ goTailText fs'))
            = (some (natStr n), goTailText fs') := by
          rw [read_sep_cons _ _ (by decide)]
          exact read_token (natStr n) _ hne hsep hshape
        have hlen' : (goTailText fs').length < fuel := by
          rw [hr] at hlen
          simp only [List.length_cons, List.length_append] at hlen
          omega
        rw [parseGoLoopF]
        simp only [hread]
        repeat rw [if_neg (by decide)]
        try rw [if_pos trivial]
        simp only [hread2, parseUNat_natStr 64 n hb]
        rw [ih { st with btime := some n } fuel hgood' hlen']
        rfl
      | winc n =>
        have hb : n < 2 ^ 64 := hgood _ (List.mem_cons_self _ _)
        have hr : goTailText (GoField.winc n :: fs')
            = ' ' :: ("winc".data ++ ' ' :: (natStr n ++ goTailText fs')) := rfl
        obtain ⟨hne, hsep, -⟩ := isTokenB_parts _ (natStr_shape n).1
        have hread : read (goTailText (GoField.winc n :: fs'))
            = (some "winc".data, ' ' :: (natStr n ++ goTailText fs')) := by
          rw [hr, read_sep_cons _ _ (by decide)]
          exact read_token "winc".data (' ' :: (natStr n ++ goTailText fs'))
            (by decide) (by decide) rfl
        have hread2 : read (' ' :: (natStr n ++ goTailText fs'))
            = (some (natStr n), goTailText fs') := by
          rw [read_sep_cons _ _ (by decide)]
          exact read_token (natStr n) _ hne hsep hshape
        have hlen' : (goTailText fs').length < fuel := by
          rw [hr] at hlen
          simp only [List.length_cons, List.length_append] at hlen
          omega
        rw [parseGoLoopF]
        simp only [hread]
        repeat rw [if_neg (by decide)]
        try rw [if_pos trivial]
        simp only [hread2, parseUNat_natStr 64 n hb]
        rw [ih { st with winc := some n } fuel hgood' hlen']
        rfl
      | binc n =>
        have hb : n < 2 ^ 64 := hgood _ (List.mem_cons_self _ _)
        have hr : goTailText (GoField.binc n :: fs')
            = ' ' :: ("binc".data ++ ' ' :: (natStr n ++ goTailText fs')) := rfl
        obtain ⟨hne, hsep, -⟩ := isTokenB_parts _ (natStr_shape n).1
        have hread : read (goTailText (GoField.binc n :: fs'))
            = (some "binc".data, ' ' :: (natStr n ++ goTailText fs')) := by
          rw [hr, read_sep_cons _ _ (by decide)]
          exact read_token "binc".data (' ' :: (natStr n ++ goTailText fs'))
            (by decide) (by decide) rfl
        have hread2 : read (' ' :: (natStr n ++ goTailText fs'))
            = (some (natStr n), goTailText fs') := by
          rw [read_sep_cons _ _ (by decide)]
          exact read_token (natStr n) _ hne hsep hshape
        have hlen' : (goTailText fs').length < fuel := by
          rw [hr] at hlen
          simp only [List.length_cons, List.length_append] at hlen
          omega
        rw [parseGoLoopF]
        simp only [hread]
        repeat rw [if_neg (by decide)]
        try rw [if_pos trivial]
        simp only [hread2, parseUNat_natStr 64 n hb]
        rw [ih { st with binc := some n } fuel hgood' hlen']
        rfl
      | searchmoves ms =>
        have hcan : ∀ m ∈ ms, moveCanon c m := hgood _ (List.mem_cons_self _ _)
        have hr : goTailText (GoField.searchmoves ms :: fs')
            = ' ' :: ("searchmoves".data ++ (spaced ms ++ goTailText fs')) := rfl
        have hread : read (goTailText (GoField.searchmoves ms :: fs'))
            = (some "searchmoves".data, spaced ms ++ goTailText fs') := by
          rw [hr, read_sep_cons _ _ (by decide)]
          exact read_token "searchmoves".data _ (by decide) (by decide)
            (spaced_append_headSep ms _ hshape)
        have hmoves : parseMovesF c ((spaced ms ++ goTailText fs').length + 1)
            (spaced ms ++ goTailText fs') = (ms, goTailText fs') :=
          parseMovesF_spaced c ms (goTailText fs') _ hcan
            (goTailText_nextNotMove c hkw fs') hshape (Nat.lt_succ_self _)
        have hlen' : (goTailText fs').length < fuel := by
          rw [hr] at hlen
          simp only [List.length_cons, List.length_append] at hlen
          omega
        rw [parseGoLoopF]
        simp only [hread]
        repeat rw [if_neg (by decide)]
        try rw [if_pos trivial]
        simp only [hmoves]
        rw [ih { st with searchmoves := some ms } fuel hgood' hlen']
        rfl

/-- `goTailText` distributes over list concatenation. -/
theorem goTailText_append (l₁ l₂ : List GoField) :
    goTailText (l₁ ++ l₂) = goTailText l₁ ++ goTailText l₂ := by
  induction l₁ with
  | nil => rfl
  | cons f fs ih => simp [goTailText, ih]

/-- The `searchmoves` segment of `goFields`, displayed. -/
theorem gtp_searchmoves (o : Option (List Str)) :
    goTailText (match o with | some ms => [GoField.searchmoves ms] | none => [])
      = (match o with | some ms => " searchmoves".data ++ spaced ms | none => []) := by
  cases o with
  | none => rfl
  | some ms => simp [goTailText, goFieldText]

/-- The `ponder` segment of `goFields`, displayed. -/
theorem gtp_ponder (b : Bool) :
    goTailText (if b then [GoField.ponder] else [])
      = (if b then " ponder".data else []) := by
  cases b with
  | false => rfl
  | true => simp [goTailText, goFieldText]

/-- The `wtime` segment of `goFields`, displayed. -/
theorem gtp_wtime (o : Option Nat) :
    goTailText (match o with | some n => [GoField.wtime n] | none => [])
      = optNum " wtime ".data o := by
  cases o with
  | none => rfl
  | some n => simp [goTailText, goFieldText, optNum]

/-- The `btime` segment of `goFields`, displayed. -/
theorem gtp_btime (o : Option Nat) :
    goTailText (match o with | some n => [GoField.btime n] | none => [])
      = optNum " btime ".data o := by
  cases o with
  | none => rfl
  | some n => simp [goTailText, goFieldText, optNum]

/-- The `winc` segment of `goFields`, displayed. -/
theorem gtp_winc (o : Option Nat) :
    goTailText (match o with | some n => [GoField.winc n] | none => [])
      = optNum " winc ".data o := by
  cases o with
  | none => rfl
  | some n => simp [goTailText, goFieldText, optNum]

/-- The `binc` segment of `goFields`, displayed. -/
theorem gtp_binc (o : Option Nat) :
    goTailText (match o with | some n => [GoField.binc n] | none => [])
      = optNum " binc ".data o := by
  cases o with
  | none => rfl
  | some n => simp [goTailText, goFieldText, optNum]

/-- The `movestogo` segment of `goFields`, displayed. -/
theorem gtp_movestogo (o : Option Nat) :
    goTailText (match o with | some n => [GoField.movestogo n] | none => [])
      = optNum " movestogo ".data o := by
  cases o with
  | none => rfl
  | some n => simp [goTailText, goFieldText, optNum]

/-- The `depth` segment of `goFields`, displayed. -/
theorem gtp_depth (o : Option Nat) :
    goTailText (match o with | some n => [GoField.depth n] | none => [])
      = optNum " depth ".data o := by
  cases o with
  | none => rfl
  | some n => simp [goTailText, goFieldText, optNum]

/-- The `nodes` segment of `goFields`, displayed. -/
theorem gtp_nodes (o : Option Nat) :
    goTailText (match o with | some n => [GoField.nodes n] | none => [])
      = optNum " nodes ".data o := by
  cases o with
  | none => rfl
  | some n => simp [goTailText, goFieldText, optNum]

/-- The `mate` segment of `goFields`, displayed. -/
theorem gtp_mate (o : Option Nat) :
    goTailText (match o with | some n => [GoField.mate n] | none => [])
      = optNum " mate ".data o := by
  cases o with
  | none => rfl
  | some n => simp [goTailText, goFieldText, optNum]

/-- The `movetime` segment of `goFields`, displayed. -/
theorem gtp_movetime (o : Option Nat) :
    goTailText (match o with | some n => [GoField.movetime n] | none => [])
      = optNum " movetime ".data o := by
  cases o with
  | none => rfl
  | some n => simp [goTailText, goFieldText, optNum]

/-- The `infinite` segment of `goFields`, displayed. -/
theorem gtp_infinite (b : Bool) :
    goTailText (if b then [GoField.infinite] else [])
      = (if b then " infinite".data else []) := by
  cases b with
  | false => rfl
  | true => simp [goTailText, goFieldText]

/-- The displayed `Go` command is the `go` keyword followed by the
concatenated field segments. -/
theorem displayGo_goTailText (g : GoParams) :
    displayGo g = "go".data ++ goTailText (goFields g) := by
  rw [goFields]
  rw [goTailText_append, goTailText_append, goTailText_append, goTailText_append,
    goTailText_append, goTailText_append, goTailText_append, goTailText_append,
    goTailText_append, goTailText_append, goTailText_append]
  rw [gtp_searchmoves, gtp_ponder, gtp_wtime, gtp_btime, gtp_winc, gtp_binc,
    gtp_movestogo, gtp_depth, gtp_nodes, gtp_mate, gtp_movetime, gtp_infinite]
  unfold displayGo
  simp [List.append_assoc]

/-- Folding the `searchmoves` segment over a state. -/
theorem goFold_searchmoves (st : GoParams) (o : Option (List Str)) :
    List.foldl (fun s f => goFieldApply f s) st
      (match o with | some ms => [GoField.searchmoves ms] | none => [])
      = { st with searchmoves := o.or st.searchmoves } := by
  cases o with
  | none => rfl
  | some ms => rfl

/-- Folding the `ponder` segment over a state. -/
theorem goFold_ponder (st : GoParams) (b : Bool) :
    List.foldl (fun s f => goFieldApply f s) st
      (if b then [GoField.ponder] else [])
      = { st with ponder := b || st.ponder } := by
  cases b with
  | false => rfl
  | true => rfl

/-- Folding the `wtime` segment over a state. -/
theorem goFold_wtime (st : GoParams) (o : Option Nat) :
    List.foldl (fun s f => goFieldApply f s) st
      (match o with | some n => [GoField.wtime n] | none => [])
      = { st with wtime := o.or st.wtime } := by
  cases o with
  | none => rfl
  | some n => rfl

/-- Folding the `btime` segment over a state. -/
theorem goFold_btime (st : GoParams) (o : Option Nat) :
    List.foldl (fun s f => goFieldApply f s) st
      (match o with | some n => [GoField.btime n] | none => [])
      = { st with btime := o.or st.btime } := by
  cases o with
  | none => rfl
  | some n => rfl

/-- Folding the `winc` segment over a state. -/
theorem goFold_winc (st : GoParams) (o : Option Nat) :
    List.foldl (fun s f => goFieldApply f s) st
      (match o with | some n => [GoField.winc n] | none => [])
      = { st with winc := o.or st.winc } := by
  cases o with
  | none => rfl
  | some n => rfl

/-- Folding the `binc` segment over a state. -/
theorem goFold_binc (st : GoParams) (o : Option Nat) :
    List.foldl (fun s f => goFieldApply f s) st
      (match o with | some n => [GoField.binc n] | none => [])
      = { st with binc := o.or st.binc } := by
  cases o with
  | none => rfl
  | some n => rfl

/-- Folding the `movestogo` segment over a state. -/
theorem goFold_movestogo (st : GoParams) (o : Option Nat) :
    List.foldl (fun s f => goFieldApply f s) st
      (match o with | some n => [GoField.movestogo n] | none => [])
      = { st with movestogo := o.or st.movestogo } := by
  cases o with
  | none => rfl
  | some n => rfl

/-- Folding the `depth` segment over a state. -/
theorem goFold_depth (st : GoParams) (o : Option Nat) :
    List.foldl (fun s f => goFieldApply f s) st
      (match o with | some n => [GoField.depth n] | none => [])
      = { st with depth := o.or st.depth } := by
  cases o with
  | none => rfl
  | some n => rfl

/-- Folding the `nodes` segment over a state. -/
theorem goFold_nodes (st : GoParams) (o : Option Nat) :
    List.foldl (fun s f => goFieldApply f s) st
      (match o with | some n => [GoField.nodes n] | none => [])
      = { st with nodes := o.or st.nodes } := by
  cases o with
  | none => rfl
  | some n => rfl

/-- Folding the `mate` segment over a state. -/
theorem goFold_mate (st : GoParams) (o : Option Nat) :
    List.foldl (fun s f => goFieldApply f s) st
      (match o with | some n => [GoField.mate n] | none => [])
      = { st with mate := o.or st.mate } := by
  cases o with
  | none => rfl
  | some n => rfl

/-- Folding the `movetime` segment over a state. -/
theorem goFold_movetime (st : GoParams) (o : Option Nat) :
    List.foldl (fun s f => goFieldApply f s) st
      (match o with | some n => [GoField.movetime n] | none => [])
      = { st with movetime := o.or st.movetime } := by
  cases o with
  | none => rfl
  | some n => rfl

/-- Folding the `infinite` segment over a state. -/
theorem goFold_infinite (st : GoParams) (b : Bool) :
    List.foldl (fun s f => goFieldApply f s) st
      (if b then [GoField.infinite] else [])
      = { st with infinite := b || st.infinite } := by
  cases b with
  | false => rfl
  | true => rfl

/-- Folding the present-field updates over the default state rebuilds
the parameters. -/
theorem goFields_foldl (g : GoParams) :
    (goFields g).foldl (fun s f => goFieldApply f s) goDefault = g := by
  rw [goFields]
  rw [List.foldl_append, List.foldl_append, List.foldl_append, List.foldl_append,
    List.foldl_append, List.foldl_append, List.foldl_append, List.foldl_append,
    List.foldl_append, List.foldl_append, List.foldl_append]
  rw [goFold_searchmoves, goFold_ponder, goFold_wtime, goFold_btime, goFold_winc,
    goFold_binc, goFold_movestogo, goFold_depth, goFold_nodes, goFold_mate,
    goFold_movetime, goFold_infinite]
  simp [goDefault]

/-- Any number accepted by the `bits`-wide parse is in range. -/
theorem parseUNat_lt (bits : Nat) (t : Str) (n : Nat)
    (h : parseUNat bits t = some n) : n < 2 ^ bits := by
  unfold parseUNat at h
  rcases hd : digitsVal (stripPlus t) with _ | v
  · rw [hd] at h
    simp at h
  · rw [hd] at h
    simp only [] at h
    by_cases hb : v < 2 ^ bits
    · rw [if_pos hb] at h
      injection h with h2
      rw [← h2]
      exact hb
    · rw [if_neg hb] at h
      simp at h

/-- A ranged number satisfies the optional bound. -/
theorem boundOpt_some (bits n : Nat) (h : n < 2 ^ bits) :
    boundOpt bits (some n) := by
  intro n' h'
  injection h' with e
  rw [← e]
  exact h

/-- Every move collected by `parse_moves` is canonical, granted the
codec contract. -/
theorem parseMovesF_canon (c : ExtCodec)
    (hc1 : ∀ t m, c.parseMove t = some m → c.parseMove m = some m)
    (hc2 : ∀ t m, c.parseMove t = some m → isTokenB m = true) :
    ∀ (fuel : Nat) (s : Str), ∀ m ∈ (parseMovesF c fuel s).fst, moveCanon c m := by
  intro fuel
  induction fuel with
  | zero =>
    intro s m hm
    simp [parseMovesF] at hm
  | succ fuel ih =>
    intro s m hm
    rw [parseMovesF] at hm
    rcases hr : read s with ⟨tko, s'⟩
    rw [hr] at hm
    cases tko with
    | none => simp at hm
    | some t =>
      simp only [] at hm
      rcases hpm : c.parseMove t with _ | mv
      · rw [hpm] at hm
        simp at hm
      · rw [hpm] at hm
        simp only [List.mem_cons] at hm
        rcases hm with hm | hm
        · rw [hm]
          exact ⟨hc1 t mv hpm, hc2 t mv hpm⟩
        · exact ih s' m hm

/-- Every move in a successful `moves` tail parse is canonical. -/
theorem parseAllMovesF_canon (c : ExtCodec)
    (hc1 : ∀ t m, c.parseMove t = some m → c.parseMove m = some m)
    (hc2 : ∀ t m, c.parseMove t = some m → isTokenB m = true) :
    ∀ (fuel : Nat) (s : Str) (ms : List Str),
      parseAllMovesF c fuel s = some ms → ∀ m ∈ ms, moveCanon c m := by
  intro fuel
  induction fuel with
  | zero =>
    intro s ms h
    simp [parseAllMovesF] at h
  | succ fuel ih =>
    intro s ms h
    rw [parseAllMovesF] at h
    rcases hr : read s with ⟨tko, s'⟩
    rw [hr] at h
    cases tko with
    | none =>
      simp only [] at h
      injection h with h2
      rw [← h2]
      intro m hm
      simp at hm
    | some t =>
      simp only [] at h
      rcases hpm : c.parseMove t with _ | mv
      · rw [hpm] at h
        simp at h
      · rw [hpm] at h
        rcases hrec : parseAllMovesF c fuel s' with _ | ms'
        · rw [hrec] at h
          simp at h
        · rw [hrec] at h
          simp only [Option.map_some] at h
          injection h with h2
          rw [← h2]
          intro m hm
          simp only [List.mem_cons] at hm
          rcases hm with hm | hm
          · rw [hm]
            exact ⟨hc1 t mv hpm, hc2 t mv hpm⟩
          · exact ih s' ms' hrec m hm

/-- The initial `parse_go` state is well formed. -/
theorem WFgo_default (c : ExtCodec) : WFgo c goDefault := by
  refine ⟨?_, ?_, ?_, ?_, ?_, ?_, ?_, ?_, ?_, ?_⟩
  all_goals intro x h
  all_goals simp [goDefault] at h

/-- The `parse_go` keyword loop preserves well-formedness of the
accumulated parameters. -/
theorem parseGoLoopF_WF (c : ExtCodec)
    (hc1 : ∀ t m, c.parseMove t = some m → c.parseMove m = some m)
    (hc2 : ∀ t m, c.parseMove t = some m → isTokenB m = true) :
    ∀ (fuel : Nat) (st : GoParams) (s : Str) (g : GoParams),
      WFgo c st → parseGoLoopF c fuel st s = .ok g → WFgo c g := by
  intro fuel
  induction fuel with
  | zero =>
    intro st s g _ h
    simp [parseGoLoopF] at h
  | succ fuel ih =>
    intro st s g hst h
    rw [parseGoLoopF] at h
    rcases hr : read s with ⟨tko, s₁⟩
    rw [hr] at h
    cases tko with
    | none =>
      simp only [] at h
      injection h with h2
      rw [← h2]
      exact hst
    | some t =>
      simp only [] at h
      obtain ⟨a1, a2, a3, a4, a5, a6, a7, a8, a9, a10⟩ := hst
      by_cases h1 : t = "ponder".data
      · rw [if_pos h1] at h
        refine ih _ _ _ ?_ h
        exact ⟨a1, a2, a3, a4, a5, a6, a7, a8, a9, a10⟩
      rw [if_neg h1] at h
      by_cases h2 : t = "infinite".data
      · rw [if_pos h2] at h
        refine ih _ _ _ ?_ h
        exact ⟨a1, a2, a3, a4, a5, a6, a7, a8, a9, a10⟩
      rw [if_neg h2] at h
      by_cases h3 : t = "movestogo".data
      · rw [if_pos h3] at h
        rcases hr2 : read s₁ with ⟨uo, s₂⟩
        rw [hr2] at h
        cases uo with
        | none => simp at h
        | some u =>
          simp only [] at h
          rcases hpu : parseUNat 32 u with _ | n
          · rw [hpu] at h
            simp at h
          · rw [hpu] at h
            refine ih _ _ _ ?_ h
            exact ⟨a1, a2, a3, a4, a5, boundOpt_some 32 n (parseUNat_lt 32 u n hpu), a7, a8, a9, a10⟩
      rw [if_neg h3] at h
      by_cases h4 : t = "depth".data
      · rw [if_pos h4] at h
        rcases hr2 : read s₁ with ⟨uo, s₂⟩
        rw [hr2] at h
        cases uo with
        | none => simp at h
        | some u =>
          simp only [] at h
          rcases hpu : parseUNat 32 u with _ | n
          · rw [hpu] at h
            simp at h
          · rw [hpu] at h
            refine ih _ _ _ ?_ h
            exact ⟨a1, a2, a3, a4, a5, a6, boundOpt_some 32 n (parseUNat_lt 32 u n hpu), a8, a9, a10⟩
      rw [if_neg h4] at h
      by_cases h5 : t = "nodes".data
      · rw [if_pos h5] at h
        rcases hr2 : read s₁ with ⟨uo, s₂⟩
        rw [hr2] at h
        cases uo with
        | none => simp at h
        | some u =>
          simp only [] at h
          rcases hpu : parseUNat 64 u with _ | n
          · rw [hpu] at h
            simp at h
          · rw [hpu] at h
            refine ih _ _ _ ?_ h
            exact ⟨a1, a2, a3, a4, a5, a6, a7, boundOpt_some 64 n (parseUNat_lt 64 u n hpu), a9, a10⟩
      rw [if_neg h5] at h
      by_cases h6 : t = "mate".data
      · rw [if_pos h6] at h
        rcases hr2 : read s₁ with ⟨uo, s₂⟩
        rw [hr2] at h
        cases uo with
        | none => simp at h
        | some u =>
          simp only [] at h
          rcases hpu : parseUNat 32 u with _ | n
          · rw [hpu] at h
            simp at h
          · rw [hpu] at h
            refine ih _ _ _ ?_ h
            exact ⟨a1, a2, a3, a4, a5, a6, a7, a8, boundOpt_some 32 n (parseUNat_lt 32 u n hpu), a10⟩
      rw [if_neg h6] at h
      by_cases h7 : t = "movetime".data
      · rw [if_pos h7] at h
        rcases hr2 : read s₁ with ⟨uo, s₂⟩
        rw [hr2] at h
        cases uo with
        | none => simp at h
        | some u =>
          simp only [] at h
          rcases hpu : parseUNat 64 u with _ | n
          · rw [hpu] at h
            simp at h
          · rw [hpu] at h
            refine ih _ _ _ ?_ h
            exact ⟨a1, a2, a3, a4, a5, a6, a7, a8, a9, boundOpt_some 64 n (parseUNat_lt 64 u n hpu)⟩
      rw [if_neg h7] at h
      by_cases h8 : t = "wtime".data
      · rw [if_pos h8] at h
        rcases hr2 : read s₁ with ⟨uo, s₂⟩
        rw [hr2] at h
        cases uo with
        | none => simp at h
        | some u =>
          simp only [] at h
          rcases hpu : parseUNat 64 u with _ | n
          · rw [hpu] at h
            simp at h
          · rw [hpu] at h
            refine ih _ _ _ ?_ h
            exact ⟨a1, boundOpt_some 64 n (parseUNat_lt 64 u n hpu), a3, a4, a5, a6, a7, a8, a9, a10⟩
      rw [if_neg h8] at h
      by_cases h9 : t = "btime".data
      · rw [if_pos h9] at h
        rcases hr2 : read s₁ with ⟨uo, s₂⟩
        rw [hr2] at h
        cases uo with
        | none => simp at h
        | some u =>
          simp only [] at h
          rcases hpu : parseUNat 64 u with _ | n
          · rw [hpu] at h
            simp at h
          · rw [hpu] at h
            refine ih _ _ _ ?_ h
            exact ⟨a1, a2, boundOpt_some 64 n (parseUNat_lt 64 u n hpu), a4, a5, a6, a7, a8, a9, a10⟩
      rw [if_neg h9] at h
      by_cases h10 : t = "winc".data
      · rw [if_pos h10] at h
        rcases hr2 : read s₁ with ⟨uo, s₂⟩
        rw [hr2] at h
        cases uo with
        | none => simp at h
        | some u =>
          simp only [] at h
          rcases hpu : parseUNat 64 u with _ | n
          · rw [hpu] at h
            simp at h
          · rw [hpu] at h
            refine ih _ _ _ ?_ h
            exact ⟨a1, a2, a3, boundOpt_some 64 n (parseUNat_lt 64 u n hpu), a5, a6, a7, a8, a9, a10⟩
      rw [if_neg h10] at h
      by_cases h11 : t = "binc".data
      · rw [if_pos h11] at h
        rcases hr2 : read s₁ with ⟨uo, s₂⟩
        rw [hr2] at h
        cases uo with
        | none => simp at h
        | some u =>
          simp only [] at h
          rcases hpu : parseUNat 64 u with _ | n
          · rw [hpu] at h
            simp at h
          · rw [hpu] at h
            refine ih _ _ _ ?_ h
            exact ⟨a1, a2, a3, a4, boundOpt_some 64 n (parseUNat_lt 64 u n hpu), a6, a7, a8, a9, a10⟩
      rw [if_neg h11] at h
      by_cases h12 : t = "searchmoves".data
      · rw [if_pos h12] at h
        refine ih _ _ _ ?_ h
        refine ⟨?_, a2, a3, a4, a5, a6, a7, a8, a9, a10⟩
        intro ms hms
        injection hms with e
        rw [← e]
        exact fun m hm => parseMovesF_canon c hc1 hc2 _ _ m hm
      rw [if_neg h12] at h
      simp at h

/-- Any `setoption` value the parser accepts has the shape `Display`
needs: trimmed name and value, no stray `value` token in the name, and
no line breaks. -/
theorem parseSetoption_WF (c : ExtCodec) (s : Str) (hclean : cleanB s = true)
    (u : UciIn) (h : parseSetoption s = .ok u) : WFIn c u := by
  unfold parseSetoption at h
  rcases hr : read s with ⟨tko, s₁⟩
  rw [hr] at h
  cases tko with
  | none => simp at h
  | some t =>
    simp only [] at h
    obtain ⟨-, -, -, -, hs₁sub, -⟩ := read_some s t s₁ hr
    have hs₁clean : cleanB s₁ = true := cleanB_of_subset s₁ s hs₁sub hclean
    by_cases h1 : t = "name".data
    · rw [if_pos h1] at h
      rcases hru : readUntil s₁ valuePred with ⟨no, s₂⟩
      rw [hru] at h
      cases no with
      | none => simp at h
      | some name =>
        simp only [] at h
        obtain ⟨hnT, hnNS, hnameSub, hs₂sub⟩ := readUntil_inv valuePred s₁ name s₂ hru
        have hnC : cleanB name = true := cleanB_of_subset name s₁ hnameSub hs₁clean
        have hs₂clean : cleanB s₂ = true := cleanB_of_subset s₂ s₁ hs₂sub hs₁clean
        rcases hr2 : read s₂ with ⟨t2o, s₃⟩
        rw [hr2] at h
        cases t2o with
        | none =>
          simp only [] at h
          injection h with h2
          rw [← h2]
          exact ⟨⟨hnT, hnNS, hnC⟩, fun v hv => by simp at hv⟩
        | some t₂ =>
          simp only [] at h
          obtain ⟨-, -, -, -, hs₃sub, -⟩ := read_some s₂ t₂ s₃ hr2
          have hs₃clean : cleanB s₃ = true := cleanB_of_subset s₃ s₂ hs₃sub hs₂clean
          by_cases h2 : t₂ = "value".data
          · rw [if_pos h2] at h
            rcases hruv : readUntil s₃ (fun _ => false) with ⟨vo, s₄⟩
            rw [hruv] at h
            cases vo with
            | none => simp at h
            | some v =>
              simp only [] at h
              injection h with h3
              rw [← h3]
              obtain ⟨hvT, -, hvSub, -⟩ := readUntil_inv _ s₃ v s₄ hruv
              have hvC : cleanB v = true := cleanB_of_subset v s₃ hvSub hs₃clean
              refine ⟨⟨hnT, hnNS, hnC⟩, ?_⟩
              intro v' hv'
              injection hv' with e
              rw [← e]
              exact ⟨hvT, hvC⟩
          · rw [if_neg h2] at h
            simp at h
    · rw [if_neg h1] at h
      simp at h

/-- Any `position` value the optional-`moves` tail parse produces is well
formed, granted a well-formed FEN argument. -/
theorem parsePositionMoves_WF (c : ExtCodec)
    (hc1 : ∀ t m, c.parseMove t = some m → c.parseMove m = some m)
    (hc2 : ∀ t m, c.parseMove t = some m → isTokenB m = true)
    (fen : Option Str) (s : Str) (u : UciIn)
    (hfen : ∀ f, fen = some f → c.parseFen f = some f ∧ tokTrimB f = true
      ∧ noStopTok movesPred f = true ∧ cleanB f = true)
    (h : parsePositionMoves c fen s = .ok u) : WFIn c u := by
  unfold parsePositionMoves at h
  rcases hr : read s with ⟨tko, s₁⟩
  rw [hr] at h
  cases tko with
  | none =>
    simp only [] at h
    injection h with h2
    rw [← h2]
    exact ⟨hfen, fun m hm => by simp at hm⟩
  | some t =>
    simp only [] at h
    by_cases h1 : t = "moves".data
    · rw [if_pos h1] at h
      rcases hms : parseAllMovesF c (s₁.length + 1) s₁ with _ | ms
      · rw [hms] at h
        simp at h
      · rw [hms] at h
        injection h with h2
        rw [← h2]
        exact ⟨hfen, parseAllMovesF_canon c hc1 hc2 _ _ ms hms⟩
    · rw [if_neg h1] at h
      simp at h

/-- Any `position` value `parse_position` produces is well formed,
granted the codec contract on FENs. -/
theorem parsePosition_WF (c : ExtCodec)
    (hc1 : ∀ t m, c.parseMove t = some m → c.parseMove m = some m)
    (hc2 : ∀ t m, c.parseMove t = some m → isTokenB m = true)
    (hc4 : ∀ t f, c.parseFen t = some f → c.parseFen f = some f)
    (hc5 : ∀ t f, c.parseFen t = some f →
      tokTrimB f = true ∧ noStopTok movesPred f = true ∧ cleanB f = true)
    (s : Str) (u : UciIn) (h : parsePosition c s = .ok u) : WFIn c u := by
  unfold parsePosition at h
  rcases hr : read s with ⟨tko, s₁⟩
  rw [hr] at h
  cases tko with
  | none => simp at h
  | some t =>
    simp only [] at h
    by_cases h1 : t = "startpos".data
    · rw [if_pos h1] at h
      exact parsePositionMoves_WF c hc1 hc2 none s₁ u (fun f hf => by simp at hf) h
    · rw [if_neg h1] at h
      by_cases h2 : t = "fen".data
      · rw [if_pos h2] at h
        rcases hru : readUntil s₁ movesPred with ⟨fo, s₂⟩
        rw [hru] at h
        cases fo with
        | none => simp at h
        | some ftext =>
          simp only [] at h
          rcases hpf : c.parseFen ftext with _ | f
          · rw [hpf] at h
            simp at h
          · rw [hpf] at h
            refine parsePositionMoves_WF c hc1 hc2 (some f) s₂ u ?_ h
            intro f' hf'
            injection hf' with e
            rw [← e]
            exact ⟨hc4 ftext f hpf, hc5 ftext f hpf⟩
      · rw [if_neg h2] at h
        simp at h

/-- Any value the input parser produces from a clean line is well
formed: the shapes `Display` relies on are invariants of the parse. -/
theorem parseIn_WF (c : ExtCodec) (hc : CodecOk c) (s : Str)
    (hclean : cleanB s = true) (v : UciIn)
    (h : parseIn c s = .ok (some v)) : WFIn c v := by
  obtain ⟨hc1, hc2, hc3, hc4, hc5⟩ := hc
  unfold parseIn at h
  rcases hr : read s with ⟨tko, s₁⟩
  rw [hr] at h
  cases tko with
  | none =>
    simp only [] at h
    injection h with h2
    simp at h2
  | some t =>
    simp only [] at h
    obtain ⟨-, -, -, -, hs₁sub, -⟩ := read_some s t s₁ hr
    have hs₁clean : cleanB s₁ = true := cleanB_of_subset s₁ s hs₁sub hclean
    by_cases h1 : t = "uci".data
    · rw [if_pos h1] at h
      rcases he : endOfLine s₁ with e | un
      · rw [he] at h
        simp [Except.map] at h
      · rw [he] at h
        simp only [Except.map] at h
        injection h with h2
        injection h2 with h3
        rw [← h3]
        trivial
    rw [if_neg h1] at h
    by_cases h2 : t = "isready".data
    · rw [if_pos h2] at h
      rcases he : endOfLine s₁ with e | un
      · rw [he] at h
        simp [Except.map] at h
      · rw [he] at h
        simp only [Except.map] at h
        injection h with h2
        injection h2 with h3
        rw [← h3]
        trivial
    rw [if_neg h2] at h
    by_cases h3 : t = "ucinewgame".data
    · rw [if_pos h3] at h
      rcases he : endOfLine s₁ with e | un
      · rw [he] at h
        simp [Except.map] at h
      · rw [he] at h
        simp only [Except.map] at h
        injection h with h4
        injection h4 with h5
        rw [← h5]
        trivial
    rw [if_neg h3] at h
    by_cases h4 : t = "stop".data
    · rw [if_pos h4] at h
      rcases he : endOfLine s₁ with e | un
      · rw [he] at h
        simp [Except.map] at h
      · rw [he] at h
        simp only [Except.map] at h
        injection h with h5
        injection h5 with h6
        rw [← h6]
        trivial
    rw [if_neg h4] at h
    by_cases h5 : t = "ponderhit".data
    · rw [if_pos h5] at h
      rcases he : endOfLine s₁ with e | un
      · rw [he] at h
        simp [Except.map] at h
      · rw [he] at h
        simp only [Except.map] at h
        injection h with h6
        injection h6 with h7
        rw [← h7]
        trivial
    rw [if_neg h5] at h
    by_cases h6 : t = "setoption".data
    · rw [if_pos h6] at h
      rcases hps : parseSetoption s₁ with e | u
      · rw [hps] at h
        simp [Except.map] at h
      · rw [hps] at h
        simp only [Except.map] at h
        injection h with h7
        injection h7 with h8
        rw [← h8]
        exact parseSetoption_WF c s₁ hs₁clean u hps
    rw [if_neg h6] at h
    by_cases h7 : t = "position".data
    · rw [if_pos h7] at h
      rcases hps : parsePosition c s₁ with e | u
      · rw [hps] at h
        simp [Except.map] at h
      · rw [hps] at h
        simp only [Except.map] at h
        injection h with h8
        injection h8 with h9
        rw [← h9]
        exact parsePosition_WF c hc1 hc2 hc4 hc5 s₁ u hps
    rw [if_neg h7] at h
    by_cases h8 : t = "go".data
    · rw [if_pos h8] at h
      rcases hpg : parseGoLoopF c (s₁.length + 1) goDefault s₁ with e | g
      · rw [hpg] at h
        simp [Except.map] at h
      · rw [hpg] at h
        simp only [Except.map] at h
        injection h with h9
        injection h9 with h10
        rw [← h10]
        exact parseGoLoopF_WF c hc1 hc2 _ goDefault s₁ g (WFgo_default c) hpg
    rw [if_neg h8] at h
    simp at h

/-- Decimal prints contain no line breaks. -/
theorem natStr_clean (n : Nat) : cleanB (natStr n) = true :=
  (isTokenB_parts _ (natStr_shape n).1).2.2

/-- A displayed move list is clean when its moves are. -/
theorem cleanB_spaced (ms : List Str) (h : ∀ m ∈ ms, cleanB m = true) :
    cleanB (spaced ms) = true := by
  induction ms with
  | nil => rfl
  | cons m ms' ih =>
    have hsp : spaced (m :: ms') = (' ' :: m) ++ spaced ms' := by
      simp [spaced]
    rw [hsp, cleanB_append]
    simp only [Bool.and_eq_true]
    constructor
    · have hm := h m (List.mem_cons_self m ms')
      unfold cleanB at hm ⊢
      simp [hm]
    · exact ih fun x hx => h x (List.mem_cons_of_mem m hx)

/-- Each present field of `goFields` is well formed when the parameters
are. -/
theorem goFields_good (c : ExtCodec) (g : GoParams) (hwf : WFgo c g) :
    ∀ f ∈ goFields g, goodGoField c f := by
  obtain ⟨a1, a2, a3, a4, a5, a6, a7, a8, a9, a10⟩ := hwf
  intro f hf
  simp only [goFields, List.mem_append] at hf
  rcases hf with ((((((((((hf | hf) | hf) | hf) | hf) | hf) | hf) | hf) | hf) | hf) | hf) | hf
  · rcases hx : g.searchmoves with _ | ms
    · rw [hx] at hf
      simp at hf
    · rw [hx] at hf
      simp at hf
      rw [hf]
      exact a1 ms hx
  · rcases hx : g.ponder with _ | _
    · rw [hx] at hf
      simp at hf
    · rw [hx] at hf
      simp at hf
      rw [hf]
      trivial
  · rcases hx : g.wtime with _ | n
    · rw [hx] at hf
      simp at hf
    · rw [hx] at hf
      simp at hf
      rw [hf]
      exact a2 n hx
  · rcases hx : g.btime with _ | n
    · rw [hx] at hf
      simp at hf
    · rw [hx] at hf
      simp at hf
      rw [hf]
      exact a3 n hx
  · rcases hx : g.winc with _ | n
    · rw [hx] at hf
      simp at hf
    · rw [hx] at hf
      simp at hf
      rw [hf]
      exact a4 n hx
  · rcases hx : g.binc with _ | n
    · rw [hx] at hf
      simp at hf
    · rw [hx] at hf
      simp at hf
      rw [hf]
      exact a5 n hx
  · rcases hx : g.movestogo with _ | n
    · rw [hx] at hf
      simp at hf
    · rw [hx] at hf
      simp at hf
      rw [hf]
      exact a6 n hx
  · rcases hx : g.depth with _ | n
    · rw [hx] at hf
      simp at hf
    · rw [hx] at hf
      simp at hf
      rw [hf]
      exact a7 n hx
  · rcases hx : g.nodes with _ | n
    · rw [hx] at hf
      simp at hf
    · rw [hx] at hf
      simp at hf
      rw [hf]
      exact a8 n hx
  · rcases hx : g.mate with _ | n
    · rw [hx] at hf
      simp at hf
    · rw [hx] at hf
      simp at hf
      rw [hf]
      exact a9 n hx
  · rcases hx : g.movetime with _ | n
    · rw [hx] at hf
      simp at hf
    · rw [hx] at hf
      simp at hf
      rw [hf]
      exact a10 n hx
  · rcases hx : g.infinite with _ | _
    · rw [hx] at hf
      simp at hf
    · rw [hx] at hf
      simp at hf
      rw [hf]
      trivial

/-- The text of a well-formed field is clean. -/
theorem goFieldText_clean (c : ExtCodec) (f : GoField)
    (hg : goodGoField c f) : cleanB (goFieldText f) = true := by
  cases f with
  | searchmoves ms =>
    rw [show goFieldText (.searchmoves ms) = " searchmoves".data ++ spaced ms from rfl,
      cleanB_append]
    simp only [Bool.and_eq_true]
    exact ⟨by decide, cleanB_spaced ms fun m hm => (isTokenB_parts m (hg m hm).2).2.2⟩
  | ponder => decide
  | wtime n =>
    rw [show goFieldText (.wtime n) = " wtime ".data ++ natStr n from rfl, cleanB_append]
    simp only [Bool.and_eq_true]
    exact ⟨by decide, natStr_clean n⟩
  | btime n =>
    rw [show goFieldText (.btime n) = " btime ".data ++ natStr n from rfl, cleanB_append]
    simp only [Bool.and_eq_true]
    exact ⟨by decide, natStr_clean n⟩
  | winc n =>
    rw [show goFieldText (.winc n) = " winc ".data ++ natStr n from rfl, cleanB_append]
    simp only [Bool.and_eq_true]
    exact ⟨by decide, natStr_clean n⟩
  | binc n =>
    rw [show goFieldText (.binc n) = " binc ".data ++ natStr n from rfl, cleanB_append]
    simp only [Bool.and_eq_true]
    exact ⟨by decide, natStr_clean n⟩
  | movestogo n =>
    rw [show goFieldText (.movestogo n) = " movestogo ".data ++ natStr n from rfl,
      cleanB_append]
    simp only [Bool.and_eq_true]
    exact ⟨by decide, natStr_clean n⟩
  | depth n =>
    rw [show goFieldText (.depth n) = " depth ".data ++ natStr n from rfl, cleanB_append]
    simp only [Bool.and_eq_true]
    exact ⟨by decide, natStr_clean n⟩
  | nodes n =>
    rw [show goFieldText (.nodes n) = " nodes ".data ++ natStr n from rfl, cleanB_append]
    simp only [Bool.and_eq_true]
    exact ⟨by decide, natStr_clean n⟩
  | mate n =>
    rw [show goFieldText (.mate n) = " mate ".data ++ natStr n from rfl, cleanB_append]
    simp only [Bool.and_eq_true]
    exact ⟨by decide, natStr_clean n⟩
  | movetime n =>
    rw [show goFieldText (.movetime n) = " movetime ".data ++ natStr n from rfl,
      cleanB_append]
    simp only [Bool.and_eq_true]
    exact ⟨by decide, natStr_clean n⟩
  | infinite => decide

/-- The displayed `Go` tail of well-formed fields is clean. -/
theorem goTailText_clean (c : ExtCodec) (fs : List GoField)
    (h : ∀ f ∈ fs, goodGoField c f) : cleanB (goTailText fs) = true := by
  induction fs with
  | nil => rfl
  | cons f fs' ih =>
    rw [show goTailText (f :: fs') = goFieldText f ++ goTailText fs' from rfl,
      cleanB_append]
    simp only [Bool.and_eq_true]
    exact ⟨goFieldText_clean c f (h f (List.mem_cons_self f fs')),
      ih fun x hx => h x (List.mem_cons_of_mem f hx)⟩

/-- The display of a well-formed input command never contains a line
break, so `from_line` accepts it. -/
theorem displayIn_clean (c : ExtCodec) (v : UciIn) (hwf : WFIn c v) :
    cleanB (displayIn v) = true := by
  cases v with
  | uci => decide
  | isready => decide
  | ucinewgame => decide
  | stop => decide
  | ponderhit => decide
  | setoption name val =>
    obtain ⟨⟨-, -, hnC⟩, hval⟩ := hwf
    cases val with
    | none =>
      rw [show displayIn (.setoption name none)
          = "setoption name ".data ++ name ++ [] from rfl]
      rw [List.append_nil, cleanB_append]
      simp only [Bool.and_eq_true]
      exact ⟨by decide, hnC⟩
    | some v' =>
      obtain ⟨-, hvC⟩ := hval v' rfl
      rw [show displayIn (.setoption name (some v'))
          = ("setoption name ".data ++ name) ++ (" value ".data ++ v') from rfl]
      rw [cleanB_append, cleanB_append, cleanB_append]
      simp only [Bool.and_eq_true]
      exact ⟨⟨by decide, hnC⟩, by decide, hvC⟩
  | position fen moves =>
    obtain ⟨hfen, hcan⟩ := hwf
    have hmv : cleanB (if moves.isEmpty then [] else " moves".data ++ spaced moves)
        = true := by
      cases moves with
      | nil => decide
      | cons m ms' =>
        rw [show (if (m :: ms').isEmpty then [] else " moves".data ++ spaced (m :: ms'))
            = " moves".data ++ spaced (m :: ms') from rfl, cleanB_append]
        simp only [Bool.and_eq_true]
        refine ⟨by decide, cleanB_spaced _ ?_⟩
        intro x hx
        exact (isTokenB_parts x (hcan x hx).2).2.2
    cases fen with
    | none =>
      rw [show displayIn (.position none moves) = "position startpos".data
          ++ (if moves.isEmpty then [] else " moves".data ++ spaced moves) from rfl,
        cleanB_append]
      simp only [Bool.and_eq_true]
      exact ⟨by decide, hmv⟩
    | some f =>
      obtain ⟨-, -, -, hfC⟩ := hfen f rfl
      rw [show displayIn (.position (some f) moves) = ("position fen ".data ++ f)
          ++ (if moves.isEmpty then [] else " moves".data ++ spaced moves) from rfl,
        cleanB_append, cleanB_append]
      simp only [Bool.and_eq_true]
      exact ⟨⟨by decide, hfC⟩, hmv⟩
  | go g =>
    rw [show displayIn (.go g) = displayGo g from rfl, displayGo_goTailText,
      cleanB_append]
    simp only [Bool.and_eq_true]
    exact ⟨by decide, goTailText_clean c (goFields g) (goFields_good c g hwf)⟩

/-- Re-parsing the display of a well-formed input command yields the
command back. -/
theorem displayIn_replay (c : ExtCodec)
    (hkw : ∀ k ∈ goKeywords, c.parseMove k = none) :
    ∀ v : UciIn, WFIn c v → parseIn c (displayIn v) = .ok (some v) := by
  intro v hwf
  cases v with
  | uci => rfl
  | isready => rfl
  | ucinewgame => rfl
  | stop => rfl
  | ponderhit => rfl
  | setoption name val =>
    obtain ⟨⟨hnT, hnNS, -⟩, hval⟩ := hwf
    cases val with
    | none =>
      have hd : displayIn (.setoption name none)
          = "setoption".data ++ (' ' :: ("name".data ++ ' ' :: name)) := by
        rw [show displayIn (.setoption name none)
            = "setoption name ".data ++ name ++ [] from rfl, List.append_nil]
        rfl
      rw [hd]
      have hread : read ("setoption".data ++ (' ' :: ("name".data ++ ' ' :: name)))
          = (some "setoption".data, ' ' :: ("name".data ++ ' ' :: name)) :=
        read_token _ _ (by decide) (by decide) rfl
      unfold parseIn
      simp only [hread]
      repeat rw [if_neg (by decide)]
      try rw [if_pos trivial]
      rw [parseSetoption_replay_none name hnT hnNS]
      rfl
    | some v' =>
      obtain ⟨hvT, -⟩ := hval v' rfl
      have hd : displayIn (.setoption name (some v'))
          = "setoption".data ++ (' ' :: ("name".data
            ++ ' ' :: (name ++ ' ' :: ("value".data ++ ' ' :: v')))) := rfl
      rw [hd]
      have hread : read ("setoption".data ++ (' ' :: ("name".data
            ++ ' ' :: (name ++ ' ' :: ("value".data ++ ' ' :: v')))))
          = (some "setoption".data, ' ' :: ("name".data
            ++ ' ' :: (name ++ ' ' :: ("value".data ++ ' ' :: v')))) :=
        read_token _ _ (by decide) (by decide) rfl
      unfold parseIn
      simp only [hread]
      repeat rw [if_neg (by decide)]
      try rw [if_pos trivial]
      rw [parseSetoption_replay_some name v' hnT hnNS hvT]
      rfl
  | position fen moves =>
    obtain ⟨hfen, hcan⟩ := hwf
    cases fen with
    | none =>
      have hd : displayIn (.position none moves)
          = "position".data ++ (' ' :: ("startpos".data
            ++ (if moves.isEmpty then [] else " moves".data ++ spaced moves))) := rfl
      rw [hd]
      have hread : read ("position".data ++ (' ' :: ("startpos".data
            ++ (if moves.isEmpty then [] else " moves".data ++ spaced moves))))
          = (some "position".data, ' ' :: ("startpos".data
            ++ (if moves.isEmpty then [] else " moves".data ++ spaced moves))) :=
        read_token _ _ (by decide) (by decide) rfl
      unfold parseIn
      simp only [hread]
      repeat rw [if_neg (by decide)]
      try rw [if_pos trivial]
      rw [parsePosition_replay_startpos c moves hcan]
      rfl
    | some f =>
      obtain ⟨hpf, hfT, hfNS, -⟩ := hfen f rfl
      have hd : displayIn (.position (some f) moves)
          = "position".data ++ (' ' :: ("fen".data ++ ' ' :: (f
            ++ (if moves.isEmpty then [] else " moves".data ++ spaced moves)))) := rfl
      rw [hd]
      have hread : read ("position".data ++ (' ' :: ("fen".data ++ ' ' :: (f
            ++ (if moves.isEmpty then [] else " moves".data ++ spaced moves)))))
          = (some "position".data, ' ' :: ("fen".data ++ ' ' :: (f
            ++ (if moves.isEmpty then [] else " moves".data ++ spaced moves)))) :=
        read_token _ _ (by decide) (by decide) rfl
      unfold parseIn
      simp only [hread]
      repeat rw [if_neg (by decide)]
      try rw [if_pos trivial]
      rw [parsePosition_replay_fen c f moves hpf hfT hfNS hcan]
      rfl
  | go g =>
    have hd : displayIn (.go g) = "go".data ++ goTailText (goFields g) :=
      displayGo_goTailText g
    rw [hd]
    have hread : read ("go".data ++ goTailText (goFields g))
        = (some "go".data, goTailText (goFields g)) :=
      read_token _ _ (by decide) (by decide) (goTailText_headSep _)
    unfold parseIn
    simp only [hread]
    repeat rw [if_neg (by decide)]
    try rw [if_pos trivial]
    rw [parseGoLoopF_replay c hkw (goFields g) goDefault _
      (goFields_good c g hwf) (Nat.lt_succ_self _)]
    rw [goFields_foldl]
    rfl

/-- The demonstration codec satisfies the external-library contract. -/
theorem demoCodec_ok : CodecOk demoCodec := by
  refine ⟨?_, ?_, ?_, ?_, ?_⟩
  · intro t m h
    unfold demoCodec at h ⊢
    simp only [] at h ⊢
    by_cases hcond : t = "e2e4".data ∨ t = "e7e5".data ∨ t = "e7e8q".data
        ∨ t = "0000".data
    · rw [if_pos hcond] at h
      injection h with e
      rw [← e]
      rw [if_pos hcond]
    · rw [if_neg hcond] at h
      simp at h
  · intro t m h
    unfold demoCodec at h
    simp only [] at h
    by_cases hcond : t = "e2e4".data ∨ t = "e7e5".data ∨ t = "e7e8q".data
        ∨ t = "0000".data
    · rw [if_pos hcond] at h
      injection h with e
      rw [← e]
      rcases hcond with h1 | h1 | h1 | h1
      all_goals rw [h1]
      all_goals decide
    · rw [if_neg hcond] at h
      simp at h
  · intro k hk
    fin_cases hk
    all_goals rfl
  · intro t f h
    unfold demoCodec at h ⊢
    simp only [] at h ⊢
    by_cases hcond : t = "xx yy 0 1".data
    · rw [if_pos hcond] at h
      injection h with e
      rw [← e]
      rw [if_pos hcond]
    · rw [if_neg hcond] at h
      simp at h
  · intro t f h
    unfold demoCodec at h
    simp only [] at h
    by_cases hcond : t = "xx yy 0 1".data
    · rw [if_pos hcond] at h
      injection h with e
      rw [← e, hcond]
      exact ⟨by decide, by decide, by decide⟩
    · rw [if_neg hcond] at h
      simp at h

/-- **C1.** Input codec round-trip: whenever `UciIn::from_line` decodes a
line to some command `v` (not the skipped blank case), decoding the
`Display` re-encoding of `v` succeeds and yields exactly `v`. The
external move/FEN library is abstracted by a codec satisfying the
`CodecOk` contract. -/
theorem c1_round_trip (c : ExtCodec) (hc : CodecOk c) (s : Str) (v : UciIn)
    (h : fromLine c s = .ok (some v)) :
    fromLine c (displayIn v) = .ok (some v) := by
  unfold fromLine at h
  by_cases hy : (s.any fun ch => ch == '\r' || ch == '\n') = true
  · rw [if_pos hy] at h
    simp at h
  · rw [if_neg hy] at h
    have hy' : (s.any fun ch => ch == '\r' || ch == '\n') = false := by
      cases hb : s.any fun ch => ch == '\r' || ch == '\n'
      · rfl
      · exact absurd hb hy
    have hcs : cleanB s = true := cleanB_of_not_any s hy'
    have hwf : WFIn c v := parseIn_WF c hc s hcs v h
    rw [fromLine_of_clean c _ (displayIn_clean c v hwf)]
    exact displayIn_replay c hc.2.2.1 v hwf

/-- Closed instance of the C1 round trip on the demonstration codec: a
concrete `position fen … moves …` line decodes, and re-decoding its
re-encoding yields the same command. -/
theorem c1_round_trip_witness :
    fromLine demoCodec "  position fen xx yy 0 1 moves e2e4  e7e5 ".data
        = .ok (some (.position (some "xx yy 0 1".data) ["e2e4".data, "e7e5".data]))
    ∧ fromLine demoCodec (displayIn (.position (some "xx yy 0 1".data)
        ["e2e4".data, "e7e5".data]))
        = .ok (some (.position (some "xx yy 0 1".data) ["e2e4".data, "e7e5".data])) :=
  ⟨by decide, c1_round_trip demoCodec demoCodec_ok
    "  position fen xx yy 0 1 moves e2e4  e7e5 ".data
    (.position (some "xx yy 0 1".data) ["e2e4".data, "e7e5".data]) (by decide)⟩

/-- **C10.** A bare `bestmove` line (no move token) decodes successfully
to `Bestmove{m=None, ponder=None}`, the same value as
`bestmove (none)`; and a trailing `ponder` keyword with no move after it
yields `ponder = None`. -/
theorem c10_bestmove_none :
    fromLineOut demoCodec "bestmove".data = .ok (some (.bestmove none none))
    ∧ fromLineOut demoCodec "bestmove (none)".data = .ok (some (.bestmove none none))
    ∧ fromLineOut demoCodec "bestmove e2e4 ponder".data
        = .ok (some (.bestmove (some "e2e4".data) none)) := by
  decide

end RemoteUci
